import Mathlib

/-!
Cellular-automaton oscillator opcodes (JulianOpcodes.c)

A shallow embedding of `src/julian/JulianOpcodes.c`.

* `uint64_t` values are natural numbers; every operation that can leave the
  64-bit range is reduced modulo `2 ^ 64` explicitly.
* `MYFLT` and `double` values are rational numbers: the arithmetic of the
  opcodes is taken exactly (no rounding, no NaN, no infinities).
* The accumulator `TimeUntilNextSample`, a `double`, is moreover followed with the
  rounding of each of its updates, by the definitions `TimeUntilNextSample_*`;
  what is stated on the number of generations of a sample and on the range of the
  accumulator in the code is stated on these.
* A conversion from a real value to `uint64_t` whose result the C standard
  leaves undefined yields `none`.
* The output buffer `p->out` of a performance call is the list of the
  samples written, in order; `CS_KSMPS` is the length of that list.
-/

/-! ## Constants -/

/-- The ring has 64 cells (the local `NumBits` of `Evolve`). -/
def NumBits : Nat := 64

/-- Modelled from the spec: the constant `ULONG_MAX` of `<limits.h>` is not part of
the source; the spec fixes the divisor of the amplitude mapping as the 64-bit
maximum `2 ^ 64 - 1` (its value where `unsigned long` has 64 bits). -/
def ULONG_MAX : Nat := 2 ^ 64 - 1

/-- Modelled from the spec: the constant `FLT_EPSILON` of `<float.h>` is not part of
the source; the spec names it the machine single-precision epsilon, `2 ^ (-23)`. -/
def FLT_EPSILON : ℚ := 1 / 2 ^ 23

/-! ## Machine operations -/

/-- Left shift of a 64-bit value: `x << n` keeps the low 64 bits of `x * 2 ^ n`. -/
def shl64 (x n : Nat) : Nat := (x <<< n) % 2 ^ 64

/-- Rounding of a real value toward zero (the integral part kept by a C cast). -/
def truncQ (x : ℚ) : ℤ := if 0 ≤ x then ⌊x⌋ else -⌊-x⌋

/-- The cast `(uint64_t)x` of a real value: the value is truncated toward zero; the
result is defined only when the truncated value fits in 64 unsigned bits, that is
for `-1 < x < 2 ^ 64`. -/
def castU64 (x : ℚ) : Option Nat :=
  if -1 < x ∧ x < 2 ^ 64 then some (truncQ x).toNat else none

/-! ## The automaton -/

/-- The window value `Key` computed for output cell `i` in the body of the loop of
`Evolve` (lines 7, 12 and 13): the state rotated right by `idx`, masked by
`OrderMask`. -/
def EvolveKey (State Order i : Nat) : Nat :=
  let OrderMask := (shl64 1 Order + 2 ^ 64 - 1) % 2 ^ 64
  let idx := (i + NumBits - 1) % NumBits
  ((State >>> idx) ||| shl64 State (NumBits - idx)) &&& OrderMask

/-- One iteration of the loop of `Evolve` (lines 12 to 15): the accumulator `Next`
after cell `i` has been written. -/
def EvolveStep (State Rule Order : Nat) (Next i : Nat) : Nat :=
  let Key := EvolveKey State Order i
  let Bit := if Rule &&& shl64 1 Key ≠ 0 then 1 else 0
  Next ||| shl64 Bit i

/-- The function `Evolve`: the value stored back through `pState`. -/
def Evolve (State Rule Order : Nat) : Nat :=
  (List.range NumBits).foldl (EvolveStep State Rule Order) 0

/-- The function `CaToFloat`, in exact arithmetic. -/
def CaToFloat (State : Nat) : ℚ :=
  let AsDouble : ℚ := (State : ℚ)
  let AsDouble : ℚ := AsDouble / (ULONG_MAX : ℚ)
  AsDouble * 2 - 1

/-- The loop of `CaSeed` (lines 45 to 48): `n` calls of `Evolve` on `result`. -/
def CaSeedLoop (Rule Order : Nat) : Nat → Nat → Nat
  | 0, result => result
  | n + 1, result => CaSeedLoop Rule Order n (Evolve result Rule Order)

/-- The function `CaSeed`. -/
def CaSeed (SeedVal : ℚ) (Rule Order : Nat) : Option Nat :=
  if SeedVal < FLT_EPSILON ∧ SeedVal > -FLT_EPSILON then
    some (CaSeedLoop Rule Order 32 (shl64 1 15))
  else
    castU64 SeedVal

/-! ## The interpolating oscillator `caoscil` -/

/-- The instance fields of `struct _CaOscilOpcode` that the opcode owns. -/
structure CaOscilOpcode where
  state : Nat
  rule : Nat
  order : Nat
  TimeUntilNextSample : ℚ
  currentVal : ℚ
  targetVal : ℚ
  delta : ℚ
  deriving DecidableEq

/-- The function `CaOscilOpcode_Init`, from the three init-time arguments. -/
def CaOscilOpcode_Init (in_rule in_order in_seed : ℚ) : Option CaOscilOpcode :=
  (castU64 in_rule).bind fun rule =>
  (castU64 in_order).bind fun order =>
  (CaSeed in_seed rule order).bind fun state =>
  some { state := state, rule := rule, order := order,
         TimeUntilNextSample := 0,
         currentVal := CaToFloat state, targetVal := CaToFloat state, delta := 0 }

/-- The body of the `while` loop of `CaOscilOpcode_Process` (lines 109 to 112): one
generation. The accumulator is incremented exactly here; its double rounding is
followed by `TimeUntilNextSample_catchUp`. -/
def CaOscilOpcode_generation (p : CaOscilOpcode) : CaOscilOpcode :=
  let state := Evolve p.state p.rule p.order
  let targetVal := CaToFloat state
  { p with state := state, targetVal := targetVal,
           delta := targetVal - p.currentVal,
           TimeUntilNextSample := p.TimeUntilNextSample + 1 }

/-- The `while` loop of `CaOscilOpcode_Process` (lines 107 to 113), in exact
arithmetic, where it always exits; the loop on the double accumulator, which need
not exit, is `TimeUntilNextSample_catchUp`. -/
def CaOscilOpcode_catchUp (p : CaOscilOpcode) : CaOscilOpcode :=
  if p.TimeUntilNextSample < FLT_EPSILON then
    CaOscilOpcode_catchUp (CaOscilOpcode_generation p)
  else p
termination_by (⌈FLT_EPSILON - p.TimeUntilNextSample⌉).toNat
decreasing_by
  rename_i h
  have h1 : (CaOscilOpcode_generation p).TimeUntilNextSample = p.TimeUntilNextSample + 1 := rfl
  have h2 : FLT_EPSILON - (p.TimeUntilNextSample + 1)
      = FLT_EPSILON - p.TimeUntilNextSample - 1 := by ring
  have h3 : 0 < ⌈FLT_EPSILON - p.TimeUntilNextSample⌉ := Int.ceil_pos.mpr (sub_pos.mpr h)
  rw [h1, h2, Int.ceil_sub_one]
  omega

/-- The ramp and clamp of one sample (lines 115 to 117). -/
def CaOscilOpcode_ramp (SpeedMod : ℚ) (p : CaOscilOpcode) : CaOscilOpcode :=
  let bMaxCheck : Bool := decide (p.currentVal < p.targetVal)
  let currentVal := p.currentVal + p.delta * SpeedMod
  let currentVal := if bMaxCheck then min currentVal p.targetVal
                    else max currentVal p.targetVal
  { p with currentVal := currentVal }

/-- The body of the `for` loop of `CaOscilOpcode_Process` (lines 106 to 119): one
sample; the sample written to `out[i]` is the new `currentVal`. -/
def CaOscilOpcode_sample (SpeedMod : ℚ) (p : CaOscilOpcode) : CaOscilOpcode :=
  let p1 := { p with TimeUntilNextSample := p.TimeUntilNextSample - SpeedMod }
  CaOscilOpcode_ramp SpeedMod (CaOscilOpcode_catchUp p1)

/-- The `for` loop of `CaOscilOpcode_Process` (lines 104 to 121) over `n` samples:
the instance afterwards and the samples written. -/
def CaOscilOpcode_block (SpeedMod : ℚ) : Nat → CaOscilOpcode → CaOscilOpcode × List ℚ
  | 0, p => (p, [])
  | n + 1, p =>
    let p1 := CaOscilOpcode_sample SpeedMod p
    let r := CaOscilOpcode_block SpeedMod n p1
    (r.1, p1.currentVal :: r.2)

/-- The function `CaOscilOpcode_Process` for a block of `n = CS_KSMPS` samples: the
instance afterwards and the block written to `out`. -/
def CaOscilOpcode_Process (p : CaOscilOpcode) (in_speedmod : ℚ) (n : Nat) :
    CaOscilOpcode × List ℚ :=
  let SpeedMod := |in_speedmod|
  if SpeedMod < FLT_EPSILON then (p, List.replicate n p.currentVal)
  else CaOscilOpcode_block SpeedMod n p

/-- A sequence of performance calls, each with its own speed argument and block
length: the instance afterwards and the blocks written, in order. -/
def CaOscilOpcode_run : CaOscilOpcode → List (ℚ × Nat) → CaOscilOpcode × List (List ℚ)
  | p, [] => (p, [])
  | p, call :: calls =>
    let r := CaOscilOpcode_Process p call.1 call.2
    let rest := CaOscilOpcode_run r.1 calls
    (rest.1, r.2 :: rest.2)


/-! ## The resettable oscillator `caoscilr` -/

/-- The instance fields of `struct _CaOscilOpcodeR` that the opcode owns, together
with the init-time seed argument `*in_seed`, which the performance routine reads
again on every reset. -/
structure CaOscilOpcodeR where
  in_seed : ℚ
  state : Nat
  rule : Nat
  order : Nat
  TimeUntilNextSample : ℚ
  currentVal : ℚ
  targetVal : ℚ
  delta : ℚ
  deriving DecidableEq

/-- The function `CaOscilOpcodeR_Init`, from the three init-time arguments. -/
def CaOscilOpcodeR_Init (in_rule in_order in_seed : ℚ) : Option CaOscilOpcodeR :=
  (castU64 in_rule).bind fun rule =>
  (castU64 in_order).bind fun order =>
  (CaSeed in_seed rule order).bind fun state =>
  some { in_seed := in_seed, state := state, rule := rule, order := order,
         TimeUntilNextSample := 0,
         currentVal := CaToFloat state, targetVal := CaToFloat state, delta := 0 }

/-- The body of the `while` loop of `CaOscilOpcodeR_Process` (lines 186 to 189). The
accumulator is incremented exactly here; its double rounding is followed by
`TimeUntilNextSample_catchUp`. -/
def CaOscilOpcodeR_generation (p : CaOscilOpcodeR) : CaOscilOpcodeR :=
  let state := Evolve p.state p.rule p.order
  let targetVal := CaToFloat state
  { p with state := state, targetVal := targetVal,
           delta := targetVal - p.currentVal,
           TimeUntilNextSample := p.TimeUntilNextSample + 1 }

/-- The `while` loop of `CaOscilOpcodeR_Process` (lines 184 to 190), in exact
arithmetic, where it always exits; the loop on the double accumulator, which need
not exit, is `TimeUntilNextSample_catchUp`. -/
def CaOscilOpcodeR_catchUp (p : CaOscilOpcodeR) : CaOscilOpcodeR :=
  if p.TimeUntilNextSample < FLT_EPSILON then
    CaOscilOpcodeR_catchUp (CaOscilOpcodeR_generation p)
  else p
termination_by (⌈FLT_EPSILON - p.TimeUntilNextSample⌉).toNat
decreasing_by
  rename_i h
  have h1 : (CaOscilOpcodeR_generation p).TimeUntilNextSample
      = p.TimeUntilNextSample + 1 := rfl
  have h2 : FLT_EPSILON - (p.TimeUntilNextSample + 1)
      = FLT_EPSILON - p.TimeUntilNextSample - 1 := by ring
  have h3 : 0 < ⌈FLT_EPSILON - p.TimeUntilNextSample⌉ := Int.ceil_pos.mpr (sub_pos.mpr h)
  rw [h1, h2, Int.ceil_sub_one]
  omega

/-- The reset test and its effect (lines 177 to 182), applied after the decrement
of the accumulator: the instance is reseeded from `*in_seed` and the accumulator is
set to zero. -/
def CaOscilOpcodeR_reset (Reset : ℚ) (p : CaOscilOpcodeR) : Option CaOscilOpcodeR :=
  if Reset > FLT_EPSILON ∨ Reset < -FLT_EPSILON then
    (CaSeed p.in_seed p.rule p.order).map fun state =>
      { p with state := state, TimeUntilNextSample := 0 }
  else some p

/-- The ramp and clamp of one sample (lines 192 to 194). -/
def CaOscilOpcodeR_ramp (SpeedMod : ℚ) (p : CaOscilOpcodeR) : CaOscilOpcodeR :=
  let bMaxCheck : Bool := decide (p.currentVal < p.targetVal)
  let currentVal := p.currentVal + p.delta * SpeedMod
  let currentVal := if bMaxCheck then min currentVal p.targetVal
                    else max currentVal p.targetVal
  { p with currentVal := currentVal }

/-- The body of the `for` loop of `CaOscilOpcodeR_Process` (lines 175 to 196): one
sample with its reset input; the sample written to `out[i]` is the new
`currentVal`. -/
def CaOscilOpcodeR_sample (SpeedMod Reset : ℚ) (p : CaOscilOpcodeR) :
    Option CaOscilOpcodeR :=
  let p1 := { p with TimeUntilNextSample := p.TimeUntilNextSample - SpeedMod }
  (CaOscilOpcodeR_reset Reset p1).map fun p2 =>
    CaOscilOpcodeR_ramp SpeedMod (CaOscilOpcodeR_catchUp p2)

/-- The `for` loop of `CaOscilOpcodeR_Process` (lines 173 to 198) over the samples
of the reset input. -/
def CaOscilOpcodeR_block (SpeedMod : ℚ) :
    List ℚ → CaOscilOpcodeR → Option (CaOscilOpcodeR × List ℚ)
  | [], p => some (p, [])
  | Reset :: rest, p =>
    (CaOscilOpcodeR_sample SpeedMod Reset p).bind fun p1 =>
    (CaOscilOpcodeR_block SpeedMod rest p1).map fun r =>
      (r.1, p1.currentVal :: r.2)

/-- The function `CaOscilOpcodeR_Process` for a block whose reset input is
`in_reset` (one value per sample, `CS_KSMPS` of them); `in_speedmod` is the value
read through the speed pointer. -/
def CaOscilOpcodeR_Process (p : CaOscilOpcodeR) (in_speedmod : ℚ) (in_reset : List ℚ) :
    Option (CaOscilOpcodeR × List ℚ) :=
  let SpeedMod := |in_speedmod|
  if SpeedMod < FLT_EPSILON then some (p, List.replicate in_reset.length p.currentVal)
  else CaOscilOpcodeR_block SpeedMod in_reset p

/-- A sequence of performance calls of the resettable oscillator, each with its
speed argument and reset block. -/
def CaOscilOpcodeR_run :
    CaOscilOpcodeR → List (ℚ × List ℚ) → Option (CaOscilOpcodeR × List (List ℚ))
  | p, [] => some (p, [])
  | p, call :: calls =>
    (CaOscilOpcodeR_Process p call.1 call.2).bind fun r =>
    (CaOscilOpcodeR_run r.1 calls).map fun rest =>
      (rest.1, r.2 :: rest.2)

/-- The fields that `struct _CaOscilOpcodeR` shares with `struct _CaOscilOpcode`. -/
def CaOscilOpcodeR.toRamp (p : CaOscilOpcodeR) : CaOscilOpcode :=
  { state := p.state, rule := p.rule, order := p.order,
    TimeUntilNextSample := p.TimeUntilNextSample,
    currentVal := p.currentVal, targetVal := p.targetVal, delta := p.delta }

/-! ## The block-rate oscillator `caoscilk` -/

/-- The instance fields of `struct _CaOscilOpcodeK` that the opcode owns. -/
structure CaOscilOpcodeK where
  state : Nat
  rule : Nat
  order : Nat
  deriving DecidableEq

/-- The function `CaOscilOpcodeK_Init`, from the three init-time arguments. -/
def CaOscilOpcodeK_Init (in_rule in_order in_seed : ℚ) : Option CaOscilOpcodeK :=
  (castU64 in_rule).bind fun rule =>
  (castU64 in_order).bind fun order =>
  (CaSeed in_seed rule order).bind fun state =>
  some { state := state, rule := rule, order := order }

/-- The function `CaOscilOpcodeK_Process`: the instance afterwards and the value
written to `*out`. -/
def CaOscilOpcodeK_Process (p : CaOscilOpcodeK) : CaOscilOpcodeK × ℚ :=
  let state := Evolve p.state p.rule p.order
  ({ p with state := state }, CaToFloat state)

/-- The instance after `n` consecutive calls of `CaOscilOpcodeK_Process`. -/
def CaOscilOpcodeK_after : Nat → CaOscilOpcodeK → CaOscilOpcodeK
  | 0, p => p
  | n + 1, p => CaOscilOpcodeK_after n (CaOscilOpcodeK_Process p).1

/-- The value written by the `n`-th call of `CaOscilOpcodeK_Process` after
`CaOscilOpcodeK_Init` (calls are counted from 1). -/
def CaOscilOpcodeK_output (p : CaOscilOpcodeK) (n : Nat) : ℚ :=
  (CaOscilOpcodeK_Process (CaOscilOpcodeK_after (n - 1) p)).2

/-! ## The no-overshoot property -/

/-- The value `x` lies between `a` and `b`, endpoints included, whichever of the
two is the larger. -/
def between (a b x : ℚ) : Prop := min a b ≤ x ∧ x ≤ max a b

instance between_decidable (a b x : ℚ) : Decidable (between a b x) := by
  unfold between
  infer_instance

/-- The no-overshoot property of one sample of `CaOscilOpcode_Process` run at the
speed `SpeedMod` from the instance `p`: the current value after the clamp lies
between the current value before the sample and the target value in force after
the catch-up loop. -/
def CaOscilOpcode_noOvershoot (SpeedMod : ℚ) (p : CaOscilOpcode) : Prop :=
  between p.currentVal
    (CaOscilOpcode_catchUp
      { p with TimeUntilNextSample := p.TimeUntilNextSample - SpeedMod }).targetVal
    (CaOscilOpcode_sample SpeedMod p).currentVal

instance CaOscilOpcode_noOvershoot_decidable (SpeedMod : ℚ) (p : CaOscilOpcode) :
    Decidable (CaOscilOpcode_noOvershoot SpeedMod p) := by
  unfold CaOscilOpcode_noOvershoot
  infer_instance

/-- The collapsed instance of the all-zero rule: the automaton state is 0 under rule
0, the current and target values are `-1` and the delta is 0. -/
def CaOscilOpcode_collapsed (p : CaOscilOpcode) : Prop :=
  p.state = 0 ∧ p.rule = 0 ∧ p.currentVal = -1 ∧ p.targetVal = -1 ∧ p.delta = 0

instance CaOscilOpcode_collapsed_decidable (p : CaOscilOpcode) :
    Decidable (CaOscilOpcode_collapsed p) := by
  unfold CaOscilOpcode_collapsed
  infer_instance

/-! ## Loop count, rotation and accumulator range -/

/-- The number of iterations of the `while` loop of `CaOscilOpcode_Process` (lines
107 to 113) started from `p`, in exact arithmetic: the number of generations the
loop produces. On the double accumulator the count is the second component of
`TimeUntilNextSample_catchUp`. -/
def CaOscilOpcode_catchUpCount (p : CaOscilOpcode) : Nat :=
  if p.TimeUntilNextSample < FLT_EPSILON then
    CaOscilOpcode_catchUpCount (CaOscilOpcode_generation p) + 1
  else 0
termination_by (⌈FLT_EPSILON - p.TimeUntilNextSample⌉).toNat
decreasing_by
  rename_i h
  have h1 : (CaOscilOpcode_generation p).TimeUntilNextSample = p.TimeUntilNextSample + 1 := rfl
  have h2 : FLT_EPSILON - (p.TimeUntilNextSample + 1)
      = FLT_EPSILON - p.TimeUntilNextSample - 1 := by ring
  have h3 : 0 < ⌈FLT_EPSILON - p.TimeUntilNextSample⌉ := Int.ceil_pos.mpr (sub_pos.mpr h)
  rw [h1, h2, Int.ceil_sub_one]
  omega

/-- The number of generations produced in one sample of `CaOscilOpcode_Process` run
at the speed `SpeedMod` from the instance `p`. -/
def CaOscilOpcode_sampleGenerations (SpeedMod : ℚ) (p : CaOscilOpcode) : Nat :=
  CaOscilOpcode_catchUpCount
    { p with TimeUntilNextSample := p.TimeUntilNextSample - SpeedMod }

/-- Rotation of the 64-cell ring by `k` cells toward the higher indices (`k < 64`):
cell `i` of the result is cell `i - k` of `x`, indices taken modulo 64. -/
def rotl64 (x k : Nat) : Nat := shl64 x k ||| (x >>> (64 - k))

/-- The range of the accumulator between samples: exactly zero, or at least
`FLT_EPSILON` and below `1 + FLT_EPSILON`. -/
def accInRange (t : ℚ) : Prop := t = 0 ∨ (FLT_EPSILON ≤ t ∧ t < 1 + FLT_EPSILON)

instance accInRange_decidable (t : ℚ) : Decidable (accInRange t) := by
  unfold accInRange
  infer_instance

/-! ## The ramp at constant speed -/

/-- The value `x` is an amplitude: it lies in the closed interval from `-1` to `1`. -/
def inUnit (x : ℚ) : Prop := -1 ≤ x ∧ x ≤ 1

instance inUnit_decidable (x : ℚ) : Decidable (inUnit x) := by
  unfold inUnit
  infer_instance

/-- The state of the ramp between two samples processed at the speed `SpeedMod`:
either the ramp is falling or flat (the delta is not positive and the current value
is at or above the target), or it is rising, the current value is at or below the
target, and the distance left to the target exceeds what the delta covers in the
time left before the next generation after the coming sample. -/
def CaOscilOpcode_onRamp (SpeedMod : ℚ) (p : CaOscilOpcode) : Prop :=
  (p.delta ≤ 0 ∧ p.targetVal ≤ p.currentVal)
    ∨ (0 < p.delta ∧ p.currentVal ≤ p.targetVal
        ∧ p.delta * (p.TimeUntilNextSample - SpeedMod - FLT_EPSILON)
            < p.targetVal - p.currentVal)

instance CaOscilOpcode_onRamp_decidable (SpeedMod : ℚ) (p : CaOscilOpcode) :
    Decidable (CaOscilOpcode_onRamp SpeedMod p) := by
  unfold CaOscilOpcode_onRamp
  infer_instance

/-- The invariant of the interpolating oscillator driven at the constant speed
`SpeedMod`: the ramp state above, an accumulator below `1 + FLT_EPSILON`, and a
current and a target value that are amplitudes. -/
def CaOscilOpcode_rampInv (SpeedMod : ℚ) (p : CaOscilOpcode) : Prop :=
  CaOscilOpcode_onRamp SpeedMod p ∧ p.TimeUntilNextSample < 1 + FLT_EPSILON
    ∧ inUnit p.currentVal ∧ inUnit p.targetVal

/-! ## The accumulator in double precision

`TimeUntilNextSample` is a `double`. The statements that read or write it are the
decrement `TimeUntilNextSample -= SpeedMod` (lines 106, 175), the test of the
`while` loop (lines 107, 184), the increment `TimeUntilNextSample += 1.0` (lines
112, 189), the reset `TimeUntilNextSample = 0.0` (line 181) and the initialisation
(lines 83, 152); none of them reads another instance field. The definitions below
follow the accumulator alone through these statements, each subtraction and
addition rounded to the nearest double. The loop may not exit, so it takes a bound
on the number of iterations and yields `none` when the bound is exhausted. -/

/-- Rounding to the nearest integer, a tie going to the even integer. -/
def roundEven (y : ℚ) : ℤ :=
  if 2 * Int.fract y < 1 then ⌊y⌋
  else if 1 < 2 * Int.fract y then ⌊y⌋ + 1
  else if ⌊y⌋ % 2 = 0 then ⌊y⌋ else ⌊y⌋ + 1

/-- Rounding to the nearest double: a significand of 53 bits, a tie going to the
even significand. The exponent is not bounded: a sum or difference of two doubles
that stays below the largest double, as every accumulator update does, rounds the
same way in IEEE arithmetic (a result in the subnormal range is exact in both). -/
def roundDouble (x : ℚ) : ℚ :=
  if x = 0 then 0
  else (roundEven (x / 2 ^ (Int.log 2 |x| - 52)) : ℚ) * 2 ^ (Int.log 2 |x| - 52)

/-- The `while` loop of `CaOscilOpcode_Process` (lines 107 to 113) and of
`CaOscilOpcodeR_Process` (lines 184 to 190) on the double accumulator, with a bound
`fuel` on the number of iterations: the accumulator at the exit of the loop and the
number of generations produced, or `none` when the loop has not exited within
`fuel` iterations. -/
def TimeUntilNextSample_catchUp : Nat → ℚ → Option (ℚ × Nat)
  | 0, T => if T < FLT_EPSILON then none else some (T, 0)
  | fuel + 1, T =>
    if T < FLT_EPSILON then
      (TimeUntilNextSample_catchUp fuel (roundDouble (T + 1))).map fun r => (r.1, r.2 + 1)
    else some (T, 0)

/-- The accumulator through one sample of `CaOscilOpcode_Process` (lines 106 to
113): the decrement by the speed, then the loop. -/
def TimeUntilNextSample_sample (fuel : Nat) (SpeedMod T : ℚ) : Option (ℚ × Nat) :=
  TimeUntilNextSample_catchUp fuel (roundDouble (T - SpeedMod))

/-- The accumulator through one sample of `CaOscilOpcodeR_Process` (lines 175 to
190): the decrement by the speed, the reset to `0.0` when the reset input is beyond
the threshold, then the loop. The reseed of the automaton state on a reset does
not touch the accumulator and is left out. -/
def TimeUntilNextSample_sampleR (fuel : Nat) (SpeedMod Reset T : ℚ) : Option (ℚ × Nat) :=
  TimeUntilNextSample_catchUp fuel
    (if Reset > FLT_EPSILON ∨ Reset < -FLT_EPSILON then 0 else roundDouble (T - SpeedMod))

/-- The accumulator through the `for` loop of `CaOscilOpcode_Process` over `n`
samples. -/
def TimeUntilNextSample_block (fuel : Nat) (SpeedMod : ℚ) : Nat → ℚ → Option ℚ
  | 0, T => some T
  | n + 1, T =>
    (TimeUntilNextSample_sample fuel SpeedMod T).bind fun r =>
      TimeUntilNextSample_block fuel SpeedMod n r.1

/-- The accumulator through the `for` loop of `CaOscilOpcodeR_Process` over the
samples of the reset input. -/
def TimeUntilNextSample_blockR (fuel : Nat) (SpeedMod : ℚ) : List ℚ → ℚ → Option ℚ
  | [], T => some T
  | Reset :: rest, T =>
    (TimeUntilNextSample_sampleR fuel SpeedMod Reset T).bind fun r =>
      TimeUntilNextSample_blockR fuel SpeedMod rest r.1

/-- The accumulator through one call of `CaOscilOpcode_Process` on a block of `n`
samples: unchanged by the early return of a speed below the threshold. -/
def TimeUntilNextSample_Process (fuel : Nat) (T in_speedmod : ℚ) (n : Nat) : Option ℚ :=
  if |in_speedmod| < FLT_EPSILON then some T
  else TimeUntilNextSample_block fuel |in_speedmod| n T

/-- The accumulator through one call of `CaOscilOpcodeR_Process` with the reset
input `in_reset`. -/
def TimeUntilNextSample_ProcessR (fuel : Nat) (T in_speedmod : ℚ) (in_reset : List ℚ) :
    Option ℚ :=
  if |in_speedmod| < FLT_EPSILON then some T
  else TimeUntilNextSample_blockR fuel |in_speedmod| in_reset T

/-- The accumulator through a sequence of calls of `CaOscilOpcode_Process`, each
with its speed argument and block length. -/
def TimeUntilNextSample_run (fuel : Nat) : ℚ → List (ℚ × Nat) → Option ℚ
  | T, [] => some T
  | T, call :: calls =>
    (TimeUntilNextSample_Process fuel T call.1 call.2).bind fun T1 =>
      TimeUntilNextSample_run fuel T1 calls

/-- The accumulator through a sequence of calls of `CaOscilOpcodeR_Process`, each
with its speed argument and reset block. -/
def TimeUntilNextSample_runR (fuel : Nat) : ℚ → List (ℚ × List ℚ) → Option ℚ
  | T, [] => some T
  | T, call :: calls =>
    (TimeUntilNextSample_ProcessR fuel T call.1 call.2).bind fun T1 =>
      TimeUntilNextSample_runR fuel T1 calls

/-- The current value written by a sample of `CaOscilOpcode_Process` in which the
loop produced at least one generation (lines 111, 115 to 117), in double precision,
`MYFLT` being a `double` as in the default build of the host: the delta is the
rounded difference of the new target value and the current value before the
sample; the ramp and the clamp follow. The exponent is not bounded: a product that
overflows is infinite in IEEE arithmetic, and a product in the subnormal range is
rounded more coarsely there, the delta being then exact; in both cases the clamp
yields the target as it does here. -/
def currentVal_freshRamp (SpeedMod currentVal targetVal : ℚ) : ℚ :=
  let delta := roundDouble (targetVal - currentVal)
  let bMaxCheck : Bool := decide (currentVal < targetVal)
  let cur := roundDouble (currentVal + roundDouble (delta * SpeedMod))
  if bMaxCheck then min cur targetVal else max cur targetVal

/-- The closed range of the double accumulator between samples: exactly zero, or
at least `FLT_EPSILON` and at most `1 + FLT_EPSILON`. -/
def accInClosedRange (t : ℚ) : Prop := t = 0 ∨ (FLT_EPSILON ≤ t ∧ t ≤ 1 + FLT_EPSILON)

instance accInClosedRange_decidable (t : ℚ) : Decidable (accInClosedRange t) := by
  unfold accInClosedRange
  infer_instance

/-! ## Bit-level facts about `Evolve` -/

theorem and_two_pow_ne_zero_iff (R k : Nat) : R &&& 2 ^ k ≠ 0 ↔ R.testBit k = true := by
  constructor
  · intro h
    by_contra hk
    apply h
    apply Nat.eq_of_testBit_eq
    intro j
    simp only [Nat.testBit_and, Nat.testBit_two_pow, Nat.zero_testBit]
    by_cases hj : k = j
    · subst hj; simp [hk]
    · simp [hj]
  · intro h h0
    have := Nat.testBit_and R (2 ^ k) k
    rw [h0] at this
    simp [Nat.testBit_two_pow, h] at this

theorem shl64_one_of_lt {k : Nat} (hk : k < 64) : shl64 1 k = 2 ^ k := by
  unfold shl64
  rw [Nat.one_shiftLeft]
  exact Nat.mod_eq_of_lt (Nat.pow_lt_pow_right (by norm_num) hk)

theorem shl64_zero (i : Nat) : shl64 0 i = 0 := by
  simp [shl64]

/-- The two shifts of line 13 together rotate the state right by `idx`. -/
theorem testBit_rotr {S : Nat} (hS : S < 2 ^ 64) {idx j : Nat} (hidx : idx < 64)
    (hj : j < 64) :
    ((S >>> idx) ||| shl64 S (64 - idx)).testBit j = S.testBit ((idx + j) % 64) := by
  unfold shl64
  rw [Nat.testBit_or, Nat.testBit_shiftRight, Nat.testBit_mod_two_pow, Nat.testBit_shiftLeft]
  by_cases h : idx + j < 64
  · rw [Nat.mod_eq_of_lt h]
    have : ¬ (j ≥ 64 - idx) := by omega
    simp [this]
  · have h1 : S.testBit (idx + j) = false :=
      Nat.testBit_lt_two_pow (lt_of_lt_of_le hS (Nat.pow_le_pow_right (by norm_num) (by omega)))
    have h2 : (idx + j) % 64 = j - (64 - idx) := by omega
    have h3 : j ≥ 64 - idx := by omega
    simp [h1, h2, h3, hj]

/-- The shift by `NumBits - idx` has count 64 when `idx = 0`, which C leaves
undefined; a machine that takes the count modulo 64 computes the same window. -/
theorem rotr_shift_count_wrap {S : Nat} (hS : S < 2 ^ 64) (idx : Nat) (hidx : idx < 64) :
    (S >>> idx) ||| shl64 S ((64 - idx) % 64) = (S >>> idx) ||| shl64 S (64 - idx) := by
  rcases Nat.eq_zero_or_pos idx with h0 | hpos
  · subst h0
    have h64 : S <<< 64 % 2 ^ 64 = 0 := by
      rw [Nat.shiftLeft_eq]
      exact Nat.mul_mod_left _ _
    simp only [shl64, Nat.sub_zero, Nat.mod_self, Nat.shiftLeft_zero, Nat.shiftRight_zero,
      Nat.mod_eq_of_lt hS, h64, Nat.or_self, Nat.or_zero]
  · rw [Nat.mod_eq_of_lt (by omega)]

theorem mod_two_pow_eq_sum (X : Nat) (k : Nat) :
    X % 2 ^ k = ∑ j in Finset.range k, 2 ^ j * (X.testBit j).toNat := by
  induction k with
  | zero => simp [Nat.mod_one]
  | succ k ih =>
    rw [Finset.sum_range_succ, ← ih, Nat.mod_pow_succ, Nat.toNat_testBit]

theorem orderMask_eq {Order : Nat} (h1 : 1 ≤ Order) (h6 : Order ≤ 6) :
    (shl64 1 Order + 2 ^ 64 - 1) % 2 ^ 64 = 2 ^ Order - 1 := by
  rw [shl64_one_of_lt (by omega)]
  have hp : 0 < 2 ^ Order := by positivity
  have hlt : 2 ^ Order < 2 ^ 64 := Nat.pow_lt_pow_right (by norm_num) (by omega)
  omega

theorem EvolveKey_eq_sum {State : Nat} (hS : State < 2 ^ 64) {Order : Nat}
    (h1 : 1 ≤ Order) (h6 : Order ≤ 6) {i : Nat} (hi : i < 64) :
    EvolveKey State Order i
      = ∑ j in Finset.range Order, 2 ^ j * (State.testBit ((i + 63 + j) % 64)).toNat := by
  unfold EvolveKey
  simp only [NumBits]
  rw [orderMask_eq h1 h6, Nat.and_pow_two_sub_one_eq_mod, mod_two_pow_eq_sum]
  apply Finset.sum_congr rfl
  intro j hj
  have hj6 : j < 64 := by have := Finset.mem_range.mp hj; omega
  have hidx : (i + 64 - 1) % 64 < 64 := Nat.mod_lt _ (by norm_num)
  rw [testBit_rotr hS hidx hj6]
  congr 3
  omega

theorem EvolveKey_lt {State Order : Nat} (h1 : 1 ≤ Order) (h6 : Order ≤ 6) (i : Nat) :
    EvolveKey State Order i < 2 ^ Order := by
  unfold EvolveKey
  simp only []
  rw [orderMask_eq h1 h6, Nat.and_pow_two_sub_one_eq_mod]
  exact Nat.mod_lt _ (by positivity)

theorem EvolveStep_testBit (State Rule Order Next : Nat) {i : Nat} (hi : i < 64) (j : Nat) :
    (EvolveStep State Rule Order Next i).testBit j
      = (Next.testBit j
          || (decide (i = j) && decide (Rule &&& shl64 1 (EvolveKey State Order i) ≠ 0))) := by
  unfold EvolveStep
  simp only []
  rw [Nat.testBit_or]
  by_cases h : Rule &&& shl64 1 (EvolveKey State Order i) ≠ 0
  · rw [if_pos h, shl64_one_of_lt hi, Nat.testBit_two_pow]
    simp [h]
  · rw [if_neg h, shl64_zero]
    simp [h]

/-- After the first `n` iterations of the loop, bit `j` of `Next` is set exactly
when `j < n` and the rule selects a one for cell `j`: every cell is computed from
the input state, not from cells already written. -/
theorem Evolve_foldl_testBit (State Rule Order : Nat) (n : Nat) (hn : n ≤ 64) (j : Nat) :
    ((List.range n).foldl (EvolveStep State Rule Order) 0).testBit j
      = (decide (j < n) && decide (Rule &&& shl64 1 (EvolveKey State Order j) ≠ 0)) := by
  induction n with
  | zero => simp
  | succ n ih =>
    rw [List.range_succ, List.foldl_append, List.foldl_cons, List.foldl_nil,
      EvolveStep_testBit _ _ _ _ (by omega : n < 64), ih (by omega)]
    by_cases hjn : j < n
    · have h1 : n ≠ j := by omega
      have h2 : j < n + 1 := by omega
      simp [hjn, h1, h2]
    · by_cases hje : n = j
      · subst hje; simp
      · have h2 : ¬ j < n + 1 := by omega
        simp [hjn, hje, h2]

theorem Evolve_lt (State Rule Order : Nat) : Evolve State Rule Order < 2 ^ 64 := by
  apply Nat.lt_pow_two_of_testBit
  intro i hi
  unfold Evolve
  rw [Evolve_foldl_testBit State Rule Order NumBits (le_refl _)]
  have : ¬ i < NumBits := by simp only [NumBits]; omega
  simp [this]

/-- Claim C1: for a 64-bit state, any rule, an order from 1 to 6 and a cell index
`i < 64`, bit `i` of `Evolve state rule order` is bit `key` of the rule, where
`key` is the sum over `j < order` of `2 ^ j` times bit `(i + 63 + j) mod 64` of the
input state; the result is again a 64-bit value, each of whose bits is read from
the same input state. -/
theorem Evolve_testBit (State Rule Order i : Nat) (hS : State < 2 ^ 64)
    (h1 : 1 ≤ Order) (h6 : Order ≤ 6) (hi : i < 64) :
    (Evolve State Rule Order).testBit i
        = Rule.testBit (∑ j in Finset.range Order,
            2 ^ j * (State.testBit ((i + 63 + j) % 64)).toNat)
      ∧ Evolve State Rule Order < 2 ^ 64 := by
  refine ⟨?_, Evolve_lt State Rule Order⟩
  unfold Evolve
  rw [Evolve_foldl_testBit State Rule Order NumBits (le_refl _), ← EvolveKey_eq_sum hS h1 h6 hi]
  have hk : EvolveKey State Order i < 64 :=
    lt_of_lt_of_le (EvolveKey_lt h1 h6 i)
      (le_trans (Nat.pow_le_pow_right (by norm_num) h6) (by norm_num))
  rw [shl64_one_of_lt hk]
  have hiN : i < NumBits := hi
  by_cases hb : Rule.testBit (EvolveKey State Order i) = true
  · simp [hiN, hb, (and_two_pow_ne_zero_iff Rule _).mpr hb]
  · have hz : ¬ (Rule &&& 2 ^ EvolveKey State Order i ≠ 0) :=
      fun h => hb ((and_two_pow_ne_zero_iff Rule _).mp h)
    simp only [Bool.not_eq_true] at hb
    simp [hiN, hb, hz]

/-- Witness of C1: state `1`, rule 30, order 3, cell 63. -/
theorem Evolve_testBit_witness :
    (1 < 2 ^ 64 ∧ 1 ≤ 3 ∧ 3 ≤ 6 ∧ 63 < 64) ∧
    ((Evolve 1 30 3).testBit 63
        = Nat.testBit 30 (∑ j in Finset.range 3,
            2 ^ j * (Nat.testBit 1 ((63 + 63 + j) % 64)).toNat)
      ∧ Evolve 1 30 3 < 2 ^ 64) :=
  ⟨by decide, Evolve_testBit 1 30 3 63 (by decide) (by decide) (by decide) (by decide)⟩

/-! ## Seeding -/

theorem FLT_EPSILON_pos : 0 < FLT_EPSILON := by
  unfold FLT_EPSILON
  positivity

theorem FLT_EPSILON_lt_one : FLT_EPSILON < 1 := by
  unfold FLT_EPSILON
  norm_num

theorem CaSeedLoop_eq_iterate (Rule Order : Nat) (n result : Nat) :
    CaSeedLoop Rule Order n result = (fun s => Evolve s Rule Order)^[n] result := by
  induction n generalizing result with
  | zero => rfl
  | succ n ih => rw [CaSeedLoop, ih, Function.iterate_succ_apply]

theorem truncQ_of_nonneg {x : ℚ} (hx : 0 ≤ x) : (truncQ x).toNat = ⌊x⌋₊ := by
  unfold truncQ
  rw [if_pos hx]
  rfl

theorem truncQ_of_neg {x : ℚ} (hx : x < 0) (h1 : -1 < x) : (truncQ x).toNat = ⌊x⌋₊ := by
  unfold truncQ
  rw [if_neg (not_le.mpr hx), Nat.floor_of_nonpos hx.le]
  have h0 : ⌊-x⌋ = 0 := by
    rw [Int.floor_eq_iff]
    constructor
    · simp only [Int.cast_zero]; linarith
    · simp only [Int.cast_zero]; linarith
  rw [h0]
  rfl

/-- Where the cast is defined it yields the natural-number floor (zero for a value
between `-1` and `0`). -/
theorem castU64_eq_floor {x : ℚ} (h1 : -1 < x) (h2 : x < 2 ^ 64) :
    castU64 x = some ⌊x⌋₊ := by
  unfold castU64
  rw [if_pos ⟨h1, h2⟩]
  rcases le_or_lt 0 x with h | h
  · rw [truncQ_of_nonneg h]
  · rw [truncQ_of_neg h h1]

theorem castU64_natCast (n : Nat) (hn : n < 2 ^ 64) : castU64 (n : ℚ) = some n := by
  rw [castU64_eq_floor, Nat.floor_natCast]
  · have : (0 : ℚ) ≤ n := Nat.cast_nonneg n
    linarith
  · exact_mod_cast hn

theorem castU64_lt {x : ℚ} {n : Nat} (h : castU64 x = some n) : n < 2 ^ 64 := by
  unfold castU64 at h
  split_ifs at h with hx
  have hn : n = ⌊x⌋₊ := by
    have := castU64_eq_floor hx.1 hx.2
    unfold castU64 at this
    rw [if_pos hx] at this
    rw [Option.some.injEq] at h this
    rw [← h, this]
  rw [hn]
  rcases le_or_lt 0 x with h0 | h0
  · have : (⌊x⌋₊ : ℚ) < ((2 ^ 64 : Nat) : ℚ) := by
      push_cast
      exact lt_of_le_of_lt (Nat.floor_le h0) hx.2
    exact_mod_cast this
  · rw [Nat.floor_of_nonpos h0.le]
    positivity

/-- Claim C2: for a seed value of magnitude below `FLT_EPSILON`, and any rule and
any order from 1 to 6, `CaSeed` returns the state obtained by applying `Evolve`
exactly 32 times, in sequence, to the canonical state `2 ^ 15`. -/
theorem CaSeed_near_zero (SeedVal : ℚ) (Rule Order : Nat)
    (hseed : |SeedVal| < FLT_EPSILON) (_h1 : 1 ≤ Order) (_h6 : Order ≤ 6) :
    CaSeed SeedVal Rule Order = some ((fun s => Evolve s Rule Order)^[32] (2 ^ 15)) := by
  have hs := abs_lt.mp hseed
  unfold CaSeed
  rw [if_pos ⟨hs.2, hs.1⟩, CaSeedLoop_eq_iterate, shl64_one_of_lt (by norm_num)]

/-- Witness of C2: seed `0`, rule 30, order 3. -/
theorem CaSeed_near_zero_witness :
    (|(0 : ℚ)| < FLT_EPSILON ∧ 1 ≤ 3 ∧ 3 ≤ 6) ∧
    CaSeed 0 30 3 = some ((fun s => Evolve s 30 3)^[32] (2 ^ 15)) :=
  ⟨⟨by rw [abs_zero]; exact FLT_EPSILON_pos, by decide, by decide⟩,
   CaSeed_near_zero 0 30 3 (by rw [abs_zero]; exact FLT_EPSILON_pos) (by decide) (by decide)⟩

/-- Claim C3: for a seed value of magnitude at least `FLT_EPSILON`, `CaSeed` is the
conversion of the seed to an unsigned 64-bit integer, whatever the rule and the
order, with no evolution; where that conversion is defined (`-1 < seed < 2 ^ 64`)
it is the truncated value, a 64-bit number; in particular the seed `5.7` gives the
state 5. -/
theorem CaSeed_direct (SeedVal : ℚ) (Rule Order : Nat) (hseed : FLT_EPSILON ≤ |SeedVal|) :
    CaSeed SeedVal Rule Order = castU64 SeedVal
      ∧ (-1 < SeedVal → SeedVal < 2 ^ 64 →
          CaSeed SeedVal Rule Order = some ⌊SeedVal⌋₊ ∧ ⌊SeedVal⌋₊ < 2 ^ 64)
      ∧ CaSeed (57 / 10) Rule Order = some 5 := by
  have hdirect : ∀ x : ℚ, FLT_EPSILON ≤ |x| → CaSeed x Rule Order = castU64 x := by
    intro x hx
    unfold CaSeed
    rw [if_neg]
    rintro ⟨ha, hb⟩
    exact absurd (abs_lt.mpr ⟨hb, ha⟩) (not_lt.mpr hx)
  refine ⟨hdirect _ hseed, ?_, ?_⟩
  · intro h1 h2
    have hc := castU64_eq_floor h1 h2
    exact ⟨(hdirect _ hseed).trans hc, castU64_lt hc⟩
  · have h57 : FLT_EPSILON ≤ |(57 / 10 : ℚ)| := by
      rw [abs_of_pos (by norm_num)]
      exact le_trans FLT_EPSILON_lt_one.le (by norm_num)
    rw [hdirect _ h57, castU64_eq_floor (by norm_num) (by norm_num)]
    congr 1
    rw [Nat.floor_eq_iff (by norm_num)]
    constructor <;> norm_num

/-- Witness of C3: seed `5.7`, rule 30, order 3. -/
theorem CaSeed_direct_witness :
    FLT_EPSILON ≤ |(57 / 10 : ℚ)| ∧ CaSeed (57 / 10) 30 3 = some 5 :=
  have h57 : FLT_EPSILON ≤ |(57 / 10 : ℚ)| := by
    rw [abs_of_pos (by norm_num)]
    exact le_trans FLT_EPSILON_lt_one.le (by norm_num)
  ⟨h57, (CaSeed_direct (57 / 10) 30 3 h57).2.2⟩

/-! ## Amplitude mapping -/

theorem CaToFloat_zero : CaToFloat 0 = -1 := by
  unfold CaToFloat
  norm_num

theorem CaToFloat_max : CaToFloat (2 ^ 64 - 1) = 1 := by
  unfold CaToFloat ULONG_MAX
  norm_num

/-- Claim C4: for a 64-bit state, `CaToFloat state` is `state / (2 ^ 64 - 1) * 2 - 1`
in exact arithmetic and lies in the closed interval from `-1` to `1`; the state 0
maps to `-1` and the state `2 ^ 64 - 1` maps to `1`. -/
theorem CaToFloat_range (State : Nat) (hS : State < 2 ^ 64) :
    CaToFloat State = (State : ℚ) / (2 ^ 64 - 1) * 2 - 1
      ∧ -1 ≤ CaToFloat State ∧ CaToFloat State ≤ 1
      ∧ CaToFloat 0 = -1 ∧ CaToFloat (2 ^ 64 - 1) = 1 := by
  have hform : CaToFloat State = (State : ℚ) / (2 ^ 64 - 1) * 2 - 1 := by
    unfold CaToFloat ULONG_MAX
    norm_num
  have h0 : (0 : ℚ) ≤ State := Nat.cast_nonneg State
  have hle : (State : ℚ) ≤ 2 ^ 64 - 1 := by
    have : State ≤ 2 ^ 64 - 1 := by omega
    have h : ((State : Nat) : ℚ) ≤ ((2 ^ 64 - 1 : Nat) : ℚ) := by exact_mod_cast this
    rw [Nat.cast_sub (by norm_num)] at h
    exact_mod_cast h
  have hpos : (0 : ℚ) < 2 ^ 64 - 1 := by norm_num
  have hq0 : 0 ≤ (State : ℚ) / (2 ^ 64 - 1) := div_nonneg h0 hpos.le
  have hq1 : (State : ℚ) / (2 ^ 64 - 1) ≤ 1 := (div_le_one hpos).mpr hle
  refine ⟨hform, ?_, ?_, CaToFloat_zero, CaToFloat_max⟩
  · rw [hform]; linarith
  · rw [hform]; linarith

/-- Witness of C4: the state `2 ^ 63`. -/
theorem CaToFloat_range_witness :
    2 ^ 63 < 2 ^ 64 ∧ -1 ≤ CaToFloat (2 ^ 63) ∧ CaToFloat (2 ^ 63) ≤ 1 :=
  ⟨by decide, (CaToFloat_range (2 ^ 63) (by decide)).2.1, (CaToFloat_range (2 ^ 63) (by decide)).2.2.1⟩

/-! ## The catch-up loop -/

theorem CaOscilOpcode_catchUp_of_ge {p : CaOscilOpcode}
    (h : FLT_EPSILON ≤ p.TimeUntilNextSample) : CaOscilOpcode_catchUp p = p := by
  rw [CaOscilOpcode_catchUp, if_neg (not_lt.mpr h)]

theorem CaOscilOpcode_catchUp_of_lt {p : CaOscilOpcode}
    (h : p.TimeUntilNextSample < FLT_EPSILON) :
    CaOscilOpcode_catchUp p = CaOscilOpcode_catchUp (CaOscilOpcode_generation p) := by
  rw [CaOscilOpcode_catchUp, if_pos h]

theorem CaOscilOpcodeR_catchUp_of_ge {p : CaOscilOpcodeR}
    (h : FLT_EPSILON ≤ p.TimeUntilNextSample) : CaOscilOpcodeR_catchUp p = p := by
  rw [CaOscilOpcodeR_catchUp, if_neg (not_lt.mpr h)]

theorem CaOscilOpcodeR_catchUp_of_lt {p : CaOscilOpcodeR}
    (h : p.TimeUntilNextSample < FLT_EPSILON) :
    CaOscilOpcodeR_catchUp p = CaOscilOpcodeR_catchUp (CaOscilOpcodeR_generation p) := by
  rw [CaOscilOpcodeR_catchUp, if_pos h]

/-- The loop leaves the accumulator at or above the threshold. -/
theorem CaOscilOpcode_catchUp_exit (p : CaOscilOpcode) :
    FLT_EPSILON ≤ (CaOscilOpcode_catchUp p).TimeUntilNextSample := by
  induction p using CaOscilOpcode_catchUp.induct with
  | case1 p h ih => rw [CaOscilOpcode_catchUp_of_lt h]; exact ih
  | case2 p h => rw [CaOscilOpcode_catchUp_of_ge (not_lt.mp h)]; exact not_lt.mp h

/-! ## The block-rate oscillator -/

theorem CaOscilOpcodeK_after_eq (n : Nat) (p : CaOscilOpcodeK) :
    CaOscilOpcodeK_after n p
      = { p with state := (fun s => Evolve s p.rule p.order)^[n] p.state } := by
  induction n generalizing p with
  | zero => rfl
  | succ n ih =>
    rw [CaOscilOpcodeK_after, ih, Function.iterate_succ_apply]
    rfl

theorem castU64_three : castU64 3 = some 3 := by
  have h := castU64_natCast 3 (by norm_num)
  simpa using h

theorem castU64_one : castU64 1 = some 1 := by
  have h := castU64_natCast 1 (by norm_num)
  simpa using h

theorem castU64_zero : castU64 0 = some 0 := by
  have h := castU64_natCast 0 (by norm_num)
  simpa using h

theorem castU64_half : castU64 (1 / 2) = some 0 := by
  rw [castU64_eq_floor (by norm_num) (by norm_num)]
  congr 1
  rw [Nat.floor_eq_zero]
  norm_num

theorem CaSeed_half (Rule Order : Nat) : CaSeed (1 / 2) Rule Order = some 0 := by
  unfold CaSeed
  rw [if_neg, castU64_half]
  rintro ⟨h, _⟩
  unfold FLT_EPSILON at h
  norm_num at h

/-- Claim C6: a call of `CaOscilOpcode_Process` whose speed argument has magnitude
below `FLT_EPSILON` writes the entry `currentVal` to each of the `n` samples of
the block and returns the instance unchanged (automaton state, accumulator,
current value, target value and delta included). -/
theorem CaOscilOpcode_Process_frozen (p : CaOscilOpcode) (in_speedmod : ℚ) (n : Nat)
    (hspeed : |in_speedmod| < FLT_EPSILON) :
    CaOscilOpcode_Process p in_speedmod n = (p, List.replicate n p.currentVal)
      ∧ (CaOscilOpcode_Process p in_speedmod n).2.length = n
      ∧ (∀ x ∈ (CaOscilOpcode_Process p in_speedmod n).2, x = p.currentVal)
      ∧ (CaOscilOpcode_Process p in_speedmod n).1.state = p.state
      ∧ (CaOscilOpcode_Process p in_speedmod n).1.TimeUntilNextSample
          = p.TimeUntilNextSample
      ∧ (CaOscilOpcode_Process p in_speedmod n).1.currentVal = p.currentVal
      ∧ (CaOscilOpcode_Process p in_speedmod n).1.targetVal = p.targetVal
      ∧ (CaOscilOpcode_Process p in_speedmod n).1.delta = p.delta := by
  have h : CaOscilOpcode_Process p in_speedmod n = (p, List.replicate n p.currentVal) := by
    unfold CaOscilOpcode_Process
    simp only [if_pos hspeed]
  rw [h]
  refine ⟨rfl, List.length_replicate _ _, ?_, rfl, rfl, rfl, rfl, rfl⟩
  intro x hx
  exact List.eq_of_mem_replicate hx

/-- Witness of C6: speed 0 on a block of four samples. -/
theorem CaOscilOpcode_Process_frozen_witness :
    |(0 : ℚ)| < FLT_EPSILON
    ∧ CaOscilOpcode_Process
        { state := 5, rule := 30, order := 3, TimeUntilNextSample := 1 / 2,
          currentVal := 1 / 3, targetVal := 1 / 2, delta := 1 / 4 } 0 4
      = ({ state := 5, rule := 30, order := 3, TimeUntilNextSample := 1 / 2,
           currentVal := 1 / 3, targetVal := 1 / 2, delta := 1 / 4 },
         [1 / 3, 1 / 3, 1 / 3, 1 / 3]) :=
  ⟨by rw [abs_zero]; exact FLT_EPSILON_pos,
   (CaOscilOpcode_Process_frozen _ 0 4 (by rw [abs_zero]; exact FLT_EPSILON_pos)).1⟩

theorem Evolve_example_zero : Evolve 0 3 1 = 2 ^ 64 - 1 := by decide

theorem Evolve_example_ones : Evolve (2 ^ 64 - 1) 3 1 = 2 ^ 64 - 1 := by decide

theorem CaOscilOpcode_Init_example :
    CaOscilOpcode_Init 3 1 (1 / 2)
      = some { state := 0, rule := 3, order := 1, TimeUntilNextSample := 0,
               currentVal := -1, targetVal := -1, delta := 0 } := by
  unfold CaOscilOpcode_Init
  rw [castU64_three, castU64_one]
  simp only [Option.some_bind, CaSeed_half, CaToFloat_zero]

/-- The first call of the example: speed `3/2` on a block of one sample produces
two generations and clamps the ramp at the new target `1`. -/
theorem CaOscilOpcode_Process_example_first :
    CaOscilOpcode_Process
        { state := 0, rule := 3, order := 1, TimeUntilNextSample := 0,
          currentVal := -1, targetVal := -1, delta := 0 } (3 / 2) 1
      = ({ state := 2 ^ 64 - 1, rule := 3, order := 1, TimeUntilNextSample := 1 / 2,
           currentVal := 1, targetVal := 1, delta := 2 }, [1]) := by
  have habs : |(3 / 2 : ℚ)| = 3 / 2 := abs_of_pos (by norm_num)
  have hge : ¬ (3 / 2 : ℚ) < FLT_EPSILON := by unfold FLT_EPSILON; norm_num
  unfold CaOscilOpcode_Process
  simp only [habs, if_neg hge, CaOscilOpcode_block, CaOscilOpcode_sample]
  rw [CaOscilOpcode_catchUp_of_lt (by unfold FLT_EPSILON; norm_num)]
  simp only [CaOscilOpcode_generation, Evolve_example_zero, CaToFloat_max]
  rw [CaOscilOpcode_catchUp_of_lt (by unfold FLT_EPSILON; norm_num)]
  simp only [CaOscilOpcode_generation, Evolve_example_ones, CaToFloat_max]
  rw [CaOscilOpcode_catchUp_of_ge (by unfold FLT_EPSILON; norm_num)]
  simp only [CaOscilOpcode_ramp]
  norm_num

theorem CaOscilOpcode_catchUp_example_second :
    CaOscilOpcode_catchUp
        { state := 2 ^ 64 - 1, rule := 3, order := 1,
          TimeUntilNextSample := 1 / 2 - 1 / 4,
          currentVal := 1, targetVal := 1, delta := 2 }
      = { state := 2 ^ 64 - 1, rule := 3, order := 1,
          TimeUntilNextSample := 1 / 2 - 1 / 4,
          currentVal := 1, targetVal := 1, delta := 2 } :=
  CaOscilOpcode_catchUp_of_ge (by unfold FLT_EPSILON; norm_num)

/-- The second call of the example: speed `1/4` on a block of one sample produces
no generation; the stale delta `2` is added to a current value that already
equals the target, and the clamp keeps the larger value. -/
theorem CaOscilOpcode_Process_example_second :
    CaOscilOpcode_Process
        { state := 2 ^ 64 - 1, rule := 3, order := 1, TimeUntilNextSample := 1 / 2,
          currentVal := 1, targetVal := 1, delta := 2 } (1 / 4) 1
      = ({ state := 2 ^ 64 - 1, rule := 3, order := 1, TimeUntilNextSample := 1 / 4,
           currentVal := 3 / 2, targetVal := 1, delta := 2 }, [3 / 2]) := by
  have habs : |(1 / 4 : ℚ)| = 1 / 4 := abs_of_pos (by norm_num)
  have hge : ¬ (1 / 4 : ℚ) < FLT_EPSILON := by unfold FLT_EPSILON; norm_num
  unfold CaOscilOpcode_Process
  simp only [habs, if_neg hge, CaOscilOpcode_block, CaOscilOpcode_sample]
  rw [CaOscilOpcode_catchUp_example_second]
  simp only [CaOscilOpcode_ramp]
  norm_num

/-- Claim C7, the code at the failing input: rule 3, order 1, seed `1/2`, then one
call at speed `3/2` and one call at speed `1/4`, each on a block of one sample.
The first call reaches the target `1`; in the second call the current value before
the sample and the target after the catch-up loop are both `1`, and the current
value after the clamp is `3/2`: the sample overshoots the target, and leaves the
range of the amplitudes. -/
theorem CaOscilOpcode_overshoot :
    (CaOscilOpcode_Init 3 1 (1 / 2)).map
        (fun p => CaOscilOpcode_run p [(3 / 2, 1), (1 / 4, 1)])
      = some ({ state := 2 ^ 64 - 1, rule := 3, order := 1,
                TimeUntilNextSample := 1 / 4,
                currentVal := 3 / 2, targetVal := 1, delta := 2 }, [[1], [3 / 2]])
    ∧ ¬ CaOscilOpcode_noOvershoot (1 / 4)
        { state := 2 ^ 64 - 1, rule := 3, order := 1, TimeUntilNextSample := 1 / 2,
          currentVal := 1, targetVal := 1, delta := 2 } := by
  constructor
  · rw [CaOscilOpcode_Init_example]
    simp only [Option.map_some', CaOscilOpcode_run, CaOscilOpcode_Process_example_first,
      CaOscilOpcode_Process_example_second]
  · unfold CaOscilOpcode_noOvershoot between CaOscilOpcode_sample
    simp only [CaOscilOpcode_catchUp_example_second, CaOscilOpcode_ramp]
    norm_num

/-! ## The resettable oscillator -/

theorem CaOscilOpcodeR_reset_of_trigger {Reset : ℚ} (htrig : FLT_EPSILON < |Reset|)
    {p : CaOscilOpcodeR} {s0 : Nat} (hseed : CaSeed p.in_seed p.rule p.order = some s0) :
    CaOscilOpcodeR_reset Reset p = some { p with state := s0, TimeUntilNextSample := 0 } := by
  unfold CaOscilOpcodeR_reset
  have h : Reset > FLT_EPSILON ∨ Reset < -FLT_EPSILON := by
    rcases lt_abs.mp htrig with h | h
    · exact Or.inl h
    · exact Or.inr (by linarith)
  rw [if_pos h, hseed]
  rfl

theorem CaOscilOpcodeR_reset_zero (p : CaOscilOpcodeR) :
    CaOscilOpcodeR_reset 0 p = some p := by
  unfold CaOscilOpcodeR_reset
  rw [if_neg]
  have hpos := FLT_EPSILON_pos
  rintro (h | h) <;> linarith

/-- Claim C8: in `CaOscilOpcodeR_Process` run at a speed of magnitude at least
`FLT_EPSILON`, a sample whose reset input has magnitude above `FLT_EPSILON`
reseeds and then produces exactly one generation: afterwards the automaton state
is `Evolve` of the reseeded state, the target value is `CaToFloat` of that state,
the delta is the target value minus the current value before the sample, and the
accumulator is exactly `1`; none of the three depends on the state, target or
accumulator before the sample; the current value is the one before the sample
moved by the ramp step and its clamp. -/
theorem CaOscilOpcodeR_sample_reset (p : CaOscilOpcodeR) (in_speedmod Reset : ℚ)
    (s0 : Nat) (hspeed : FLT_EPSILON ≤ |in_speedmod|) (htrig : FLT_EPSILON < |Reset|)
    (hseed : CaSeed p.in_seed p.rule p.order = some s0) :
    ∃ q : CaOscilOpcodeR,
      CaOscilOpcodeR_sample |in_speedmod| Reset p = some q
      ∧ CaOscilOpcodeR_Process p in_speedmod [Reset] = some (q, [q.currentVal])
      ∧ q.state = Evolve s0 p.rule p.order
      ∧ q.targetVal = CaToFloat (Evolve s0 p.rule p.order)
      ∧ q.delta = CaToFloat (Evolve s0 p.rule p.order) - p.currentVal
      ∧ q.TimeUntilNextSample = 1
      ∧ q.currentVal
          = (if p.currentVal < q.targetVal
              then min (p.currentVal + q.delta * |in_speedmod|) q.targetVal
              else max (p.currentVal + q.delta * |in_speedmod|) q.targetVal)
      ∧ q.rule = p.rule ∧ q.order = p.order ∧ q.in_seed = p.in_seed := by
  have hsample : CaOscilOpcodeR_sample |in_speedmod| Reset p
      = some (CaOscilOpcodeR_ramp |in_speedmod|
          (CaOscilOpcodeR_generation
            { p with state := s0, TimeUntilNextSample := 0 })) := by
    unfold CaOscilOpcodeR_sample
    simp only []
    rw [CaOscilOpcodeR_reset_of_trigger htrig (by exact hseed)]
    simp only [Option.map_some']
    rw [CaOscilOpcodeR_catchUp_of_lt (by exact FLT_EPSILON_pos),
      CaOscilOpcodeR_catchUp_of_ge]
    show FLT_EPSILON ≤ (0 : ℚ) + 1
    rw [zero_add]
    exact FLT_EPSILON_lt_one.le
  refine ⟨_, hsample, ?_, rfl, rfl, rfl, ?_, ?_, rfl, rfl, rfl⟩
  · unfold CaOscilOpcodeR_Process
    simp only [if_neg (not_lt.mpr hspeed), CaOscilOpcodeR_block, hsample, Option.some_bind,
      Option.map_some']
  · show (0 : ℚ) + 1 = 1
    rw [zero_add]
  · simp only [CaOscilOpcodeR_ramp, CaOscilOpcodeR_generation, decide_eq_true_eq]

/-- Witness of C8: an instance in mid-ramp with seed `1/2`, rule 3, order 1, run at
speed `1/4` with reset input `1`. -/
theorem CaOscilOpcodeR_sample_reset_witness :
    (FLT_EPSILON ≤ |(1 / 4 : ℚ)| ∧ FLT_EPSILON < |(1 : ℚ)| ∧ CaSeed (1 / 2) 3 1 = some 0)
    ∧ ∃ q : CaOscilOpcodeR,
        CaOscilOpcodeR_sample |(1 / 4 : ℚ)| 1
            { in_seed := 1 / 2, state := 5, rule := 3, order := 1,
              TimeUntilNextSample := 3 / 4, currentVal := 0, targetVal := 1 / 2,
              delta := 1 / 2 } = some q
        ∧ q.state = Evolve 0 3 1 ∧ q.TimeUntilNextSample = 1 := by
  have h1 : FLT_EPSILON ≤ |(1 / 4 : ℚ)| := by
    rw [abs_of_pos (by norm_num)]; unfold FLT_EPSILON; norm_num
  have h2 : FLT_EPSILON < |(1 : ℚ)| := by
    rw [abs_one]; exact FLT_EPSILON_lt_one
  refine ⟨⟨h1, h2, CaSeed_half 3 1⟩, ?_⟩
  obtain ⟨q, hq, _, hstate, _, _, htime, _⟩ :=
    CaOscilOpcodeR_sample_reset
      { in_seed := 1 / 2, state := 5, rule := 3, order := 1,
        TimeUntilNextSample := 3 / 4, currentVal := 0, targetVal := 1 / 2,
        delta := 1 / 2 } (1 / 4) 1 0 h1 h2 (CaSeed_half 3 1)
  exact ⟨q, hq, hstate, htime⟩

/-! ## The resettable oscillator without resets -/

theorem CaOscilOpcodeR_catchUp_toRamp (p : CaOscilOpcodeR) :
    (CaOscilOpcodeR_catchUp p).toRamp = CaOscilOpcode_catchUp p.toRamp := by
  induction p using CaOscilOpcodeR_catchUp.induct with
  | case1 p h ih =>
    have h2 : p.toRamp.TimeUntilNextSample < FLT_EPSILON := h
    rw [CaOscilOpcodeR_catchUp_of_lt h, CaOscilOpcode_catchUp_of_lt h2, ih]
    rfl
  | case2 p h =>
    have h2 : FLT_EPSILON ≤ p.toRamp.TimeUntilNextSample := not_lt.mp h
    rw [CaOscilOpcodeR_catchUp_of_ge (not_lt.mp h), CaOscilOpcode_catchUp_of_ge h2]

theorem CaOscilOpcodeR_sample_zero (SpeedMod : ℚ) (p : CaOscilOpcodeR) :
    ∃ q, CaOscilOpcodeR_sample SpeedMod 0 p = some q
      ∧ q.toRamp = CaOscilOpcode_sample SpeedMod p.toRamp := by
  refine ⟨CaOscilOpcodeR_ramp SpeedMod (CaOscilOpcodeR_catchUp
    { p with TimeUntilNextSample := p.TimeUntilNextSample - SpeedMod }), ?_, ?_⟩
  · unfold CaOscilOpcodeR_sample
    simp only [CaOscilOpcodeR_reset_zero, Option.map_some']
  · unfold CaOscilOpcode_sample
    have h := CaOscilOpcodeR_catchUp_toRamp
      { p with TimeUntilNextSample := p.TimeUntilNextSample - SpeedMod }
    have h2 : (CaOscilOpcodeR.toRamp
        { p with TimeUntilNextSample := p.TimeUntilNextSample - SpeedMod })
        = { p.toRamp with
            TimeUntilNextSample := p.toRamp.TimeUntilNextSample - SpeedMod } := rfl
    rw [h2] at h
    simp only []
    rw [← h]
    rfl

theorem CaOscilOpcodeR_block_zero (SpeedMod : ℚ) (in_reset : List ℚ)
    (hzero : ∀ x ∈ in_reset, x = 0) (p : CaOscilOpcodeR) :
    (CaOscilOpcodeR_block SpeedMod in_reset p).map (fun r => (r.1.toRamp, r.2))
      = some (CaOscilOpcode_block SpeedMod in_reset.length p.toRamp) := by
  induction in_reset generalizing p with
  | nil => rfl
  | cons Reset rest ih =>
    have h0 : Reset = 0 := hzero Reset (List.mem_cons_self _ _)
    subst h0
    obtain ⟨q, hq, hqr⟩ := CaOscilOpcodeR_sample_zero SpeedMod p
    have ihq := ih (fun x hx => hzero x (List.mem_cons_of_mem _ hx)) q
    cases hb : CaOscilOpcodeR_block SpeedMod rest q with
    | none => rw [hb] at ihq; simp at ihq
    | some r =>
      rw [hb, Option.map_some', Option.some.injEq] at ihq
      simp only [CaOscilOpcodeR_block, hq, Option.some_bind, hb, Option.map_some',
        List.length_cons, CaOscilOpcode_block, ← hqr, ← ihq]
      rfl

theorem CaOscilOpcodeR_Process_zero (p : CaOscilOpcodeR) (in_speedmod : ℚ)
    (in_reset : List ℚ) (hzero : ∀ x ∈ in_reset, x = 0) :
    (CaOscilOpcodeR_Process p in_speedmod in_reset).map (fun r => (r.1.toRamp, r.2))
      = some (CaOscilOpcode_Process p.toRamp in_speedmod in_reset.length) := by
  unfold CaOscilOpcodeR_Process CaOscilOpcode_Process
  by_cases h : |in_speedmod| < FLT_EPSILON
  · simp only [if_pos h, Option.map_some']
    rfl
  · simp only [if_neg h]
    exact CaOscilOpcodeR_block_zero _ _ hzero p

theorem CaOscilOpcodeR_run_zero (calls : List (ℚ × List ℚ))
    (hzero : ∀ call ∈ calls, ∀ x ∈ call.2, x = 0) (p : CaOscilOpcodeR) :
    (CaOscilOpcodeR_run p calls).map (fun r => (r.1.toRamp, r.2))
      = some (CaOscilOpcode_run p.toRamp (calls.map fun call => (call.1, call.2.length))) := by
  induction calls generalizing p with
  | nil => rfl
  | cons call calls ih =>
    have h1 := CaOscilOpcodeR_Process_zero p call.1 call.2
      (hzero call (List.mem_cons_self _ _))
    cases hp : CaOscilOpcodeR_Process p call.1 call.2 with
    | none => rw [hp] at h1; simp at h1
    | some r =>
      rw [hp, Option.map_some', Option.some.injEq] at h1
      have h2 := ih (fun c hc => hzero c (List.mem_cons_of_mem _ hc)) r.1
      cases hr : CaOscilOpcodeR_run r.1 calls with
      | none => rw [hr] at h2; simp at h2
      | some rest =>
        rw [hr, Option.map_some', Option.some.injEq] at h2
        simp only [CaOscilOpcodeR_run, hp, Option.some_bind, hr, Option.map_some',
          List.map_cons, CaOscilOpcode_run, ← h1, ← h2]

theorem CaOscilOpcodeR_Init_toRamp (in_rule in_order in_seed : ℚ) :
    (CaOscilOpcodeR_Init in_rule in_order in_seed).map CaOscilOpcodeR.toRamp
      = CaOscilOpcode_Init in_rule in_order in_seed := by
  unfold CaOscilOpcodeR_Init CaOscilOpcode_Init
  cases castU64 in_rule with
  | none => rfl
  | some rule =>
    cases castU64 in_order with
    | none => rfl
    | some order =>
      simp only [Option.some_bind]
      cases CaSeed in_seed rule order with
      | none => rfl
      | some state => rfl

/-- Claim C9: the resettable oscillator never triggered is the interpolating
oscillator. For the same init-time arguments both `Init` routines succeed together
and leave the same automaton state, rule, order, accumulator, current value, target
value and delta; and from instances that agree on those fields, a sequence of
`Process` calls with the same speeds and block lengths, in which every reset sample
is zero, produces the same output blocks and the same resulting fields. -/
theorem CaOscilOpcodeR_never_triggered (in_rule in_order in_seed : ℚ)
    (p : CaOscilOpcodeR) (calls : List (ℚ × List ℚ))
    (hzero : ∀ call ∈ calls, ∀ x ∈ call.2, x = 0) :
    (CaOscilOpcodeR_Init in_rule in_order in_seed).map CaOscilOpcodeR.toRamp
        = CaOscilOpcode_Init in_rule in_order in_seed
      ∧ (CaOscilOpcodeR_run p calls).map (fun r => (r.1.toRamp, r.2))
          = some (CaOscilOpcode_run p.toRamp
              (calls.map fun call => (call.1, call.2.length)))
      ∧ (∀ call ∈ calls,
          (CaOscilOpcodeR_Process p call.1 call.2).map (fun r => (r.1.toRamp, r.2))
            = some (CaOscilOpcode_Process p.toRamp call.1 call.2.length)) :=
  ⟨CaOscilOpcodeR_Init_toRamp in_rule in_order in_seed,
   CaOscilOpcodeR_run_zero calls hzero p,
   fun call hc => CaOscilOpcodeR_Process_zero p call.1 call.2 (hzero call hc)⟩

/-- Witness of C9: rule 3, order 1, seed `1/2`; one call at speed `1/4` on a block
of two samples with reset input zero. -/
theorem CaOscilOpcodeR_never_triggered_witness :
    (∀ call ∈ [((1 / 4 : ℚ), [(0 : ℚ), 0])], ∀ x ∈ call.2, x = 0)
    ∧ (CaOscilOpcodeR_run
          { in_seed := 1 / 2, state := 0, rule := 3, order := 1,
            TimeUntilNextSample := 0, currentVal := -1, targetVal := -1, delta := 0 }
          [(1 / 4, [0, 0])]).map (fun r => (r.1.toRamp, r.2))
        = some (CaOscilOpcode_run
            { state := 0, rule := 3, order := 1, TimeUntilNextSample := 0,
              currentVal := -1, targetVal := -1, delta := 0 } [(1 / 4, 2)]) := by
  have hz : ∀ call ∈ [((1 / 4 : ℚ), [(0 : ℚ), 0])], ∀ x ∈ call.2, x = 0 := by
    intro call hc x hx
    rw [List.mem_singleton] at hc
    subst hc
    simp only [List.mem_cons, List.mem_singleton, List.not_mem_nil, or_false, or_self] at hx
    exact hx
  exact ⟨hz, (CaOscilOpcodeR_never_triggered 3 1 (1 / 2)
      { in_seed := 1 / 2, state := 0, rule := 3, order := 1,
        TimeUntilNextSample := 0, currentVal := -1, targetVal := -1, delta := 0 }
      [(1 / 4, [0, 0])] hz).2.1⟩

/-! ## The all-zero rule -/

theorem Evolve_rule_zero (State Order : Nat) : Evolve State 0 Order = 0 := by
  apply Nat.eq_of_testBit_eq
  intro i
  unfold Evolve
  rw [Evolve_foldl_testBit State 0 Order NumBits (le_refl _)]
  simp

theorem CaSeedLoop_rule_zero (Order n result : Nat) (hn : 1 ≤ n) :
    CaSeedLoop 0 Order n result = 0 := by
  induction n generalizing result with
  | zero => omega
  | succ n ih =>
    rw [CaSeedLoop, Evolve_rule_zero]
    rcases Nat.eq_zero_or_pos n with h0 | hpos
    · subst h0; rfl
    · exact ih 0 hpos

theorem CaSeed_zero_rule_zero (Order : Nat) : CaSeed 0 0 Order = some 0 := by
  unfold CaSeed
  have hpos := FLT_EPSILON_pos
  rw [if_pos ⟨hpos, by linarith⟩, CaSeedLoop_rule_zero _ _ _ (by norm_num)]

theorem CaOscilOpcode_generation_collapsed {p : CaOscilOpcode}
    (h : CaOscilOpcode_collapsed p) :
    CaOscilOpcode_collapsed (CaOscilOpcode_generation p) := by
  obtain ⟨hs, hr, hc, _, _⟩ := h
  unfold CaOscilOpcode_collapsed CaOscilOpcode_generation
  simp only [hr, Evolve_rule_zero, CaToFloat_zero, hc]
  norm_num

theorem CaOscilOpcode_catchUp_collapsed (p : CaOscilOpcode)
    (h : CaOscilOpcode_collapsed p) :
    CaOscilOpcode_collapsed (CaOscilOpcode_catchUp p) := by
  induction p using CaOscilOpcode_catchUp.induct with
  | case1 p hlt ih =>
    rw [CaOscilOpcode_catchUp_of_lt hlt]
    exact ih (CaOscilOpcode_generation_collapsed h)
  | case2 p hge =>
    rw [CaOscilOpcode_catchUp_of_ge (not_lt.mp hge)]
    exact h

theorem CaOscilOpcode_sample_collapsed (SpeedMod : ℚ) {p : CaOscilOpcode}
    (h : CaOscilOpcode_collapsed p) :
    CaOscilOpcode_collapsed (CaOscilOpcode_sample SpeedMod p) := by
  have h1 : CaOscilOpcode_collapsed
      { p with TimeUntilNextSample := p.TimeUntilNextSample - SpeedMod } := h
  obtain ⟨hs, hr, hc, ht, hd⟩ := CaOscilOpcode_catchUp_collapsed _ h1
  unfold CaOscilOpcode_sample CaOscilOpcode_collapsed CaOscilOpcode_ramp
  simp only [hs, hr, hc, ht, hd]
  norm_num

theorem CaOscilOpcode_block_collapsed (SpeedMod : ℚ) (n : Nat) {p : CaOscilOpcode}
    (h : CaOscilOpcode_collapsed p) :
    CaOscilOpcode_collapsed (CaOscilOpcode_block SpeedMod n p).1
      ∧ ∀ x ∈ (CaOscilOpcode_block SpeedMod n p).2, x = -1 := by
  induction n generalizing p with
  | zero => exact ⟨h, fun x hx => by simp [CaOscilOpcode_block] at hx⟩
  | succ n ih =>
    have hs := CaOscilOpcode_sample_collapsed SpeedMod h
    obtain ⟨h1, h2⟩ := ih hs
    refine ⟨h1, ?_⟩
    intro x hx
    simp only [CaOscilOpcode_block, List.mem_cons] at hx
    rcases hx with hx | hx
    · rw [hx]; exact hs.2.2.1
    · exact h2 x hx

theorem CaOscilOpcode_Process_collapsed (in_speedmod : ℚ) (n : Nat) {p : CaOscilOpcode}
    (h : CaOscilOpcode_collapsed p) :
    CaOscilOpcode_collapsed (CaOscilOpcode_Process p in_speedmod n).1
      ∧ ∀ x ∈ (CaOscilOpcode_Process p in_speedmod n).2, x = -1 := by
  unfold CaOscilOpcode_Process
  by_cases hlt : |in_speedmod| < FLT_EPSILON
  · simp only [if_pos hlt]
    refine ⟨h, fun x hx => ?_⟩
    rw [List.eq_of_mem_replicate hx]
    exact h.2.2.1
  · simp only [if_neg hlt]
    exact CaOscilOpcode_block_collapsed _ n h

theorem CaOscilOpcode_run_collapsed (calls : List (ℚ × Nat)) {p : CaOscilOpcode}
    (h : CaOscilOpcode_collapsed p) :
    CaOscilOpcode_collapsed (CaOscilOpcode_run p calls).1
      ∧ ∀ block ∈ (CaOscilOpcode_run p calls).2, ∀ x ∈ block, x = -1 := by
  induction calls generalizing p with
  | nil => exact ⟨h, fun b hb => by simp [CaOscilOpcode_run] at hb⟩
  | cons call calls ih =>
    obtain ⟨h1, h2⟩ := CaOscilOpcode_Process_collapsed call.1 call.2 h
    obtain ⟨h3, h4⟩ := ih h1
    refine ⟨h3, ?_⟩
    intro b hb
    simp only [CaOscilOpcode_run, List.mem_cons] at hb
    rcases hb with hb | hb
    · rw [hb]; exact h2
    · exact h4 b hb

/-- Claim C10: under the all-zero rule `Evolve` returns 0 for every state and every
order from 1 to 6. With rule 0, order 1 and seed 0 the seeded state is 0; the
interpolating oscillator then holds the state 0 after any sequence of calls, of any
speeds and block lengths, and every sample of every block it writes is
`CaToFloat 0 = -1`; the block-rate oscillator holds the state 0 after every call
and every value it writes is `-1`. -/
theorem all_zero_rule :
    (∀ State Order : Nat, 1 ≤ Order → Order ≤ 6 → Evolve State 0 Order = 0)
      ∧ CaSeed 0 0 1 = some 0
      ∧ CaToFloat 0 = -1
      ∧ (∃ p : CaOscilOpcode, CaOscilOpcode_Init 0 1 0 = some p ∧ p.state = 0
          ∧ ∀ calls : List (ℚ × Nat),
              (CaOscilOpcode_run p calls).1.state = 0
              ∧ ∀ block ∈ (CaOscilOpcode_run p calls).2, ∀ x ∈ block, x = -1)
      ∧ (∃ k : CaOscilOpcodeK, CaOscilOpcodeK_Init 0 1 0 = some k ∧ k.state = 0
          ∧ ∀ n : Nat, 1 ≤ n →
              (CaOscilOpcodeK_after n k).state = 0 ∧ CaOscilOpcodeK_output k n = -1) := by
  refine ⟨fun State Order _ _ => Evolve_rule_zero State Order, CaSeed_zero_rule_zero 1,
    CaToFloat_zero, ?_, ?_⟩
  · refine ⟨{ state := 0, rule := 0, order := 1, TimeUntilNextSample := 0,
              currentVal := -1, targetVal := -1, delta := 0 }, ?_, rfl, ?_⟩
    · unfold CaOscilOpcode_Init
      rw [castU64_zero, castU64_one]
      simp only [Option.some_bind, CaSeed_zero_rule_zero, CaToFloat_zero]
    · intro calls
      have h := CaOscilOpcode_run_collapsed calls
        (show CaOscilOpcode_collapsed
          { state := 0, rule := 0, order := 1, TimeUntilNextSample := 0,
            currentVal := -1, targetVal := -1, delta := 0 } from ⟨rfl, rfl, rfl, rfl, rfl⟩)
      exact ⟨h.1.1, h.2⟩
  · refine ⟨{ state := 0, rule := 0, order := 1 }, ?_, rfl, ?_⟩
    · unfold CaOscilOpcodeK_Init
      rw [castU64_zero, castU64_one]
      simp only [Option.some_bind, CaSeed_zero_rule_zero]
    · intro n hn
      have hiter : ∀ m : Nat, (fun s => Evolve s 0 1)^[m] 0 = 0 := by
        intro m
        induction m with
        | zero => rfl
        | succ m ih => rw [Function.iterate_succ_apply', ih, Evolve_rule_zero]
      constructor
      · rw [CaOscilOpcodeK_after_eq]
        exact hiter n
      · obtain ⟨m, rfl⟩ : ∃ m, n = m + 1 := ⟨n - 1, by omega⟩
        unfold CaOscilOpcodeK_output CaOscilOpcodeK_Process
        rw [Nat.add_sub_cancel, CaOscilOpcodeK_after_eq]
        show CaToFloat (Evolve ((fun s => Evolve s 0 1)^[m] 0) 0 1) = -1
        rw [Evolve_rule_zero, CaToFloat_zero]

/-! ## Rule-table addressing -/

/-- For an order from 1 to 6, bit `i` of the result is the rule bit addressed by
the window of cell `i`, and no bit at or above 64 is set. -/
theorem Evolve_testBit_key (State Rule : Nat) {Order : Nat} (h1 : 1 ≤ Order)
    (h6 : Order ≤ 6) (i : Nat) :
    (Evolve State Rule Order).testBit i
      = (decide (i < 64) && Rule.testBit (EvolveKey State Order i)) := by
  unfold Evolve
  rw [Evolve_foldl_testBit State Rule Order NumBits (le_refl _)]
  have hk : EvolveKey State Order i < 64 :=
    lt_of_lt_of_le (EvolveKey_lt h1 h6 i)
      (le_trans (Nat.pow_le_pow_right (by norm_num) h6) (by norm_num))
  rw [shl64_one_of_lt hk]
  simp only [NumBits]
  by_cases hb : Rule.testBit (EvolveKey State Order i) = true
  · simp [hb, (and_two_pow_ne_zero_iff Rule _).mpr hb]
  · have hz : ¬ (Rule &&& 2 ^ EvolveKey State Order i ≠ 0) :=
      fun h => hb ((and_two_pow_ne_zero_iff Rule _).mp h)
    simp only [Bool.not_eq_true] at hb
    simp [hb, hz]

/-- Claim C11: rule bits at or above `2 ^ order` are inert: for every state, every
order from 1 to 6 and every two rules that agree on the bits `0` to
`2 ^ order - 1`, `Evolve` returns the same state under both rules. -/
theorem Evolve_rule_high_bits_inert (State Rule1 Rule2 Order : Nat)
    (h1 : 1 ≤ Order) (h6 : Order ≤ 6)
    (hagree : ∀ k, k < 2 ^ Order → Rule1.testBit k = Rule2.testBit k) :
    Evolve State Rule1 Order = Evolve State Rule2 Order := by
  apply Nat.eq_of_testBit_eq
  intro i
  rw [Evolve_testBit_key State Rule1 h1 h6, Evolve_testBit_key State Rule2 h1 h6,
    hagree _ (EvolveKey_lt h1 h6 i)]

/-- Witness of C11: the rules 30 and 30 + 256 at order 3 on the state `2 ^ 15`. -/
theorem Evolve_rule_high_bits_inert_witness :
    (1 ≤ 3 ∧ 3 ≤ 6 ∧ ∀ k, k < 2 ^ 3 → Nat.testBit 30 k = Nat.testBit 286 k)
    ∧ Evolve (2 ^ 15) 30 3 = Evolve (2 ^ 15) 286 3 :=
  have hagree : ∀ k, k < 2 ^ 3 → Nat.testBit 30 k = Nat.testBit 286 k := by decide
  ⟨⟨by decide, by decide, hagree⟩,
   Evolve_rule_high_bits_inert (2 ^ 15) 30 286 3 (by decide) (by decide) hagree⟩

/-- Claim C12: for a 64-bit state, a cell index `i < 64` and an order from 1 to 6,
the window value `Key` computed in `Evolve` is below `2 ^ order`, which is at most
64; so the shift `1 << Key` has a count below 64 and yields `2 ^ Key` without
truncation. -/
theorem EvolveKey_in_range (State Order i : Nat) (_hS : State < 2 ^ 64)
    (h1 : 1 ≤ Order) (h6 : Order ≤ 6) (_hi : i < 64) :
    EvolveKey State Order i < 2 ^ Order
      ∧ 2 ^ Order ≤ 64
      ∧ EvolveKey State Order i < 64
      ∧ shl64 1 (EvolveKey State Order i) = 2 ^ EvolveKey State Order i := by
  have hk : EvolveKey State Order i < 2 ^ Order := EvolveKey_lt h1 h6 i
  have hp : 2 ^ Order ≤ 64 := le_trans (Nat.pow_le_pow_right (by norm_num) h6) (by norm_num)
  exact ⟨hk, hp, lt_of_lt_of_le hk hp, shl64_one_of_lt (lt_of_lt_of_le hk hp)⟩

/-- Witness of C12: the all-ones state at order 6, cell 0. -/
theorem EvolveKey_in_range_witness :
    (2 ^ 64 - 1 < 2 ^ 64 ∧ 1 ≤ 6 ∧ 6 ≤ 6 ∧ 0 < 64)
    ∧ EvolveKey (2 ^ 64 - 1) 6 0 < 2 ^ 6 ∧ EvolveKey (2 ^ 64 - 1) 6 0 < 64 :=
  ⟨⟨by decide, by decide, by decide, by decide⟩,
   (EvolveKey_in_range (2 ^ 64 - 1) 6 0 (by decide) (by decide) (by decide) (by decide)).1,
   (EvolveKey_in_range (2 ^ 64 - 1) 6 0 (by decide) (by decide) (by decide) (by decide)).2.2.1⟩

/-! ## Monotonicity of the amplitude mapping -/

/-- Claim C14: `CaToFloat` is monotonic: for states `s1 ≤ s2` (compared as unsigned
integers) `CaToFloat s1 ≤ CaToFloat s2`, and the inequality is strict when
`s1 < s2`, in exact arithmetic. -/
theorem CaToFloat_mono (s1 s2 : Nat) (h : s1 ≤ s2) :
    CaToFloat s1 ≤ CaToFloat s2 ∧ (s1 < s2 → CaToFloat s1 < CaToFloat s2) := by
  have hpos : (0 : ℚ) < (ULONG_MAX : ℚ) := by unfold ULONG_MAX; norm_num
  unfold CaToFloat
  constructor
  · have hc : (s1 : ℚ) ≤ (s2 : ℚ) := by exact_mod_cast h
    have := div_le_div_of_nonneg_right hc hpos.le
    linarith
  · intro hlt
    have hc : (s1 : ℚ) < (s2 : ℚ) := by exact_mod_cast hlt
    have := div_lt_div_of_pos_right hc hpos
    linarith

/-- Witness of C14: the states 5 and 7. -/
theorem CaToFloat_mono_witness :
    5 ≤ 7 ∧ CaToFloat 5 ≤ CaToFloat 7 ∧ (5 < 7 → CaToFloat 5 < CaToFloat 7) :=
  ⟨by decide, CaToFloat_mono 5 7 (by decide)⟩

/-! ## Rotation of the ring -/

theorem rotl64_testBit {S : Nat} (hS : S < 2 ^ 64) {k i : Nat} (hk : k < 64) (hi : i < 64) :
    (rotl64 S k).testBit i = S.testBit ((i + 64 - k) % 64) := by
  unfold rotl64 shl64
  rw [Nat.testBit_or, Nat.testBit_mod_two_pow, Nat.testBit_shiftLeft, Nat.testBit_shiftRight]
  by_cases h : k ≤ i
  · have h1 : S.testBit (64 - k + i) = false :=
      Nat.testBit_lt_two_pow (lt_of_lt_of_le hS (Nat.pow_le_pow_right (by norm_num) (by omega)))
    have h2 : (i + 64 - k) % 64 = i - k := by omega
    have h3 : i ≥ k := h
    simp [h1, h2, h3, hi]
  · have h2 : (i + 64 - k) % 64 = 64 - k + i := by omega
    have h3 : ¬ i ≥ k := h
    simp [h2, h3]

theorem rotl64_lt {S : Nat} (hS : S < 2 ^ 64) (k : Nat) : rotl64 S k < 2 ^ 64 := by
  unfold rotl64 shl64
  apply Nat.or_lt_two_pow
  · exact Nat.mod_lt _ (by positivity)
  · rw [Nat.shiftRight_eq_div_pow]
    exact lt_of_le_of_lt (Nat.div_le_self _ _) hS

/-- Claim C18: `Evolve` commutes with the rotation of the 64-cell ring: for a
64-bit state, every rule, every order from 1 to 6 and every `k < 64`, evolving
the state rotated by `k` cells gives the evolved state rotated by `k` cells. -/
theorem Evolve_rotl64 (State Rule Order k : Nat) (hS : State < 2 ^ 64)
    (h1 : 1 ≤ Order) (h6 : Order ≤ 6) (hk : k < 64) :
    Evolve (rotl64 State k) Rule Order = rotl64 (Evolve State Rule Order) k := by
  apply Nat.eq_of_testBit_eq
  intro i
  by_cases hi : i < 64
  · rw [rotl64_testBit (Evolve_lt State Rule Order) hk hi,
      Evolve_testBit_key _ Rule h1 h6, Evolve_testBit_key _ Rule h1 h6,
      EvolveKey_eq_sum (rotl64_lt hS k) h1 h6 hi,
      EvolveKey_eq_sum hS h1 h6 (Nat.mod_lt _ (by norm_num))]
    have hi2 : (i + 64 - k) % 64 < 64 := Nat.mod_lt _ (by norm_num)
    simp only [hi, hi2, decide_True, Bool.true_and]
    congr 1
    apply Finset.sum_congr rfl
    intro j _
    rw [rotl64_testBit hS hk (Nat.mod_lt _ (by norm_num))]
    congr 3
    omega
  · have hlt1 := Evolve_lt (rotl64 State k) Rule Order
    have hlt2 := rotl64_lt (Evolve_lt State Rule Order) k
    have hge : 2 ^ 64 ≤ 2 ^ i := Nat.pow_le_pow_right (by norm_num) (by omega)
    rw [Nat.testBit_lt_two_pow (lt_of_lt_of_le hlt1 hge),
      Nat.testBit_lt_two_pow (lt_of_lt_of_le hlt2 hge)]

/-- Witness of C18: the state 5 under rule 30 at order 3, rotated by 62 cells. -/
theorem Evolve_rotl64_witness :
    (5 < 2 ^ 64 ∧ 1 ≤ 3 ∧ 3 ≤ 6 ∧ 62 < 64)
    ∧ Evolve (rotl64 5 62) 30 3 = rotl64 (Evolve 5 30 3) 62 :=
  ⟨⟨by decide, by decide, by decide, by decide⟩,
   Evolve_rotl64 5 30 3 62 (by decide) (by decide) (by decide) (by decide)⟩

/-! ## The accumulator of the interpolating oscillator -/

theorem accInRange_lt {t : ℚ} (h : accInRange t) : t < 1 + FLT_EPSILON := by
  have hpos := FLT_EPSILON_pos
  rcases h with h | h
  · rw [h]; linarith
  · exact h.2

theorem CaOscilOpcode_catchUp_acc_lt (p : CaOscilOpcode)
    (h : p.TimeUntilNextSample < 1 + FLT_EPSILON) :
    (CaOscilOpcode_catchUp p).TimeUntilNextSample < 1 + FLT_EPSILON := by
  induction p using CaOscilOpcode_catchUp.induct with
  | case1 p hlt ih =>
    rw [CaOscilOpcode_catchUp_of_lt hlt]
    apply ih
    show p.TimeUntilNextSample + 1 < 1 + FLT_EPSILON
    linarith
  | case2 p hge =>
    rw [CaOscilOpcode_catchUp_of_ge (not_lt.mp hge)]
    exact h

theorem CaOscilOpcode_catchUp_currentVal (p : CaOscilOpcode) :
    (CaOscilOpcode_catchUp p).currentVal = p.currentVal := by
  induction p using CaOscilOpcode_catchUp.induct with
  | case1 p hlt ih => rw [CaOscilOpcode_catchUp_of_lt hlt, ih]; rfl
  | case2 p hge => rw [CaOscilOpcode_catchUp_of_ge (not_lt.mp hge)]

/-- One sample run at a non-negative speed from an accumulator below
`1 + FLT_EPSILON` leaves the accumulator at or above `FLT_EPSILON` and below
`1 + FLT_EPSILON`. -/
theorem CaOscilOpcode_sample_acc {SpeedMod : ℚ} (hs : 0 ≤ SpeedMod) (p : CaOscilOpcode)
    (h : p.TimeUntilNextSample < 1 + FLT_EPSILON) :
    FLT_EPSILON ≤ (CaOscilOpcode_sample SpeedMod p).TimeUntilNextSample
      ∧ (CaOscilOpcode_sample SpeedMod p).TimeUntilNextSample < 1 + FLT_EPSILON := by
  have h1 : (CaOscilOpcode_sample SpeedMod p).TimeUntilNextSample
      = (CaOscilOpcode_catchUp
          { p with TimeUntilNextSample := p.TimeUntilNextSample - SpeedMod }).TimeUntilNextSample :=
    rfl
  rw [h1]
  refine ⟨CaOscilOpcode_catchUp_exit _, CaOscilOpcode_catchUp_acc_lt _ ?_⟩
  show p.TimeUntilNextSample - SpeedMod < 1 + FLT_EPSILON
  linarith

theorem CaOscilOpcode_block_acc {SpeedMod : ℚ} (hs : 0 ≤ SpeedMod) (n : Nat)
    (p : CaOscilOpcode) (h : accInRange p.TimeUntilNextSample) :
    accInRange (CaOscilOpcode_block SpeedMod n p).1.TimeUntilNextSample := by
  induction n generalizing p with
  | zero => exact h
  | succ n ih =>
    exact ih _ (Or.inr (CaOscilOpcode_sample_acc hs p (accInRange_lt h)))

theorem CaOscilOpcode_Process_acc (in_speedmod : ℚ) (n : Nat) (p : CaOscilOpcode)
    (h : accInRange p.TimeUntilNextSample) :
    accInRange (CaOscilOpcode_Process p in_speedmod n).1.TimeUntilNextSample := by
  unfold CaOscilOpcode_Process
  by_cases hlt : |in_speedmod| < FLT_EPSILON
  · simp only [if_pos hlt]; exact h
  · simp only [if_neg hlt]
    exact CaOscilOpcode_block_acc (abs_nonneg _) n p h

theorem CaOscilOpcode_run_acc (calls : List (ℚ × Nat)) (p : CaOscilOpcode)
    (h : accInRange p.TimeUntilNextSample) :
    accInRange (CaOscilOpcode_run p calls).1.TimeUntilNextSample := by
  induction calls generalizing p with
  | nil => exact h
  | cons call calls ih => exact ih _ (CaOscilOpcode_Process_acc call.1 call.2 p h)

theorem CaOscilOpcode_Init_some {in_rule in_order in_seed : ℚ} {p : CaOscilOpcode}
    (h : CaOscilOpcode_Init in_rule in_order in_seed = some p) :
    CaSeed in_seed p.rule p.order = some p.state ∧ p.TimeUntilNextSample = 0
      ∧ p.currentVal = CaToFloat p.state ∧ p.targetVal = CaToFloat p.state
      ∧ p.delta = 0 := by
  unfold CaOscilOpcode_Init at h
  cases hr : castU64 in_rule with
  | none => rw [hr] at h; simp at h
  | some rule =>
    cases ho : castU64 in_order with
    | none => rw [hr, ho] at h; simp at h
    | some order =>
      cases hs : CaSeed in_seed rule order with
      | none => rw [hr, ho] at h; simp [hs] at h
      | some state =>
        rw [hr, ho] at h
        simp only [Option.some_bind, hs, Option.some.injEq] at h
        subst h
        exact ⟨hs, rfl, rfl, rfl, rfl⟩

/-- Every instance reached from `CaOscilOpcode_Init` by performance calls has its
accumulator in range. -/
theorem CaOscilOpcode_reachable_acc {in_rule in_order in_seed : ℚ} {p : CaOscilOpcode}
    (h : CaOscilOpcode_Init in_rule in_order in_seed = some p) (calls : List (ℚ × Nat)) :
    accInRange (CaOscilOpcode_run p calls).1.TimeUntilNextSample :=
  CaOscilOpcode_run_acc calls p (Or.inl (CaOscilOpcode_Init_some h).2.1)

/-- The samples of a block after the first keep the accumulator at or above the
threshold. -/
theorem CaOscilOpcode_block_acc_ge {SpeedMod : ℚ} (n : Nat) (p : CaOscilOpcode)
    (h : FLT_EPSILON ≤ p.TimeUntilNextSample) :
    FLT_EPSILON ≤ (CaOscilOpcode_block SpeedMod n p).1.TimeUntilNextSample := by
  induction n generalizing p with
  | zero => exact h
  | succ n ih => exact ih _ (CaOscilOpcode_catchUp_exit _)

/-- Counterexample to C13 as stated: after `CaOscilOpcode_Init` with rule 3,
order 1, seed `1/2`, a call at speed 0 on a block of one sample writes the sample
`-1` and leaves the accumulator at 0, below `FLT_EPSILON`. -/
theorem CaOscilOpcode_acc_frozen_counterexample :
    ∃ p : CaOscilOpcode, CaOscilOpcode_Init 3 1 (1 / 2) = some p
      ∧ (CaOscilOpcode_Process p 0 1).2 = [-1]
      ∧ (CaOscilOpcode_Process p 0 1).1.TimeUntilNextSample = 0
      ∧ (CaOscilOpcode_Process p 0 1).1.TimeUntilNextSample < FLT_EPSILON := by
  have hz : |(0 : ℚ)| < FLT_EPSILON := by rw [abs_zero]; exact FLT_EPSILON_pos
  refine ⟨_, CaOscilOpcode_Init_example, ?_, ?_, ?_⟩
  · unfold CaOscilOpcode_Process
    simp only [if_pos hz]
    rfl
  · unfold CaOscilOpcode_Process
    simp only [if_pos hz]
  · unfold CaOscilOpcode_Process
    simp only [if_pos hz]
    exact FLT_EPSILON_pos

/-- Claim C13, amended: for every instance and every call of
`CaOscilOpcode_Process` whose speed has magnitude at least `FLT_EPSILON`, the
accumulator is at least `FLT_EPSILON` after each processed sample, hence after the
call when the block has at least one sample. -/
theorem CaOscilOpcode_acc_ge (p : CaOscilOpcode) (in_speedmod : ℚ) (n : Nat)
    (hspeed : FLT_EPSILON ≤ |in_speedmod|) (hn : 1 ≤ n) :
    FLT_EPSILON ≤ (CaOscilOpcode_sample |in_speedmod| p).TimeUntilNextSample
      ∧ FLT_EPSILON ≤ (CaOscilOpcode_Process p in_speedmod n).1.TimeUntilNextSample := by
  refine ⟨CaOscilOpcode_catchUp_exit _, ?_⟩
  obtain ⟨m, rfl⟩ : ∃ m, n = m + 1 := ⟨n - 1, by omega⟩
  unfold CaOscilOpcode_Process
  simp only [if_neg (not_lt.mpr hspeed)]
  exact CaOscilOpcode_block_acc_ge m _ (CaOscilOpcode_catchUp_exit _)

/-- Witness of C13 amended: the instance after `CaOscilOpcode_Init` with rule 3,
order 1, seed `1/2`, one call at speed `1/4` on a block of two samples. -/
theorem CaOscilOpcode_acc_ge_witness :
    (FLT_EPSILON ≤ |(1 / 4 : ℚ)| ∧ 1 ≤ 2)
    ∧ FLT_EPSILON ≤ (CaOscilOpcode_Process
        { state := 0, rule := 3, order := 1, TimeUntilNextSample := 0,
          currentVal := -1, targetVal := -1, delta := 0 } (1 / 4) 2).1.TimeUntilNextSample :=
  have h1 : FLT_EPSILON ≤ |(1 / 4 : ℚ)| := by
    rw [abs_of_pos (by norm_num)]; unfold FLT_EPSILON; norm_num
  ⟨⟨h1, by decide⟩, (CaOscilOpcode_acc_ge _ (1 / 4) 2 h1 (by decide)).2⟩

/-! ## The number of generations of one sample -/

theorem CaOscilOpcode_catchUpCount_of_lt {p : CaOscilOpcode}
    (h : p.TimeUntilNextSample < FLT_EPSILON) :
    CaOscilOpcode_catchUpCount p
      = CaOscilOpcode_catchUpCount (CaOscilOpcode_generation p) + 1 := by
  rw [CaOscilOpcode_catchUpCount, if_pos h]

theorem CaOscilOpcode_catchUpCount_of_ge {p : CaOscilOpcode}
    (h : FLT_EPSILON ≤ p.TimeUntilNextSample) : CaOscilOpcode_catchUpCount p = 0 := by
  rw [CaOscilOpcode_catchUpCount, if_neg (not_lt.mpr h)]

/-- The loop is its body iterated `CaOscilOpcode_catchUpCount` times. -/
theorem CaOscilOpcode_catchUp_eq_iterate (p : CaOscilOpcode) :
    CaOscilOpcode_catchUp p
      = CaOscilOpcode_generation^[CaOscilOpcode_catchUpCount p] p := by
  induction p using CaOscilOpcode_catchUp.induct with
  | case1 p hlt ih =>
    rw [CaOscilOpcode_catchUp_of_lt hlt, CaOscilOpcode_catchUpCount_of_lt hlt, ih,
      Function.iterate_succ_apply]
  | case2 p hge =>
    rw [CaOscilOpcode_catchUp_of_ge (not_lt.mp hge),
      CaOscilOpcode_catchUpCount_of_ge (not_lt.mp hge)]
    rfl

/-! ## Samples with at least one generation -/

/-- After at least one iteration of the loop the delta is the target value minus
the current value and the target value is the amplitude of the automaton state,
a 64-bit value. -/
theorem CaOscilOpcode_catchUp_fresh_aux (p : CaOscilOpcode)
    (h : p.delta = p.targetVal - p.currentVal ∧ p.targetVal = CaToFloat p.state
      ∧ p.state < 2 ^ 64) :
    (CaOscilOpcode_catchUp p).delta
        = (CaOscilOpcode_catchUp p).targetVal - (CaOscilOpcode_catchUp p).currentVal
      ∧ (CaOscilOpcode_catchUp p).targetVal = CaToFloat (CaOscilOpcode_catchUp p).state
      ∧ (CaOscilOpcode_catchUp p).state < 2 ^ 64 := by
  induction p using CaOscilOpcode_catchUp.induct with
  | case1 p hlt ih =>
    rw [CaOscilOpcode_catchUp_of_lt hlt]
    exact ih ⟨rfl, rfl, Evolve_lt _ _ _⟩
  | case2 p hge =>
    rw [CaOscilOpcode_catchUp_of_ge (not_lt.mp hge)]
    exact h

theorem CaOscilOpcode_catchUp_fresh (p : CaOscilOpcode)
    (hlt : p.TimeUntilNextSample < FLT_EPSILON) :
    (CaOscilOpcode_catchUp p).delta
        = (CaOscilOpcode_catchUp p).targetVal - (CaOscilOpcode_catchUp p).currentVal
      ∧ (CaOscilOpcode_catchUp p).targetVal = CaToFloat (CaOscilOpcode_catchUp p).state
      ∧ (CaOscilOpcode_catchUp p).state < 2 ^ 64 := by
  rw [CaOscilOpcode_catchUp_of_lt hlt]
  exact CaOscilOpcode_catchUp_fresh_aux _ ⟨rfl, rfl, Evolve_lt _ _ _⟩

/-- With a fresh delta and a speed of at least 1 the ramp lands on the target. -/
theorem CaOscilOpcode_ramp_full {SpeedMod : ℚ} (hs : 1 ≤ SpeedMod) (q : CaOscilOpcode)
    (hd : q.delta = q.targetVal - q.currentVal) :
    (CaOscilOpcode_ramp SpeedMod q).currentVal = q.targetVal := by
  unfold CaOscilOpcode_ramp
  simp only [hd, decide_eq_true_eq]
  by_cases hlt : q.currentVal < q.targetVal
  · rw [if_pos hlt]
    apply min_eq_right
    have h1 : 0 < q.targetVal - q.currentVal := sub_pos.mpr hlt
    nlinarith
  · rw [if_neg hlt]
    apply max_eq_right
    have h1 : q.targetVal - q.currentVal ≤ 0 := sub_nonpos.mpr (not_lt.mp hlt)
    nlinarith

/-! ## The accumulator of the resettable oscillator -/

theorem CaOscilOpcodeR_Init_acc {in_rule in_order in_seed : ℚ} {p : CaOscilOpcodeR}
    (h : CaOscilOpcodeR_Init in_rule in_order in_seed = some p) :
    p.TimeUntilNextSample = 0 := by
  have h1 := CaOscilOpcodeR_Init_toRamp in_rule in_order in_seed
  rw [h, Option.map_some'] at h1
  exact (CaOscilOpcode_Init_some h1.symm).2.1

theorem CaOscilOpcodeR_Init_example :
    CaOscilOpcodeR_Init 3 1 (1 / 2)
      = some { in_seed := 1 / 2, state := 0, rule := 3, order := 1,
               TimeUntilNextSample := 0, currentVal := -1, targetVal := -1,
               delta := 0 } := by
  unfold CaOscilOpcodeR_Init
  rw [castU64_three, castU64_one]
  simp only [Option.some_bind, CaSeed_half, CaToFloat_zero]

/-! ## The place of the reset within a sample -/

theorem Evolve_toggle_zero : Evolve 0 1 1 = 2 ^ 64 - 1 := by decide

theorem Evolve_toggle_ones : Evolve (2 ^ 64 - 1) 1 1 = 0 := by decide

theorem CaOscilOpcodeR_ramp_toRamp (SpeedMod : ℚ) (q : CaOscilOpcodeR) :
    (CaOscilOpcodeR_ramp SpeedMod q).toRamp = CaOscilOpcode_ramp SpeedMod q.toRamp := rfl

theorem CaOscilOpcodeR_toRamp_output (q : CaOscilOpcodeR) (r : CaOscilOpcode)
    (h : q.toRamp = r) : (q.toRamp, [q.currentVal]) = (r, [r.currentVal]) := by
  subst h
  rfl

/-- Counterexample to C15 as stated: rule 1, order 1, seed `1/2` (the state 0), the
instance just after `CaOscilOpcodeR_Init`, a sample at speed `3/2` with reset input
1. The code reseeds after the decrement and produces one generation: state
`2 ^ 64 - 1`, accumulator 1, output 1. Reseeding with the accumulator set to 0
before the ordinary sample of `CaOscilOpcode_Process` produces two generations:
state 0, accumulator `1/2`, output `-1`. -/
theorem CaOscilOpcodeR_reset_order_counterexample :
    CaOscilOpcodeR_Init 1 1 (1 / 2)
        = some { in_seed := 1 / 2, state := 0, rule := 1, order := 1,
                 TimeUntilNextSample := 0, currentVal := -1, targetVal := -1,
                 delta := 0 }
      ∧ FLT_EPSILON ≤ |(3 / 2 : ℚ)| ∧ FLT_EPSILON < |(1 : ℚ)|
      ∧ CaSeed (1 / 2) 1 1 = some 0
      ∧ CaOscilOpcodeR_sample |(3 / 2 : ℚ)| 1
          { in_seed := 1 / 2, state := 0, rule := 1, order := 1,
            TimeUntilNextSample := 0, currentVal := -1, targetVal := -1, delta := 0 }
        = some { in_seed := 1 / 2, state := 2 ^ 64 - 1, rule := 1, order := 1,
                 TimeUntilNextSample := 1, currentVal := 1, targetVal := 1,
                 delta := 2 }
      ∧ CaOscilOpcode_sample |(3 / 2 : ℚ)|
          { state := 0, rule := 1, order := 1, TimeUntilNextSample := 0,
            currentVal := -1, targetVal := -1, delta := 0 }
        = { state := 0, rule := 1, order := 1, TimeUntilNextSample := 1 / 2,
            currentVal := -1, targetVal := -1, delta := 0 } := by
  have habs : |(3 / 2 : ℚ)| = 3 / 2 := abs_of_pos (by norm_num)
  have htrig : (1 : ℚ) > FLT_EPSILON ∨ (1 : ℚ) < -FLT_EPSILON :=
    Or.inl FLT_EPSILON_lt_one
  refine ⟨?_, ?_, ?_, CaSeed_half 1 1, ?_, ?_⟩
  · unfold CaOscilOpcodeR_Init
    rw [castU64_one]
    simp only [Option.some_bind, CaSeed_half, CaToFloat_zero]
  · rw [habs]; unfold FLT_EPSILON; norm_num
  · rw [abs_one]; exact FLT_EPSILON_lt_one
  · simp only [habs, CaOscilOpcodeR_sample, CaOscilOpcodeR_reset, if_pos htrig,
      CaSeed_half, Option.map_some']
    rw [CaOscilOpcodeR_catchUp_of_lt (by exact FLT_EPSILON_pos)]
    simp only [CaOscilOpcodeR_generation, Evolve_toggle_zero, CaToFloat_max]
    rw [CaOscilOpcodeR_catchUp_of_ge (by unfold FLT_EPSILON; norm_num)]
    simp only [CaOscilOpcodeR_ramp]
    norm_num
  · simp only [habs, CaOscilOpcode_sample]
    rw [CaOscilOpcode_catchUp_of_lt (by unfold FLT_EPSILON; norm_num)]
    simp only [CaOscilOpcode_generation, Evolve_toggle_zero, CaToFloat_max]
    rw [CaOscilOpcode_catchUp_of_lt (by unfold FLT_EPSILON; norm_num)]
    simp only [CaOscilOpcode_generation, Evolve_toggle_ones, CaToFloat_zero]
    rw [CaOscilOpcode_catchUp_of_ge (by unfold FLT_EPSILON; norm_num)]
    simp only [CaOscilOpcode_ramp]
    norm_num

/-- Claim C15, amended: the reset is applied after the decrement of step 1. For
every instance of the resettable oscillator whose reseed is defined, every speed
of magnitude at least `FLT_EPSILON` and every sample whose reset input has
magnitude above `FLT_EPSILON`, processing the sample gives the same output and the
same resulting automaton state, accumulator, current value, target value and delta
as setting the automaton state to `CaSeed(seed, rule, order)` and the accumulator
to 0 and then running the catch-up loop, the ramp and the clamp of
`CaOscilOpcode_Process`, without the decrement by the speed. -/
theorem CaOscilOpcodeR_reset_after_decrement (p : CaOscilOpcodeR) (in_speedmod Reset : ℚ)
    (s0 : Nat) (hspeed : FLT_EPSILON ≤ |in_speedmod|) (htrig : FLT_EPSILON < |Reset|)
    (hseed : CaSeed p.in_seed p.rule p.order = some s0) :
    (CaOscilOpcodeR_sample |in_speedmod| Reset p).map CaOscilOpcodeR.toRamp
        = some (CaOscilOpcode_ramp |in_speedmod|
            (CaOscilOpcode_catchUp
              { p.toRamp with state := s0, TimeUntilNextSample := 0 }))
      ∧ (CaOscilOpcodeR_Process p in_speedmod [Reset]).map (fun r => (r.1.toRamp, r.2))
        = some (CaOscilOpcode_ramp |in_speedmod|
            (CaOscilOpcode_catchUp
              { p.toRamp with state := s0, TimeUntilNextSample := 0 }),
          [(CaOscilOpcode_ramp |in_speedmod|
            (CaOscilOpcode_catchUp
              { p.toRamp with state := s0, TimeUntilNextSample := 0 })).currentVal]) := by
  have hreset : CaOscilOpcodeR_reset Reset
      { p with TimeUntilNextSample := p.TimeUntilNextSample - |in_speedmod| }
      = some { p with state := s0, TimeUntilNextSample := 0 } :=
    CaOscilOpcodeR_reset_of_trigger htrig (by exact hseed)
  have hsample : CaOscilOpcodeR_sample |in_speedmod| Reset p
      = some (CaOscilOpcodeR_ramp |in_speedmod|
          (CaOscilOpcodeR_catchUp { p with state := s0, TimeUntilNextSample := 0 })) := by
    unfold CaOscilOpcodeR_sample
    simp only [hreset, Option.map_some']
  have h2 : (CaOscilOpcodeR.toRamp { p with state := s0, TimeUntilNextSample := 0 })
      = { p.toRamp with state := s0, TimeUntilNextSample := 0 } := rfl
  have hramp : (CaOscilOpcodeR_ramp |in_speedmod|
        (CaOscilOpcodeR_catchUp { p with state := s0, TimeUntilNextSample := 0 })).toRamp
      = CaOscilOpcode_ramp |in_speedmod|
          (CaOscilOpcode_catchUp
            { p.toRamp with state := s0, TimeUntilNextSample := 0 }) := by
    rw [CaOscilOpcodeR_ramp_toRamp, CaOscilOpcodeR_catchUp_toRamp, h2]
  constructor
  · rw [hsample, Option.map_some', hramp]
  · unfold CaOscilOpcodeR_Process
    simp only [if_neg (not_lt.mpr hspeed), CaOscilOpcodeR_block, hsample, Option.some_bind,
      Option.map_some']
    exact congrArg some (CaOscilOpcodeR_toRamp_output _ _ hramp)

/-- Witness of C15 amended: the instance of the counterexample (rule 1, order 1,
seed `1/2`), speed `3/2`, reset input 1. -/
theorem CaOscilOpcodeR_reset_after_decrement_witness :
    (FLT_EPSILON ≤ |(3 / 2 : ℚ)| ∧ FLT_EPSILON < |(1 : ℚ)|
      ∧ CaSeed (1 / 2) 1 1 = some 0)
    ∧ (CaOscilOpcodeR_sample |(3 / 2 : ℚ)| 1
          { in_seed := 1 / 2, state := 0, rule := 1, order := 1,
            TimeUntilNextSample := 0, currentVal := -1, targetVal := -1,
            delta := 0 }).map CaOscilOpcodeR.toRamp
        = some (CaOscilOpcode_ramp |(3 / 2 : ℚ)|
            (CaOscilOpcode_catchUp
              { state := 0, rule := 1, order := 1, TimeUntilNextSample := 0,
                currentVal := -1, targetVal := -1, delta := 0 })) :=
  have h1 : FLT_EPSILON ≤ |(3 / 2 : ℚ)| := by
    rw [abs_of_pos (by norm_num)]; unfold FLT_EPSILON; norm_num
  have h2 : FLT_EPSILON < |(1 : ℚ)| := by
    rw [abs_one]; exact FLT_EPSILON_lt_one
  ⟨⟨h1, h2, CaSeed_half 1 1⟩,
   (CaOscilOpcodeR_reset_after_decrement
      { in_seed := 1 / 2, state := 0, rule := 1, order := 1,
        TimeUntilNextSample := 0, currentVal := -1, targetVal := -1, delta := 0 }
      (3 / 2) 1 0 h1 h2 (CaSeed_half 1 1)).1⟩

/-! ## The ramp at constant speed: one sample -/

theorem CaToFloat_inUnit {State : Nat} (hS : State < 2 ^ 64) : inUnit (CaToFloat State) := by
  have h0 : (0 : ℚ) ≤ State := Nat.cast_nonneg State
  have hle : (State : ℚ) ≤ 2 ^ 64 - 1 := by
    have : State ≤ 2 ^ 64 - 1 := by omega
    have h : ((State : Nat) : ℚ) ≤ ((2 ^ 64 - 1 : Nat) : ℚ) := by exact_mod_cast this
    rw [Nat.cast_sub (by norm_num)] at h
    exact_mod_cast h
  have hpos : (0 : ℚ) < 2 ^ 64 - 1 := by norm_num
  have hq0 : 0 ≤ (State : ℚ) / (2 ^ 64 - 1) := div_nonneg h0 hpos.le
  have hq1 : (State : ℚ) / (2 ^ 64 - 1) ≤ 1 := (div_le_one hpos).mpr hle
  have hform : CaToFloat State = (State : ℚ) / (2 ^ 64 - 1) * 2 - 1 := by
    unfold CaToFloat ULONG_MAX
    norm_num
  unfold inUnit
  rw [hform]
  constructor <;> linarith

theorem between_inUnit {a b x : ℚ} (ha : inUnit a) (hb : inUnit b) (h : between a b x) :
    inUnit x := by
  unfold inUnit between at *
  constructor
  · exact le_trans (le_min ha.1 hb.1) h.1
  · exact le_trans h.2 (max_le ha.2 hb.2)

theorem CaOscilOpcode_ramp_of_lt {SpeedMod : ℚ} {q : CaOscilOpcode}
    (h : q.currentVal < q.targetVal) :
    (CaOscilOpcode_ramp SpeedMod q).currentVal
      = min (q.currentVal + q.delta * SpeedMod) q.targetVal := by
  unfold CaOscilOpcode_ramp
  simp only [decide_eq_true_eq, if_pos h]

theorem CaOscilOpcode_ramp_of_ge {SpeedMod : ℚ} {q : CaOscilOpcode}
    (h : q.targetVal ≤ q.currentVal) :
    (CaOscilOpcode_ramp SpeedMod q).currentVal
      = max (q.currentVal + q.delta * SpeedMod) q.targetVal := by
  unfold CaOscilOpcode_ramp
  simp only [decide_eq_true_eq, if_neg (not_lt.mpr h)]

/-- The clamp on a rising ramp: the new value stays between the old value and the
target, and the distance left still exceeds what the delta covers in the time left
after one more sample. -/
theorem ramp_rising {c t d s e T : ℚ} (hs : 0 < s) (hd : 0 < d) (hct : c < t)
    (hleft : d * (T - s - e) < t - c - d * s ∨ (t - c ≤ d * s ∧ T - s - e < 0)) :
    c ≤ min (c + d * s) t ∧ min (c + d * s) t ≤ t
      ∧ d * (T - s - e) < t - min (c + d * s) t := by
  have hds : 0 < d * s := mul_pos hd hs
  rcases le_total (c + d * s) t with h | h
  · rw [min_eq_left h]
    refine ⟨by linarith, h, ?_⟩
    rcases hleft with h1 | h1
    · linarith
    · have h2 : t - c = d * s := le_antisymm h1.1 (by linarith)
      have h3 : d * (T - s - e) < 0 := mul_neg_of_pos_of_neg hd h1.2
      linarith
  · rw [min_eq_right h]
    refine ⟨hct.le, le_refl _, ?_⟩
    rw [sub_self]
    rcases hleft with h1 | h1
    · have : t - c - d * s ≤ 0 := by linarith
      linarith
    · exact mul_neg_of_pos_of_neg hd h1.2

/-- The clamp on a falling or flat ramp: the new value stays between the target and
the old value. -/
theorem ramp_falling {c t d s : ℚ} (hs : 0 < s) (hd : d ≤ 0) (hct : t ≤ c) :
    t ≤ max (c + d * s) t ∧ max (c + d * s) t ≤ c := by
  have hds : d * s ≤ 0 := mul_nonpos_of_nonpos_of_nonneg hd hs.le
  exact ⟨le_max_right _ _, max_le (by linarith) hct⟩

/-- The ramp step of a sample in which a generation was produced (the delta is
fresh): the invariant holds afterwards and the new current value lies between the
old one and the target. -/
theorem CaOscilOpcode_ramp_fresh_inv {SpeedMod : ℚ} (hs : 0 < SpeedMod) (q : CaOscilOpcode)
    (hd : q.delta = q.targetVal - q.currentVal)
    (hT : q.TimeUntilNextSample < 1 + FLT_EPSILON)
    (hc : inUnit q.currentVal) (ht : inUnit q.targetVal) :
    CaOscilOpcode_rampInv SpeedMod (CaOscilOpcode_ramp SpeedMod q)
      ∧ between q.currentVal q.targetVal (CaOscilOpcode_ramp SpeedMod q).currentVal := by
  have e1 : (CaOscilOpcode_ramp SpeedMod q).targetVal = q.targetVal := rfl
  have e2 : (CaOscilOpcode_ramp SpeedMod q).delta = q.delta := rfl
  have e3 : (CaOscilOpcode_ramp SpeedMod q).TimeUntilNextSample = q.TimeUntilNextSample := rfl
  rcases lt_or_le q.currentVal q.targetVal with hlt | hge
  · have hdpos : 0 < q.delta := by rw [hd]; linarith
    have hleft : q.delta * (q.TimeUntilNextSample - SpeedMod - FLT_EPSILON)
        < q.targetVal - q.currentVal - q.delta * SpeedMod := by
      have h1 : q.TimeUntilNextSample - SpeedMod - FLT_EPSILON < 1 - SpeedMod := by linarith
      have h2 := mul_lt_mul_of_pos_left h1 hdpos
      have h3 : q.delta * (1 - SpeedMod) = q.targetVal - q.currentVal - q.delta * SpeedMod := by
        rw [mul_sub, mul_one, hd]
      linarith
    obtain ⟨r1, r2, r3⟩ := ramp_rising hs hdpos hlt (Or.inl hleft)
    have hbt : between q.currentVal q.targetVal (CaOscilOpcode_ramp SpeedMod q).currentVal := by
      unfold between
      rw [CaOscilOpcode_ramp_of_lt hlt, min_eq_left hlt.le, max_eq_right hlt.le]
      exact ⟨r1, r2⟩
    refine ⟨⟨?_, ?_, between_inUnit hc ht hbt, ?_⟩, hbt⟩
    · unfold CaOscilOpcode_onRamp
      rw [e1, e2, e3, CaOscilOpcode_ramp_of_lt hlt]
      exact Or.inr ⟨hdpos, r2, r3⟩
    · rw [e3]; exact hT
    · rw [e1]; exact ht
  · have hdneg : q.delta ≤ 0 := by rw [hd]; linarith
    obtain ⟨r1, r2⟩ := ramp_falling hs hdneg hge
    have hbt : between q.currentVal q.targetVal (CaOscilOpcode_ramp SpeedMod q).currentVal := by
      unfold between
      rw [CaOscilOpcode_ramp_of_ge hge, min_eq_right hge, max_eq_left hge]
      exact ⟨r1, r2⟩
    refine ⟨⟨?_, ?_, between_inUnit hc ht hbt, ?_⟩, hbt⟩
    · unfold CaOscilOpcode_onRamp
      rw [e1, e2, CaOscilOpcode_ramp_of_ge hge]
      exact Or.inl ⟨hdneg, r1⟩
    · rw [e3]; exact hT
    · rw [e1]; exact ht

/-- The ramp step of a sample in which no generation was produced, at the speed
the invariant was established for. -/
theorem CaOscilOpcode_ramp_stale_inv {SpeedMod : ℚ} (hs : 0 < SpeedMod) (q : CaOscilOpcode)
    (hon : (q.delta ≤ 0 ∧ q.targetVal ≤ q.currentVal)
      ∨ (0 < q.delta ∧ q.currentVal ≤ q.targetVal
          ∧ q.delta * (q.TimeUntilNextSample - FLT_EPSILON) < q.targetVal - q.currentVal))
    (hge : FLT_EPSILON ≤ q.TimeUntilNextSample)
    (hT : q.TimeUntilNextSample < 1 + FLT_EPSILON)
    (hc : inUnit q.currentVal) (ht : inUnit q.targetVal) :
    CaOscilOpcode_rampInv SpeedMod (CaOscilOpcode_ramp SpeedMod q)
      ∧ between q.currentVal q.targetVal (CaOscilOpcode_ramp SpeedMod q).currentVal := by
  have e1 : (CaOscilOpcode_ramp SpeedMod q).targetVal = q.targetVal := rfl
  have e2 : (CaOscilOpcode_ramp SpeedMod q).delta = q.delta := rfl
  have e3 : (CaOscilOpcode_ramp SpeedMod q).TimeUntilNextSample = q.TimeUntilNextSample := rfl
  rcases hon with ⟨hdneg, hct⟩ | ⟨hdpos, _, hdist⟩
  · obtain ⟨r1, r2⟩ := ramp_falling hs hdneg hct
    have hbt : between q.currentVal q.targetVal (CaOscilOpcode_ramp SpeedMod q).currentVal := by
      unfold between
      rw [CaOscilOpcode_ramp_of_ge hct, min_eq_right hct, max_eq_left hct]
      exact ⟨r1, r2⟩
    refine ⟨⟨?_, ?_, between_inUnit hc ht hbt, ?_⟩, hbt⟩
    · unfold CaOscilOpcode_onRamp
      rw [e1, e2, CaOscilOpcode_ramp_of_ge hct]
      exact Or.inl ⟨hdneg, r1⟩
    · rw [e3]; exact hT
    · rw [e1]; exact ht
  · have h0 : 0 ≤ q.delta * (q.TimeUntilNextSample - FLT_EPSILON) :=
      mul_nonneg hdpos.le (by linarith)
    have hlt : q.currentVal < q.targetVal := by linarith
    have hleft : q.delta * (q.TimeUntilNextSample - SpeedMod - FLT_EPSILON)
        < q.targetVal - q.currentVal - q.delta * SpeedMod := by
      have h3 : q.delta * (q.TimeUntilNextSample - SpeedMod - FLT_EPSILON)
          = q.delta * (q.TimeUntilNextSample - FLT_EPSILON) - q.delta * SpeedMod := by ring
      rw [h3]
      linarith
    obtain ⟨r1, r2, r3⟩ := ramp_rising hs hdpos hlt (Or.inl hleft)
    have hbt : between q.currentVal q.targetVal (CaOscilOpcode_ramp SpeedMod q).currentVal := by
      unfold between
      rw [CaOscilOpcode_ramp_of_lt hlt, min_eq_left hlt.le, max_eq_right hlt.le]
      exact ⟨r1, r2⟩
    refine ⟨⟨?_, ?_, between_inUnit hc ht hbt, ?_⟩, hbt⟩
    · unfold CaOscilOpcode_onRamp
      rw [e1, e2, e3, CaOscilOpcode_ramp_of_lt hlt]
      exact Or.inr ⟨hdpos, r2, r3⟩
    · rw [e3]; exact hT
    · rw [e1]; exact ht

/-! ## The ramp at constant speed: blocks and calls -/

/-- One sample at the constant speed keeps the invariant and does not overshoot. -/
theorem CaOscilOpcode_sample_rampInv {SpeedMod : ℚ} (hs : FLT_EPSILON ≤ SpeedMod)
    (p : CaOscilOpcode) (h : CaOscilOpcode_rampInv SpeedMod p) :
    CaOscilOpcode_rampInv SpeedMod (CaOscilOpcode_sample SpeedMod p)
      ∧ CaOscilOpcode_noOvershoot SpeedMod p := by
  obtain ⟨hon, hT, hc, ht⟩ := h
  have hspos : 0 < SpeedMod := lt_of_lt_of_le FLT_EPSILON_pos hs
  have hcur2 : (CaOscilOpcode_catchUp
      { p with TimeUntilNextSample := p.TimeUntilNextSample - SpeedMod }).currentVal
      = p.currentVal :=
    CaOscilOpcode_catchUp_currentVal
      { p with TimeUntilNextSample := p.TimeUntilNextSample - SpeedMod }
  unfold CaOscilOpcode_noOvershoot CaOscilOpcode_sample
  simp only []
  by_cases hlt : p.TimeUntilNextSample - SpeedMod < FLT_EPSILON
  · have hlt2 : ({ p with TimeUntilNextSample := p.TimeUntilNextSample - SpeedMod }
        : CaOscilOpcode).TimeUntilNextSample < FLT_EPSILON := hlt
    obtain ⟨hd, htgt, hstate⟩ := CaOscilOpcode_catchUp_fresh _ hlt2
    have hTq := CaOscilOpcode_catchUp_acc_lt
      { p with TimeUntilNextSample := p.TimeUntilNextSample - SpeedMod }
      (show p.TimeUntilNextSample - SpeedMod < 1 + FLT_EPSILON by linarith)
    have htq : inUnit (CaOscilOpcode_catchUp
        { p with TimeUntilNextSample := p.TimeUntilNextSample - SpeedMod }).targetVal := by
      rw [htgt]; exact CaToFloat_inUnit hstate
    have hcq : inUnit (CaOscilOpcode_catchUp
        { p with TimeUntilNextSample := p.TimeUntilNextSample - SpeedMod }).currentVal := by
      rw [hcur2]; exact hc
    have hres := CaOscilOpcode_ramp_fresh_inv hspos _ hd hTq hcq htq
    rw [hcur2] at hres
    exact hres
  · have hge : FLT_EPSILON ≤ ({ p with TimeUntilNextSample := p.TimeUntilNextSample - SpeedMod }
        : CaOscilOpcode).TimeUntilNextSample := not_lt.mp hlt
    rw [CaOscilOpcode_catchUp_of_ge hge]
    exact CaOscilOpcode_ramp_stale_inv hspos
      { p with TimeUntilNextSample := p.TimeUntilNextSample - SpeedMod } hon hge
      (show p.TimeUntilNextSample - SpeedMod < 1 + FLT_EPSILON by linarith) hc ht

theorem CaOscilOpcode_block_rampInv {SpeedMod : ℚ} (hs : FLT_EPSILON ≤ SpeedMod) (n : Nat)
    (p : CaOscilOpcode) (h : CaOscilOpcode_rampInv SpeedMod p) :
    CaOscilOpcode_rampInv SpeedMod (CaOscilOpcode_block SpeedMod n p).1
      ∧ ∀ x ∈ (CaOscilOpcode_block SpeedMod n p).2, inUnit x := by
  induction n generalizing p with
  | zero => exact ⟨h, fun x hx => by simp [CaOscilOpcode_block] at hx⟩
  | succ n ih =>
    have hsmp := (CaOscilOpcode_sample_rampInv hs p h).1
    obtain ⟨h1, h2⟩ := ih _ hsmp
    refine ⟨h1, ?_⟩
    intro x hx
    simp only [CaOscilOpcode_block, List.mem_cons] at hx
    rcases hx with hx | hx
    · rw [hx]; exact hsmp.2.2.1
    · exact h2 x hx

theorem CaOscilOpcode_run_rampInv {SpeedMod : ℚ} (hs : FLT_EPSILON ≤ SpeedMod)
    (calls : List (ℚ × Nat)) (hconst : ∀ call ∈ calls, |call.1| = SpeedMod)
    (p : CaOscilOpcode) (h : CaOscilOpcode_rampInv SpeedMod p) :
    CaOscilOpcode_rampInv SpeedMod (CaOscilOpcode_run p calls).1
      ∧ ∀ block ∈ (CaOscilOpcode_run p calls).2, ∀ x ∈ block, inUnit x := by
  induction calls generalizing p with
  | nil => exact ⟨h, fun b hb => by simp [CaOscilOpcode_run] at hb⟩
  | cons call calls ih =>
    have habs : |call.1| = SpeedMod := hconst call (List.mem_cons_self _ _)
    have hproc : CaOscilOpcode_Process p call.1 call.2
        = CaOscilOpcode_block SpeedMod call.2 p := by
      unfold CaOscilOpcode_Process
      simp only [habs, if_neg (not_lt.mpr hs)]
    obtain ⟨h1, h2⟩ := CaOscilOpcode_block_rampInv hs call.2 p h
    rw [← hproc] at h1 h2
    obtain ⟨h3, h4⟩ := ih (fun c hc => hconst c (List.mem_cons_of_mem _ hc)) _ h1
    refine ⟨h3, ?_⟩
    intro b hb
    simp only [CaOscilOpcode_run, List.mem_cons] at hb
    rcases hb with hb | hb
    · rw [hb]; exact h2
    · exact h4 b hb

theorem CaSeed_lt {SeedVal : ℚ} {Rule Order state : Nat}
    (h : CaSeed SeedVal Rule Order = some state) : state < 2 ^ 64 := by
  unfold CaSeed at h
  split_ifs at h with hz
  · rw [Option.some.injEq] at h
    rw [← h]
    show CaSeedLoop Rule Order 32 (shl64 1 15) < 2 ^ 64
    rw [CaSeedLoop_eq_iterate, Function.iterate_succ_apply']
    exact Evolve_lt _ _ _
  · exact castU64_lt h

theorem CaOscilOpcode_Init_rampInv {in_rule in_order in_seed : ℚ} {p : CaOscilOpcode}
    (h : CaOscilOpcode_Init in_rule in_order in_seed = some p) (SpeedMod : ℚ) :
    CaOscilOpcode_rampInv SpeedMod p := by
  obtain ⟨hseed, hT, hc, ht, hd⟩ := CaOscilOpcode_Init_some h
  have hu := CaToFloat_inUnit (CaSeed_lt hseed)
  have hpos := FLT_EPSILON_pos
  refine ⟨Or.inl ⟨hd.le, by rw [hc, ht]⟩, by rw [hT]; linarith, by rw [hc]; exact hu,
    by rw [ht]; exact hu⟩

/-- Claim C17: when the interpolating oscillator is driven with one and the same
speed `s ≥ FLT_EPSILON` on every sample since `CaOscilOpcode_Init`, then at every
sample the current value after the clamp lies between the current value before the
sample and the target value in force after the catch-up loop, endpoints included,
and every output sample lies in the interval from `-1` to `1` (exact arithmetic). -/
theorem CaOscilOpcode_constant_speed (in_rule in_order in_seed : ℚ) (p0 : CaOscilOpcode)
    (calls : List (ℚ × Nat)) (s : ℚ)
    (hinit : CaOscilOpcode_Init in_rule in_order in_seed = some p0)
    (hs : FLT_EPSILON ≤ s) (hconst : ∀ call ∈ calls, |call.1| = s) :
    CaOscilOpcode_noOvershoot s (CaOscilOpcode_run p0 calls).1
      ∧ inUnit (CaOscilOpcode_sample s (CaOscilOpcode_run p0 calls).1).currentVal
      ∧ ∀ block ∈ (CaOscilOpcode_run p0 calls).2, ∀ x ∈ block, -1 ≤ x ∧ x ≤ 1 := by
  obtain ⟨h1, h2⟩ := CaOscilOpcode_run_rampInv hs calls hconst p0
    (CaOscilOpcode_Init_rampInv hinit s)
  obtain ⟨h3, h4⟩ := CaOscilOpcode_sample_rampInv hs _ h1
  exact ⟨h4, h3.2.2.1, h2⟩

/-- Witness of C17: rule 3, order 1, seed `1/2`, two calls at speed `3/2` on blocks
of one and two samples. -/
theorem CaOscilOpcode_constant_speed_witness :
    (CaOscilOpcode_Init 3 1 (1 / 2)
        = some { state := 0, rule := 3, order := 1, TimeUntilNextSample := 0,
                 currentVal := -1, targetVal := -1, delta := 0 }
      ∧ FLT_EPSILON ≤ (3 / 2 : ℚ)
      ∧ ∀ call ∈ [((3 / 2 : ℚ), 1), (-3 / 2, 2)], |call.1| = 3 / 2)
    ∧ CaOscilOpcode_noOvershoot (3 / 2)
        (CaOscilOpcode_run
          { state := 0, rule := 3, order := 1, TimeUntilNextSample := 0,
            currentVal := -1, targetVal := -1, delta := 0 }
          [(3 / 2, 1), (-3 / 2, 2)]).1 := by
  have h1 : FLT_EPSILON ≤ (3 / 2 : ℚ) := by unfold FLT_EPSILON; norm_num
  have h2 : ∀ call ∈ [((3 / 2 : ℚ), 1), (-3 / 2, 2)], |call.1| = 3 / 2 := by
    intro call hc
    simp only [List.mem_cons, List.mem_singleton, List.not_mem_nil, or_false] at hc
    rcases hc with hc | hc
    · rw [hc]; exact abs_of_pos (by norm_num)
    · rw [hc]
      show |(-3 / 2 : ℚ)| = 3 / 2
      rw [abs_of_neg (by norm_num)]
      norm_num
  exact ⟨⟨CaOscilOpcode_Init_example, h1, h2⟩,
    (CaOscilOpcode_constant_speed 3 1 (1 / 2) _ [(3 / 2, 1), (-3 / 2, 2)] (3 / 2)
      CaOscilOpcode_Init_example h1 h2).1⟩

/-! ## Rounding to the nearest double -/

theorem roundEven_ge_floor (y : ℚ) : ⌊y⌋ ≤ roundEven y := by
  unfold roundEven
  split_ifs <;> omega

theorem roundEven_le_floor_succ (y : ℚ) : roundEven y ≤ ⌊y⌋ + 1 := by
  unfold roundEven
  split_ifs <;> omega

theorem roundEven_intCast (n : ℤ) : roundEven (n : ℚ) = n := by
  unfold roundEven
  rw [Int.fract_intCast, Int.floor_intCast]
  norm_num

theorem roundEven_mono {y z : ℚ} (h : y ≤ z) : roundEven y ≤ roundEven z := by
  have hf : ⌊y⌋ ≤ ⌊z⌋ := Int.floor_mono h
  rcases lt_or_eq_of_le hf with hlt | heq
  · exact le_trans (roundEven_le_floor_succ y) (le_trans hlt (roundEven_ge_floor z))
  · have hfr : Int.fract y ≤ Int.fract z := by
      unfold Int.fract
      rw [heq]
      linarith
    unfold roundEven
    rw [heq]
    split_ifs <;> first | omega | (exfalso; linarith)

theorem roundEven_half_even (n : ℤ) (h : n % 2 = 0) : roundEven ((n : ℚ) + 1 / 2) = n := by
  have hfl : ⌊(n : ℚ) + 1 / 2⌋ = n := by
    rw [Int.floor_eq_iff]
    constructor <;> linarith
  have hfr : Int.fract ((n : ℚ) + 1 / 2) = 1 / 2 := by
    unfold Int.fract
    rw [hfl]
    ring
  unfold roundEven
  rw [hfr, hfl]
  norm_num [h]

theorem roundEven_half_odd (n : ℤ) (h : n % 2 = 1) : roundEven ((n : ℚ) + 1 / 2) = n + 1 := by
  have hfl : ⌊(n : ℚ) + 1 / 2⌋ = n := by
    rw [Int.floor_eq_iff]
    constructor <;> linarith
  have hfr : Int.fract ((n : ℚ) + 1 / 2) = 1 / 2 := by
    unfold Int.fract
    rw [hfl]
    ring
  unfold roundEven
  rw [hfr, hfl]
  norm_num [h]

theorem two_zpow_pos (k : ℤ) : (0 : ℚ) < 2 ^ k := zpow_pos (by norm_num) k

theorem two_zpow_split (e : ℤ) (n : ℕ) : (2 : ℚ) ^ n * 2 ^ (e - n) = 2 ^ e := by
  rw [← zpow_natCast, ← zpow_add₀ (by norm_num : (2 : ℚ) ≠ 0)]
  congr 1
  ring

/-- The scaled magnitude of a nonzero value lies in the binade `[2^52, 2^53)`. -/
theorem scaled_bounds {x : ℚ} (hx : x ≠ 0) :
    (2 : ℚ) ^ 52 * 2 ^ (Int.log 2 |x| - 52) ≤ |x|
      ∧ |x| < (2 : ℚ) ^ 53 * 2 ^ (Int.log 2 |x| - 52) := by
  have habs : 0 < |x| := abs_pos.mpr hx
  have h1 := Int.zpow_log_le_self (b := 2) (by norm_num) habs
  have h2 := Int.lt_zpow_succ_log_self (b := 2) (by norm_num) |x|
  have e1 := two_zpow_split (Int.log 2 |x|) 52
  have e2 : (2 : ℚ) ^ 53 * 2 ^ (Int.log 2 |x| - 52) = 2 ^ (Int.log 2 |x| + 1) := by
    rw [← zpow_natCast, ← zpow_add₀ (by norm_num : (2 : ℚ) ≠ 0)]
    congr 1
    push_cast
    ring
  push_cast at h1 h2 e1
  rw [e2]
  constructor
  · have : ((2 : ℚ) ^ 52) * 2 ^ (Int.log 2 |x| - 52) = 2 ^ Int.log 2 |x| := by
      exact_mod_cast e1
    rw [this]; exact h1
  · exact h2

theorem roundDouble_zero : roundDouble 0 = 0 := by
  unfold roundDouble
  rw [if_pos rfl]

theorem roundDouble_of_ne_zero {x : ℚ} (hx : x ≠ 0) :
    roundDouble x
      = (roundEven (x / 2 ^ (Int.log 2 |x| - 52)) : ℚ) * 2 ^ (Int.log 2 |x| - 52) := by
  unfold roundDouble
  rw [if_neg hx]

/-- A positive value rounds into the closure of its binade. -/
theorem roundDouble_pos_bounds {x : ℚ} (hx : 0 < x) :
    (2 : ℚ) ^ Int.log 2 x ≤ roundDouble x ∧ roundDouble x ≤ 2 ^ (Int.log 2 x + 1) := by
  have hne : x ≠ 0 := hx.ne'
  have habs : |x| = x := abs_of_pos hx
  obtain ⟨h1, h2⟩ := scaled_bounds hne
  rw [habs] at h1 h2
  have hq := two_zpow_pos (Int.log 2 x - 52)
  rw [roundDouble_of_ne_zero hne, habs]
  have e1 : (2 : ℚ) ^ 52 * 2 ^ (Int.log 2 x - 52) = 2 ^ Int.log 2 x := by
    have := two_zpow_split (Int.log 2 x) 52
    exact_mod_cast this
  have e2 : (2 : ℚ) ^ 53 * 2 ^ (Int.log 2 x - 52) = 2 ^ (Int.log 2 x + 1) := by
    rw [← zpow_natCast, ← zpow_add₀ (by norm_num : (2 : ℚ) ≠ 0)]
    congr 1
    push_cast
    ring
  have hlo : ((2 ^ 52 : ℤ) : ℚ) ≤ x / 2 ^ (Int.log 2 x - 52) := by
    rw [le_div_iff₀ hq]
    push_cast
    exact h1
  have hhi : x / 2 ^ (Int.log 2 x - 52) ≤ ((2 ^ 53 : ℤ) : ℚ) := by
    rw [div_le_iff₀ hq]
    push_cast
    exact h2.le
  have r1 := roundEven_mono hlo
  have r2 := roundEven_mono hhi
  rw [roundEven_intCast] at r1 r2
  have r1q : ((2 ^ 52 : ℤ) : ℚ) ≤ (roundEven (x / 2 ^ (Int.log 2 x - 52)) : ℚ) := by
    exact_mod_cast r1
  have r2q : (roundEven (x / 2 ^ (Int.log 2 x - 52)) : ℚ) ≤ ((2 ^ 53 : ℤ) : ℚ) := by
    exact_mod_cast r2
  push_cast at r1q r2q
  constructor
  · rw [← e1]
    exact mul_le_mul_of_nonneg_right r1q hq.le
  · rw [← e2]
    exact mul_le_mul_of_nonneg_right r2q hq.le

/-- A negative value rounds into the closure of its binade. -/
theorem roundDouble_neg_bounds {x : ℚ} (hx : x < 0) :
    -(2 : ℚ) ^ (Int.log 2 (-x) + 1) ≤ roundDouble x
      ∧ roundDouble x ≤ -(2 : ℚ) ^ Int.log 2 (-x) := by
  have hne : x ≠ 0 := hx.ne
  have habs : |x| = -x := abs_of_neg hx
  obtain ⟨h1, h2⟩ := scaled_bounds hne
  rw [habs] at h1 h2
  have hq := two_zpow_pos (Int.log 2 (-x) - 52)
  rw [roundDouble_of_ne_zero hne, habs]
  have e1 : (2 : ℚ) ^ 52 * 2 ^ (Int.log 2 (-x) - 52) = 2 ^ Int.log 2 (-x) := by
    have := two_zpow_split (Int.log 2 (-x)) 52
    exact_mod_cast this
  have e2 : (2 : ℚ) ^ 53 * 2 ^ (Int.log 2 (-x) - 52) = 2 ^ (Int.log 2 (-x) + 1) := by
    rw [← zpow_natCast, ← zpow_add₀ (by norm_num : (2 : ℚ) ≠ 0)]
    congr 1
    push_cast
    ring
  have hhi : x / 2 ^ (Int.log 2 (-x) - 52) ≤ ((-(2 ^ 52) : ℤ) : ℚ) := by
    rw [div_le_iff₀ hq]
    push_cast
    linarith
  have hlo : ((-(2 ^ 53) : ℤ) : ℚ) ≤ x / 2 ^ (Int.log 2 (-x) - 52) := by
    rw [le_div_iff₀ hq]
    push_cast
    linarith
  have r1 := roundEven_mono hlo
  have r2 := roundEven_mono hhi
  rw [roundEven_intCast] at r1 r2
  have r1q : ((-(2 ^ 53) : ℤ) : ℚ) ≤ (roundEven (x / 2 ^ (Int.log 2 (-x) - 52)) : ℚ) := by
    exact_mod_cast r1
  have r2q : (roundEven (x / 2 ^ (Int.log 2 (-x) - 52)) : ℚ) ≤ ((-(2 ^ 52) : ℤ) : ℚ) := by
    exact_mod_cast r2
  push_cast at r1q r2q
  constructor
  · rw [← e2]
    have := mul_le_mul_of_nonneg_right r1q hq.le
    linarith
  · rw [← e1]
    have := mul_le_mul_of_nonneg_right r2q hq.le
    linarith

theorem roundDouble_pos {x : ℚ} (hx : 0 < x) : 0 < roundDouble x :=
  lt_of_lt_of_le (two_zpow_pos _) (roundDouble_pos_bounds hx).1

theorem roundDouble_neg {x : ℚ} (hx : x < 0) : roundDouble x < 0 := by
  have h := (roundDouble_neg_bounds hx).2
  have hp := two_zpow_pos (Int.log 2 (-x))
  linarith

/-- Rounding to the nearest double is monotone. -/
theorem roundDouble_mono {x y : ℚ} (h : x ≤ y) : roundDouble x ≤ roundDouble y := by
  rcases lt_trichotomy x 0 with hx | hx | hx
  · rcases lt_trichotomy y 0 with hy | hy | hy
    · -- both negative
      have hlog : Int.log 2 (-y) ≤ Int.log 2 (-x) :=
        Int.log_mono_right (by linarith) (by linarith)
      rcases lt_or_eq_of_le hlog with hlt | heq
      · have b1 := (roundDouble_neg_bounds hx).2
        have b2 := (roundDouble_neg_bounds hy).1
        have hz : (2 : ℚ) ^ (Int.log 2 (-y) + 1) ≤ 2 ^ Int.log 2 (-x) :=
          zpow_le_zpow_right₀ (by norm_num) (by omega)
        linarith
      · rw [roundDouble_of_ne_zero hx.ne, roundDouble_of_ne_zero hy.ne, abs_of_neg hx,
          abs_of_neg hy, heq]
        have hq := two_zpow_pos (Int.log 2 (-x) - 52)
        apply mul_le_mul_of_nonneg_right _ hq.le
        have : x / 2 ^ (Int.log 2 (-x) - 52) ≤ y / 2 ^ (Int.log 2 (-x) - 52) :=
          div_le_div_of_nonneg_right h hq.le
        exact_mod_cast roundEven_mono this
    · rw [hy, roundDouble_zero]; exact (roundDouble_neg hx).le
    · exact le_trans (roundDouble_neg hx).le (roundDouble_pos hy).le
  · rw [hx] at h ⊢
    rw [roundDouble_zero]
    rcases lt_or_eq_of_le h with hy | hy
    · exact (roundDouble_pos hy).le
    · rw [← hy, roundDouble_zero]
  · have hy : 0 < y := lt_of_lt_of_le hx h
    have hlog : Int.log 2 x ≤ Int.log 2 y := Int.log_mono_right hx h
    rcases lt_or_eq_of_le hlog with hlt | heq
    · have b1 := (roundDouble_pos_bounds hx).2
      have b2 := (roundDouble_pos_bounds hy).1
      have hz : (2 : ℚ) ^ (Int.log 2 x + 1) ≤ 2 ^ Int.log 2 y :=
        zpow_le_zpow_right₀ (by norm_num) (by omega)
      linarith
    · rw [roundDouble_of_ne_zero hx.ne', roundDouble_of_ne_zero hy.ne', abs_of_pos hx,
        abs_of_pos hy, heq]
      have hq := two_zpow_pos (Int.log 2 y - 52)
      apply mul_le_mul_of_nonneg_right _ hq.le
      have : x / 2 ^ (Int.log 2 y - 52) ≤ y / 2 ^ (Int.log 2 y - 52) :=
        div_le_div_of_nonneg_right h hq.le
      exact_mod_cast roundEven_mono this

/-- A value with a significand of at most 53 bits is a double: rounding leaves it
unchanged. -/
theorem roundDouble_of_significand (m k : ℤ) (hm : |m| < 2 ^ 53) :
    roundDouble ((m : ℚ) * 2 ^ k) = (m : ℚ) * 2 ^ k := by
  rcases eq_or_ne m 0 with h0 | h0
  · rw [h0]; simp [roundDouble_zero]
  have hk := two_zpow_pos k
  have hmq : (m : ℚ) ≠ 0 := by exact_mod_cast h0
  have hx : (m : ℚ) * 2 ^ k ≠ 0 := mul_ne_zero hmq hk.ne'
  have habs : |(m : ℚ) * 2 ^ k| = |(m : ℚ)| * 2 ^ k := by
    rw [abs_mul, abs_of_pos hk]
  have hlt : |(m : ℚ) * 2 ^ k| < ((2 : ℕ) : ℚ) ^ (53 + k) := by
    rw [habs, zpow_add₀ (by norm_num : ((2 : ℕ) : ℚ) ≠ 0)]
    have h1 : |(m : ℚ)| < 2 ^ 53 := by exact_mod_cast hm
    have h2 : (((2 : ℕ) : ℚ)) ^ (53 : ℤ) = 2 ^ 53 := by norm_num
    rw [h2]
    push_cast
    exact mul_lt_mul_of_pos_right h1 hk
  have hlog : Int.log 2 |(m : ℚ) * 2 ^ k| < 53 + k :=
    (Int.lt_zpow_iff_log_lt (by norm_num) (abs_pos.mpr hx)).mp hlt
  rw [roundDouble_of_ne_zero hx]
  generalize Int.log 2 |(m : ℚ) * 2 ^ k| = e at hlog
  obtain ⟨d, hd⟩ : ∃ d : ℕ, k = e - 52 + d := ⟨(k - (e - 52)).toNat, by omega⟩
  have hdiv : (m : ℚ) * 2 ^ k / 2 ^ (e - 52) = ((m * 2 ^ d : ℤ) : ℚ) := by
    rw [hd, zpow_add₀ (by norm_num : (2 : ℚ) ≠ 0), zpow_natCast]
    push_cast
    field_simp
    ring
  rw [hdiv, roundEven_intCast, hd, zpow_add₀ (by norm_num : (2 : ℚ) ≠ 0), zpow_natCast]
  push_cast
  ring

theorem roundDouble_intCast (n : ℤ) (hn : |n| < 2 ^ 53) : roundDouble (n : ℚ) = n := by
  have h := roundDouble_of_significand n 0 hn
  simpa using h

/-! ## Double-precision accumulator: range -/

theorem roundDouble_one_add_eps : roundDouble (1 + FLT_EPSILON) = 1 + FLT_EPSILON := by
  have h := roundDouble_of_significand (2 ^ 23 + 1) (-23) (by norm_num)
  have e : (((2 ^ 23 + 1 : ℤ)) : ℚ) * 2 ^ (-23 : ℤ) = 1 + FLT_EPSILON := by
    unfold FLT_EPSILON
    norm_num
  rw [e] at h
  exact h

theorem TimeUntilNextSample_catchUp_bounds (fuel : Nat) (T : ℚ) (r : ℚ × Nat)
    (h : TimeUntilNextSample_catchUp fuel T = some r) :
    FLT_EPSILON ≤ r.1 ∧ (T ≤ 1 + FLT_EPSILON → r.1 ≤ 1 + FLT_EPSILON) := by
  induction fuel generalizing T r with
  | zero =>
    unfold TimeUntilNextSample_catchUp at h
    split_ifs at h with hlt
    rw [Option.some.injEq] at h
    subst h
    exact ⟨not_lt.mp hlt, fun hT => hT⟩
  | succ fuel ih =>
    unfold TimeUntilNextSample_catchUp at h
    split_ifs at h with hlt
    · cases hc : TimeUntilNextSample_catchUp fuel (roundDouble (T + 1)) with
      | none => rw [hc] at h; simp at h
      | some r1 =>
        rw [hc, Option.map_some', Option.some.injEq] at h
        subst h
        obtain ⟨h1, h2⟩ := ih _ _ hc
        refine ⟨h1, fun _ => h2 ?_⟩
        rw [← roundDouble_one_add_eps]
        apply roundDouble_mono
        linarith
    · rw [Option.some.injEq] at h
      subst h
      exact ⟨not_lt.mp hlt, fun hT => hT⟩

theorem accInClosedRange_le {t : ℚ} (h : accInClosedRange t) : t ≤ 1 + FLT_EPSILON := by
  have hpos := FLT_EPSILON_pos
  rcases h with h | h
  · rw [h]; linarith
  · exact h.2

theorem accInClosedRange_nonneg {t : ℚ} (h : accInClosedRange t) : 0 ≤ t := by
  have hpos := FLT_EPSILON_pos
  rcases h with h | h
  · rw [h]
  · linarith [h.1]

theorem TimeUntilNextSample_sample_bounds {fuel : Nat} {SpeedMod T : ℚ} {r : ℚ × Nat}
    (hs : 0 ≤ SpeedMod) (hT : T ≤ 1 + FLT_EPSILON)
    (h : TimeUntilNextSample_sample fuel SpeedMod T = some r) :
    FLT_EPSILON ≤ r.1 ∧ r.1 ≤ 1 + FLT_EPSILON := by
  obtain ⟨h1, h2⟩ := TimeUntilNextSample_catchUp_bounds fuel _ r h
  refine ⟨h1, h2 ?_⟩
  rw [← roundDouble_one_add_eps]
  apply roundDouble_mono
  linarith

theorem TimeUntilNextSample_sampleR_bounds {fuel : Nat} {SpeedMod Reset T : ℚ}
    {r : ℚ × Nat} (hs : 0 ≤ SpeedMod) (hT : T ≤ 1 + FLT_EPSILON)
    (h : TimeUntilNextSample_sampleR fuel SpeedMod Reset T = some r) :
    FLT_EPSILON ≤ r.1 ∧ r.1 ≤ 1 + FLT_EPSILON := by
  obtain ⟨h1, h2⟩ := TimeUntilNextSample_catchUp_bounds fuel _ r h
  refine ⟨h1, h2 ?_⟩
  have hpos := FLT_EPSILON_pos
  split_ifs
  · linarith
  · rw [← roundDouble_one_add_eps]
    apply roundDouble_mono
    linarith

theorem TimeUntilNextSample_block_range {fuel : Nat} {SpeedMod : ℚ} (hs : 0 ≤ SpeedMod)
    (n : Nat) {T T1 : ℚ} (hT : accInClosedRange T)
    (h : TimeUntilNextSample_block fuel SpeedMod n T = some T1) : accInClosedRange T1 := by
  induction n generalizing T with
  | zero =>
    simp only [TimeUntilNextSample_block, Option.some.injEq] at h
    rw [← h]; exact hT
  | succ n ih =>
    simp only [TimeUntilNextSample_block] at h
    cases hsm : TimeUntilNextSample_sample fuel SpeedMod T with
    | none => rw [hsm] at h; simp at h
    | some r =>
      rw [hsm, Option.some_bind] at h
      exact ih (Or.inr (TimeUntilNextSample_sample_bounds hs (accInClosedRange_le hT) hsm)) h

theorem TimeUntilNextSample_blockR_range {fuel : Nat} {SpeedMod : ℚ} (hs : 0 ≤ SpeedMod)
    (in_reset : List ℚ) {T T1 : ℚ} (hT : accInClosedRange T)
    (h : TimeUntilNextSample_blockR fuel SpeedMod in_reset T = some T1) :
    accInClosedRange T1 := by
  induction in_reset generalizing T with
  | nil =>
    simp only [TimeUntilNextSample_blockR, Option.some.injEq] at h
    rw [← h]; exact hT
  | cons Reset rest ih =>
    simp only [TimeUntilNextSample_blockR] at h
    cases hsm : TimeUntilNextSample_sampleR fuel SpeedMod Reset T with
    | none => rw [hsm] at h; simp at h
    | some r =>
      rw [hsm, Option.some_bind] at h
      exact ih (Or.inr (TimeUntilNextSample_sampleR_bounds hs (accInClosedRange_le hT) hsm)) h

theorem TimeUntilNextSample_Process_range {fuel : Nat} {T in_speedmod T1 : ℚ} {n : Nat}
    (hT : accInClosedRange T)
    (h : TimeUntilNextSample_Process fuel T in_speedmod n = some T1) :
    accInClosedRange T1 := by
  unfold TimeUntilNextSample_Process at h
  split_ifs at h with hlt
  · rw [Option.some.injEq] at h
    rw [← h]; exact hT
  · exact TimeUntilNextSample_block_range (abs_nonneg _) n hT h

theorem TimeUntilNextSample_ProcessR_range {fuel : Nat} {T in_speedmod T1 : ℚ}
    {in_reset : List ℚ} (hT : accInClosedRange T)
    (h : TimeUntilNextSample_ProcessR fuel T in_speedmod in_reset = some T1) :
    accInClosedRange T1 := by
  unfold TimeUntilNextSample_ProcessR at h
  split_ifs at h with hlt
  · rw [Option.some.injEq] at h
    rw [← h]; exact hT
  · exact TimeUntilNextSample_blockR_range (abs_nonneg _) in_reset hT h

theorem TimeUntilNextSample_run_range {fuel : Nat} (calls : List (ℚ × Nat)) {T T1 : ℚ}
    (hT : accInClosedRange T) (h : TimeUntilNextSample_run fuel T calls = some T1) :
    accInClosedRange T1 := by
  induction calls generalizing T with
  | nil =>
    simp only [TimeUntilNextSample_run, Option.some.injEq] at h
    rw [← h]; exact hT
  | cons call calls ih =>
    simp only [TimeUntilNextSample_run] at h
    cases hp : TimeUntilNextSample_Process fuel T call.1 call.2 with
    | none => rw [hp] at h; simp at h
    | some T2 =>
      rw [hp, Option.some_bind] at h
      exact ih (TimeUntilNextSample_Process_range hT hp) h

theorem TimeUntilNextSample_runR_range {fuel : Nat} (calls : List (ℚ × List ℚ)) {T T1 : ℚ}
    (hT : accInClosedRange T) (h : TimeUntilNextSample_runR fuel T calls = some T1) :
    accInClosedRange T1 := by
  induction calls generalizing T with
  | nil =>
    simp only [TimeUntilNextSample_runR, Option.some.injEq] at h
    rw [← h]; exact hT
  | cons call calls ih =>
    simp only [TimeUntilNextSample_runR] at h
    cases hp : TimeUntilNextSample_ProcessR fuel T call.1 call.2 with
    | none => rw [hp] at h; simp at h
    | some T2 =>
      rw [hp, Option.some_bind] at h
      exact ih (TimeUntilNextSample_ProcessR_range hT hp) h

/-! ## Double-precision accumulator: concrete samples -/

theorem roundDouble_of_log {x : ℚ} {e : ℤ} (hx : x ≠ 0) (h1 : (2 : ℚ) ^ e ≤ |x|)
    (h2 : |x| < (2 : ℚ) ^ (e + 1)) :
    roundDouble x = (roundEven (x / 2 ^ (e - 52)) : ℚ) * 2 ^ (e - 52) := by
  have habs : 0 < |x| := abs_pos.mpr hx
  have hl1 : e ≤ Int.log 2 |x| :=
    (Int.zpow_le_iff_le_log (by norm_num) habs).mp (by exact_mod_cast h1)
  have hl2 : Int.log 2 |x| < e + 1 :=
    (Int.lt_zpow_iff_log_lt (by norm_num) habs).mp (by exact_mod_cast h2)
  have he : Int.log 2 |x| = e := by omega
  rw [roundDouble_of_ne_zero hx, he]

/-- The tie `1 + 2^-23 - 2^-53` rounds up to `1 + 2^-23`, whose significand is even. -/
theorem roundDouble_tie_one_add_eps :
    roundDouble (1 / 2 ^ 23 - 1 / 2 ^ 53 + 1) = 1 + FLT_EPSILON := by
  have hx : (1 / 2 ^ 23 - 1 / 2 ^ 53 + 1 : ℚ) ≠ 0 := by norm_num
  rw [roundDouble_of_log (e := 0) hx (by rw [abs_of_pos (by norm_num)]; norm_num)
    (by rw [abs_of_pos (by norm_num)]; norm_num)]
  have hdiv : (1 / 2 ^ 23 - 1 / 2 ^ 53 + 1 : ℚ) / 2 ^ ((0 : ℤ) - 52)
      = ((2 ^ 52 + 2 ^ 29 - 1 : ℤ) : ℚ) + 1 / 2 := by
    norm_num
  rw [hdiv, roundEven_half_odd _ (by norm_num)]
  unfold FLT_EPSILON
  norm_num

theorem TimeUntilNextSample_catchUp_of_ge (fuel : Nat) {T : ℚ} (h : FLT_EPSILON ≤ T) :
    TimeUntilNextSample_catchUp fuel T = some (T, 0) := by
  cases fuel with
  | zero => unfold TimeUntilNextSample_catchUp; rw [if_neg (not_lt.mpr h)]
  | succ fuel => unfold TimeUntilNextSample_catchUp; rw [if_neg (not_lt.mpr h)]

theorem TimeUntilNextSample_catchUp_of_lt (fuel : Nat) {T : ℚ} (h : T < FLT_EPSILON) :
    TimeUntilNextSample_catchUp (fuel + 1) T
      = (TimeUntilNextSample_catchUp fuel (roundDouble (T + 1))).map
          fun r => (r.1, r.2 + 1) := by
  rw [TimeUntilNextSample_catchUp, if_pos h]

/-- One sample after `Init` at the speed `1 - 2^-23 + 2^-53`: two generations, and
the second addition of `1.0` rounds the accumulator up to `1 + FLT_EPSILON`. -/
theorem TimeUntilNextSample_sample_tie :
    TimeUntilNextSample_sample 2 (1 - 1 / 2 ^ 23 + 1 / 2 ^ 53) 0
      = some (1 + FLT_EPSILON, 2) := by
  have e1 : (0 - (1 - 1 / 2 ^ 23 + 1 / 2 ^ 53) : ℚ)
      = ((-(2 ^ 53 - 2 ^ 30 + 1) : ℤ) : ℚ) * 2 ^ (-53 : ℤ) := by norm_num
  have r1 := roundDouble_of_significand (-(2 ^ 53 - 2 ^ 30 + 1)) (-53) (by norm_num)
  have e2 : ((-(2 ^ 53 - 2 ^ 30 + 1) : ℤ) : ℚ) * 2 ^ (-53 : ℤ) + 1
      = ((2 ^ 30 - 1 : ℤ) : ℚ) * 2 ^ (-53 : ℤ) := by norm_num
  have r2 := roundDouble_of_significand (2 ^ 30 - 1) (-53) (by norm_num)
  have e3 : ((2 ^ 30 - 1 : ℤ) : ℚ) * 2 ^ (-53 : ℤ) + 1 = 1 / 2 ^ 23 - 1 / 2 ^ 53 + 1 := by
    norm_num
  have l1 : ((-(2 ^ 53 - 2 ^ 30 + 1) : ℤ) : ℚ) * 2 ^ (-53 : ℤ) < FLT_EPSILON := by
    unfold FLT_EPSILON; norm_num
  have l2 : ((2 ^ 30 - 1 : ℤ) : ℚ) * 2 ^ (-53 : ℤ) < FLT_EPSILON := by
    unfold FLT_EPSILON; norm_num
  have l3 : FLT_EPSILON ≤ 1 + FLT_EPSILON := by linarith
  unfold TimeUntilNextSample_sample
  rw [e1, r1, TimeUntilNextSample_catchUp_of_lt 1 l1, e2, r2,
    TimeUntilNextSample_catchUp_of_lt 0 l2, e3, roundDouble_tie_one_add_eps,
    TimeUntilNextSample_catchUp_of_ge 0 l3]
  rfl

theorem roundDouble_eps : roundDouble FLT_EPSILON = FLT_EPSILON := by
  have h := roundDouble_of_significand 1 (-23) (by norm_num)
  have e : ((1 : ℤ) : ℚ) * 2 ^ (-23 : ℤ) = FLT_EPSILON := by
    unfold FLT_EPSILON
    norm_num
  rw [e] at h
  exact h

/-- From the accumulator `1 + FLT_EPSILON` a sample at speed 1 produces no
generation. -/
theorem TimeUntilNextSample_sample_stall (fuel : Nat) :
    TimeUntilNextSample_sample fuel 1 (1 + FLT_EPSILON) = some (FLT_EPSILON, 0) := by
  unfold TimeUntilNextSample_sample
  have e : (1 + FLT_EPSILON - 1 : ℚ) = FLT_EPSILON := by ring
  rw [e, roundDouble_eps, TimeUntilNextSample_catchUp_of_ge fuel (le_refl _)]

/-- The tie `-2^54 + 1` rounds back to `-2^54`, whose significand is even. -/
theorem roundDouble_tie_stuck : roundDouble (-(2 ^ 54) + 1) = -(2 ^ 54) := by
  have hx : (-(2 ^ 54) + 1 : ℚ) ≠ 0 := by norm_num
  rw [roundDouble_of_log (e := 53) hx (by rw [abs_of_neg (by norm_num)]; norm_num)
    (by rw [abs_of_neg (by norm_num)]; norm_num)]
  have hdiv : (-(2 ^ 54) + 1 : ℚ) / 2 ^ ((53 : ℤ) - 52)
      = ((-(2 ^ 53) : ℤ) : ℚ) + 1 / 2 := by
    norm_num
  rw [hdiv, roundEven_half_even _ (by norm_num)]
  norm_num

theorem TimeUntilNextSample_catchUp_stuck (fuel : Nat) :
    TimeUntilNextSample_catchUp fuel (-(2 ^ 54)) = none := by
  have hlt : (-(2 ^ 54) : ℚ) < FLT_EPSILON := by unfold FLT_EPSILON; norm_num
  induction fuel with
  | zero => unfold TimeUntilNextSample_catchUp; rw [if_pos hlt]
  | succ fuel ih =>
    rw [TimeUntilNextSample_catchUp_of_lt fuel hlt, roundDouble_tie_stuck, ih]
    rfl

theorem TimeUntilNextSample_sample_stuck (fuel : Nat) :
    TimeUntilNextSample_sample fuel (2 ^ 54) 0 = none := by
  unfold TimeUntilNextSample_sample
  have e : (0 - 2 ^ 54 : ℚ) = ((-1 : ℤ) : ℚ) * 2 ^ (54 : ℤ) := by norm_num
  have r := roundDouble_of_significand (-1) 54 (by norm_num)
  have e2 : ((-1 : ℤ) : ℚ) * 2 ^ (54 : ℤ) = -(2 ^ 54) := by norm_num
  rw [e, r, e2]
  exact TimeUntilNextSample_catchUp_stuck fuel

theorem TimeUntilNextSample_sample_first :
    TimeUntilNextSample_sample 2 1 0 = some (1, 2) := by
  have r1 : roundDouble (0 - 1) = -1 := by
    have h := roundDouble_intCast (-1) (by norm_num)
    have e : (((-1 : ℤ)) : ℚ) = 0 - 1 := by norm_num
    rw [e] at h
    rw [h]; norm_num
  have r2 : roundDouble (-1 + 1) = 0 := by
    have e : (-1 + 1 : ℚ) = 0 := by norm_num
    rw [e, roundDouble_zero]
  have r3 : roundDouble (0 + 1) = 1 := by
    have h := roundDouble_intCast 1 (by norm_num)
    have e : (((1 : ℤ)) : ℚ) = 0 + 1 := by norm_num
    rw [e] at h
    rw [h]; norm_num
  have l1 : (-1 : ℚ) < FLT_EPSILON := by unfold FLT_EPSILON; norm_num
  have l2 : (0 : ℚ) < FLT_EPSILON := FLT_EPSILON_pos
  have l3 : FLT_EPSILON ≤ 1 := FLT_EPSILON_lt_one.le
  unfold TimeUntilNextSample_sample
  rw [r1, TimeUntilNextSample_catchUp_of_lt 1 l1, r2, TimeUntilNextSample_catchUp_of_lt 0 l2,
    r3, TimeUntilNextSample_catchUp_of_ge 0 l3]
  rfl

theorem roundDouble_intCast_le (n : ℤ) (hn : |n| ≤ 2 ^ 53) : roundDouble (n : ℚ) = n := by
  rcases lt_or_eq_of_le hn with hlt | heq
  · exact roundDouble_intCast n hlt
  · rcases abs_eq (by norm_num : (0 : ℤ) ≤ 2 ^ 53) |>.mp heq with h | h
    · have r := roundDouble_of_significand 1 53 (by norm_num)
      rw [h]
      have e : (((1 : ℤ)) : ℚ) * 2 ^ (53 : ℤ) = (((2 : ℤ) ^ 53 : ℤ) : ℚ) := by norm_num
      rw [e] at r
      exact r
    · have r := roundDouble_of_significand (-1) 53 (by norm_num)
      rw [h]
      have e : (((-1 : ℤ)) : ℚ) * 2 ^ (53 : ℤ) = ((-(2 : ℤ) ^ 53 : ℤ) : ℚ) := by norm_num
      rw [e] at r
      exact r

theorem roundDouble_neg_natCast (N : ℕ) (hN : N ≤ 2 ^ 53) :
    roundDouble (-(N : ℚ)) = -(N : ℚ) := by
  have h := roundDouble_intCast_le (-(N : ℤ)) (by rw [abs_neg]; simpa using (by exact_mod_cast hN : (N : ℤ) ≤ 2 ^ 53))
  push_cast at h
  exact h

theorem roundDouble_one : roundDouble 1 = 1 := by
  have h := roundDouble_intCast 1 (by norm_num)
  simpa using h

/-- From an accumulator at or above `-N`, with `N ≤ 2^53`, the loop exits after at
most `N + 1` generations: each addition of `1.0` lifts the accumulator to at least
the next integer, and from a non-negative value one more addition reaches `1`. -/
theorem TimeUntilNextSample_catchUp_terminates (N : ℕ) (hN : N ≤ 2 ^ 53) (T : ℚ)
    (hT : -(N : ℚ) ≤ T) (fuel : ℕ) (hfuel : N + 1 ≤ fuel) :
    ∃ r, TimeUntilNextSample_catchUp fuel T = some r ∧ r.2 ≤ N + 1 := by
  induction N generalizing T fuel with
  | zero =>
    by_cases hlt : T < FLT_EPSILON
    · obtain ⟨f, rfl⟩ : ∃ f, fuel = f + 1 := ⟨fuel - 1, by omega⟩
      have h1 : FLT_EPSILON ≤ roundDouble (T + 1) := by
        have hm : roundDouble 1 ≤ roundDouble (T + 1) :=
          roundDouble_mono (by simp only [Nat.cast_zero, neg_zero] at hT; linarith)
        rw [roundDouble_one] at hm
        exact le_trans FLT_EPSILON_lt_one.le hm
      rw [TimeUntilNextSample_catchUp_of_lt f hlt, TimeUntilNextSample_catchUp_of_ge f h1]
      exact ⟨_, rfl, le_refl _⟩
    · rw [TimeUntilNextSample_catchUp_of_ge fuel (not_lt.mp hlt)]
      exact ⟨_, rfl, Nat.zero_le _⟩
  | succ N ih =>
    by_cases hlt : T < FLT_EPSILON
    · obtain ⟨f, rfl⟩ : ∃ f, fuel = f + 1 := ⟨fuel - 1, by omega⟩
      have h1 : -(N : ℚ) ≤ roundDouble (T + 1) := by
        have hm : roundDouble (-(N : ℚ)) ≤ roundDouble (T + 1) :=
          roundDouble_mono (by push_cast at hT; linarith)
        rw [roundDouble_neg_natCast N (by omega)] at hm
        exact hm
      obtain ⟨r, hr, hc⟩ := ih (by omega) _ h1 f (by omega)
      rw [TimeUntilNextSample_catchUp_of_lt f hlt, hr]
      exact ⟨_, rfl, by simp only []; omega⟩
    · rw [TimeUntilNextSample_catchUp_of_ge fuel (not_lt.mp hlt)]
      exact ⟨_, rfl, Nat.zero_le _⟩

/-- The bound on one sample from a non-negative accumulator. -/
theorem TimeUntilNextSample_sample_terminates {SpeedMod T : ℚ} (hT : 0 ≤ T)
    (hs0 : 0 ≤ SpeedMod) (hs : SpeedMod ≤ 2 ^ 53) (fuel : ℕ)
    (hfuel : (⌈SpeedMod⌉).toNat + 1 ≤ fuel) :
    ∃ r, TimeUntilNextSample_sample fuel SpeedMod T = some r
      ∧ r.2 ≤ (⌈SpeedMod⌉).toNat + 1 := by
  have hceil0 : 0 ≤ ⌈SpeedMod⌉ := Int.ceil_nonneg hs0
  have hceil : ⌈SpeedMod⌉ ≤ 2 ^ 53 := by
    rw [Int.ceil_le]
    exact_mod_cast hs
  have hN : (⌈SpeedMod⌉).toNat ≤ 2 ^ 53 := by omega
  have hcast : (((⌈SpeedMod⌉).toNat : ℕ) : ℚ) = ((⌈SpeedMod⌉ : ℤ) : ℚ) := by
    have : (((⌈SpeedMod⌉).toNat : ℕ) : ℤ) = ⌈SpeedMod⌉ := Int.toNat_of_nonneg hceil0
    exact_mod_cast this
  have hle : SpeedMod ≤ (((⌈SpeedMod⌉).toNat : ℕ) : ℚ) := by
    rw [hcast]; exact Int.le_ceil _
  have hx : -(((⌈SpeedMod⌉).toNat : ℕ) : ℚ) ≤ roundDouble (T - SpeedMod) := by
    have hm : roundDouble (-(((⌈SpeedMod⌉).toNat : ℕ) : ℚ)) ≤ roundDouble (T - SpeedMod) :=
      roundDouble_mono (by linarith)
    rw [roundDouble_neg_natCast _ hN] at hm
    exact hm
  exact TimeUntilNextSample_catchUp_terminates _ hN _ hx fuel hfuel

theorem TimeUntilNextSample_catchUp_count_pos {fuel : Nat} {T : ℚ} {r : ℚ × Nat}
    (hlt : T < FLT_EPSILON) (h : TimeUntilNextSample_catchUp fuel T = some r) : 1 ≤ r.2 := by
  cases fuel with
  | zero =>
    unfold TimeUntilNextSample_catchUp at h
    rw [if_pos hlt] at h
    simp at h
  | succ fuel =>
    rw [TimeUntilNextSample_catchUp_of_lt fuel hlt] at h
    cases hc : TimeUntilNextSample_catchUp fuel (roundDouble (T + 1)) with
    | none => rw [hc] at h; simp at h
    | some r1 =>
      rw [hc, Option.map_some', Option.some.injEq] at h
      rw [← h]
      exact Nat.le_add_left _ _

/-- At a speed of at least `1 + 2^-52`, the least double above 1, the accumulator
after the decrement is below the threshold. -/
theorem TimeUntilNextSample_sample_count_pos {fuel : Nat} {SpeedMod T : ℚ} {r : ℚ × Nat}
    (hT : T ≤ 1 + FLT_EPSILON) (hs : 1 + 1 / 2 ^ 52 ≤ SpeedMod)
    (h : TimeUntilNextSample_sample fuel SpeedMod T = some r) : 1 ≤ r.2 := by
  have hfix := roundDouble_of_significand (2 ^ 29 - 1) (-52) (by norm_num)
  have e : (((2 ^ 29 - 1 : ℤ)) : ℚ) * 2 ^ (-52 : ℤ) = FLT_EPSILON - 1 / 2 ^ 52 := by
    unfold FLT_EPSILON
    norm_num
  rw [e] at hfix
  have hm : roundDouble (T - SpeedMod) ≤ roundDouble (FLT_EPSILON - 1 / 2 ^ 52) :=
    roundDouble_mono (by linarith)
  rw [hfix] at hm
  have hlt : roundDouble (T - SpeedMod) < FLT_EPSILON := by
    have : (0 : ℚ) < 1 / 2 ^ 52 := by positivity
    linarith
  exact TimeUntilNextSample_catchUp_count_pos hlt h

/-! ## Double-precision accumulator: the claims on generations and range -/

theorem TimeUntilNextSample_sampleR_zero (fuel : Nat) (SpeedMod T : ℚ) :
    TimeUntilNextSample_sampleR fuel SpeedMod 0 T
      = TimeUntilNextSample_sample fuel SpeedMod T := by
  unfold TimeUntilNextSample_sampleR TimeUntilNextSample_sample
  have hpos := FLT_EPSILON_pos
  rw [if_neg]
  rintro (h | h) <;> linarith

theorem tie_speed_abs :
    |(1 - 1 / 2 ^ 23 + 1 / 2 ^ 53 : ℚ)| = 1 - 1 / 2 ^ 23 + 1 / 2 ^ 53 :=
  abs_of_pos (by norm_num)

theorem tie_speed_not_frozen : ¬ (1 - 1 / 2 ^ 23 + 1 / 2 ^ 53 : ℚ) < FLT_EPSILON := by
  unfold FLT_EPSILON
  norm_num

/-- One call at the speed `1 - 2^-23 + 2^-53` on a block of one sample, from the
accumulator 0 that `Init` stores, leaves the accumulator at `1 + FLT_EPSILON`. -/
theorem TimeUntilNextSample_run_tie :
    TimeUntilNextSample_run 2 0 [(1 - 1 / 2 ^ 23 + 1 / 2 ^ 53, 1)]
      = some (1 + FLT_EPSILON) := by
  simp only [TimeUntilNextSample_run, TimeUntilNextSample_Process, tie_speed_abs,
    if_neg tie_speed_not_frozen, TimeUntilNextSample_block,
    TimeUntilNextSample_sample_tie, Option.some_bind]

theorem TimeUntilNextSample_runR_tie :
    TimeUntilNextSample_runR 2 0 [(1 - 1 / 2 ^ 23 + 1 / 2 ^ 53, [0])]
      = some (1 + FLT_EPSILON) := by
  simp only [TimeUntilNextSample_runR, TimeUntilNextSample_ProcessR, tie_speed_abs,
    if_neg tie_speed_not_frozen, TimeUntilNextSample_blockR,
    TimeUntilNextSample_sampleR_zero, TimeUntilNextSample_sample_tie, Option.some_bind]

/-- Counterexample to C20 as stated: after `Init` (accumulator 0), one sample at
the speed `1 - 2^-23 + 2^-53` produces two generations; the second addition of
`1.0`, to `2^-23 - 2^-53`, is a tie that rounds to `1 + FLT_EPSILON`. The double
accumulator of both oscillators is then exactly `1 + FLT_EPSILON`, not below it. -/
theorem accumulator_bound_counterexample :
    (∃ p : CaOscilOpcode, CaOscilOpcode_Init 3 1 (1 / 2) = some p
        ∧ p.TimeUntilNextSample = 0)
      ∧ TimeUntilNextSample_run 2 0 [(1 - 1 / 2 ^ 23 + 1 / 2 ^ 53, 1)]
          = some (1 + FLT_EPSILON)
      ∧ TimeUntilNextSample_runR 2 0 [(1 - 1 / 2 ^ 23 + 1 / 2 ^ 53, [0])]
          = some (1 + FLT_EPSILON)
      ∧ ¬ (1 + FLT_EPSILON < 1 + FLT_EPSILON)
      ∧ ¬ accInRange (1 + FLT_EPSILON) := by
  refine ⟨⟨_, CaOscilOpcode_Init_example, rfl⟩, TimeUntilNextSample_run_tie,
    TimeUntilNextSample_runR_tie, lt_irrefl _, ?_⟩
  have hpos := FLT_EPSILON_pos
  rintro (h | ⟨_, h⟩) <;> linarith

/-- Claim C20, amended: the double accumulator is bounded above by
`1 + FLT_EPSILON`, the bound included. In every instance of the interpolating
oscillator reached from `CaOscilOpcode_Init` by performance calls of any speeds and
block lengths, and in every instance of the resettable oscillator reached from
`CaOscilOpcodeR_Init` by performance calls of any speeds and reset inputs, the
accumulator is exactly 0 or at least `FLT_EPSILON` and at most `1 + FLT_EPSILON`. -/
theorem accumulator_bounded_closed (in_rule in_order in_seed : ℚ)
    (p0 : CaOscilOpcode) (pR : CaOscilOpcodeR)
    (fuel : Nat) (calls : List (ℚ × Nat)) (T : ℚ)
    (fuelR : Nat) (callsR : List (ℚ × List ℚ)) (TR : ℚ)
    (hinit : CaOscilOpcode_Init in_rule in_order in_seed = some p0)
    (hinitR : CaOscilOpcodeR_Init in_rule in_order in_seed = some pR)
    (hrun : TimeUntilNextSample_run fuel p0.TimeUntilNextSample calls = some T)
    (hrunR : TimeUntilNextSample_runR fuelR pR.TimeUntilNextSample callsR = some TR) :
    (accInClosedRange T ∧ T ≤ 1 + FLT_EPSILON)
      ∧ (accInClosedRange TR ∧ TR ≤ 1 + FLT_EPSILON) := by
  have h1 := TimeUntilNextSample_run_range calls
    (Or.inl (CaOscilOpcode_Init_some hinit).2.1) hrun
  have h2 := TimeUntilNextSample_runR_range callsR
    (Or.inl (CaOscilOpcodeR_Init_acc hinitR)) hrunR
  exact ⟨⟨h1, accInClosedRange_le h1⟩, ⟨h2, accInClosedRange_le h2⟩⟩

/-- A call of the resettable oscillator at speed `1/4` on one sample with reset
input 1, from the accumulator 0: the reset and one generation leave it at 1. -/
theorem TimeUntilNextSample_runR_example :
    TimeUntilNextSample_runR 1 0 [(1 / 4, [1])] = some 1 := by
  have habs : |(1 / 4 : ℚ)| = 1 / 4 := abs_of_pos (by norm_num)
  have hge : ¬ (1 / 4 : ℚ) < FLT_EPSILON := by unfold FLT_EPSILON; norm_num
  have htrig : (1 : ℚ) > FLT_EPSILON ∨ (1 : ℚ) < -FLT_EPSILON :=
    Or.inl FLT_EPSILON_lt_one
  have e : roundDouble (0 + 1) = 1 := by
    have h : (0 + 1 : ℚ) = 1 := by norm_num
    rw [h, roundDouble_one]
  simp only [TimeUntilNextSample_runR, TimeUntilNextSample_ProcessR, habs, if_neg hge,
    TimeUntilNextSample_blockR, TimeUntilNextSample_sampleR, if_pos htrig]
  rw [TimeUntilNextSample_catchUp_of_lt 0 FLT_EPSILON_pos, e,
    TimeUntilNextSample_catchUp_of_ge 0 FLT_EPSILON_lt_one.le]
  rfl

/-- Witness of C20 amended: rule 3, order 1, seed `1/2`; the interpolating
oscillator after one sample at the speed `1 - 2^-23 + 2^-53` (accumulator
`1 + FLT_EPSILON`), the resettable oscillator after one sample at speed `1/4` with
reset input 1 (accumulator 1). -/
theorem accumulator_bounded_closed_witness :
    (CaOscilOpcode_Init 3 1 (1 / 2)
        = some { state := 0, rule := 3, order := 1, TimeUntilNextSample := 0,
                 currentVal := -1, targetVal := -1, delta := 0 }
      ∧ CaOscilOpcodeR_Init 3 1 (1 / 2)
        = some { in_seed := 1 / 2, state := 0, rule := 3, order := 1,
                 TimeUntilNextSample := 0, currentVal := -1, targetVal := -1,
                 delta := 0 }
      ∧ TimeUntilNextSample_run 2 0 [(1 - 1 / 2 ^ 23 + 1 / 2 ^ 53, 1)]
          = some (1 + FLT_EPSILON)
      ∧ TimeUntilNextSample_runR 1 0 [(1 / 4, [1])] = some 1)
    ∧ (accInClosedRange (1 + FLT_EPSILON) ∧ accInClosedRange 1) :=
  have h := accumulator_bounded_closed 3 1 (1 / 2) _ _ 2
    [(1 - 1 / 2 ^ 23 + 1 / 2 ^ 53, 1)] (1 + FLT_EPSILON) 1 [(1 / 4, [1])] 1
    CaOscilOpcode_Init_example CaOscilOpcodeR_Init_example TimeUntilNextSample_run_tie
    TimeUntilNextSample_runR_example
  ⟨⟨CaOscilOpcode_Init_example, CaOscilOpcodeR_Init_example, TimeUntilNextSample_run_tie,
    TimeUntilNextSample_runR_example⟩, h.1.1, h.2.1⟩

/-- Counterexample to C16 as stated, on the double accumulator. After `Init`
(accumulator 0) the first sample at speed 1 produces two generations (the
accumulator goes `-1`, `0`, `1`), while the ceiling of the speed is 1. And the first
sample at speed `2^54` never leaves the loop: the accumulator is `-2^54`, and
`-2^54 + 1.0` is a tie that rounds back to `-2^54`, so no bound on the iterations
suffices. -/
theorem TimeUntilNextSample_generations_counterexample :
    (∃ p : CaOscilOpcode, CaOscilOpcode_Init 3 1 (1 / 2) = some p
        ∧ p.TimeUntilNextSample = 0)
      ∧ FLT_EPSILON ≤ |(1 : ℚ)|
      ∧ TimeUntilNextSample_sample 2 |(1 : ℚ)| 0 = some (1, 2)
      ∧ (⌈|(1 : ℚ)|⌉).toNat = 1
      ∧ roundDouble (-(2 ^ 54) + 1) = -(2 ^ 54)
      ∧ ∀ fuel : Nat, TimeUntilNextSample_sample fuel |(2 ^ 54 : ℚ)| 0 = none := by
  refine ⟨⟨_, CaOscilOpcode_Init_example, rfl⟩, ?_, ?_, ?_, roundDouble_tie_stuck, ?_⟩
  · rw [abs_one]; exact FLT_EPSILON_lt_one.le
  · rw [abs_one]; exact TimeUntilNextSample_sample_first
  · rw [abs_one, Int.ceil_one]; rfl
  · intro fuel
    rw [abs_of_pos (by norm_num : (0 : ℚ) < 2 ^ 54)]
    exact TimeUntilNextSample_sample_stuck fuel

/-- Claim C16, amended: for every accumulator reached from `CaOscilOpcode_Init` by
performance calls, and every sample processed at a speed of magnitude at least
`FLT_EPSILON` and at most `2^53`, the catch-up loop on the double accumulator
exits, after at most `ceil(speed) + 1` generations, with the accumulator at least
`FLT_EPSILON` and at most `1 + FLT_EPSILON`: every bound on the iterations of at
least `ceil(speed) + 1` yields this result, which is also the accumulator after a
call on a block of one sample. -/
theorem TimeUntilNextSample_generations_bound (in_rule in_order in_seed : ℚ)
    (p0 : CaOscilOpcode) (fuel0 : Nat) (calls : List (ℚ × Nat)) (T in_speedmod : ℚ)
    (fuel : Nat)
    (hinit : CaOscilOpcode_Init in_rule in_order in_seed = some p0)
    (hrun : TimeUntilNextSample_run fuel0 p0.TimeUntilNextSample calls = some T)
    (hspeed : FLT_EPSILON ≤ |in_speedmod|) (hmax : |in_speedmod| ≤ 2 ^ 53)
    (hfuel : (⌈|in_speedmod|⌉).toNat + 1 ≤ fuel) :
    ∃ r : ℚ × Nat, TimeUntilNextSample_sample fuel |in_speedmod| T = some r
      ∧ r.2 ≤ (⌈|in_speedmod|⌉).toNat + 1
      ∧ FLT_EPSILON ≤ r.1 ∧ r.1 ≤ 1 + FLT_EPSILON
      ∧ TimeUntilNextSample_Process fuel T in_speedmod 1 = some r.1 := by
  have hT := TimeUntilNextSample_run_range calls
    (Or.inl (CaOscilOpcode_Init_some hinit).2.1) hrun
  obtain ⟨r, hr, hc⟩ := TimeUntilNextSample_sample_terminates
    (accInClosedRange_nonneg hT) (abs_nonneg in_speedmod) hmax fuel hfuel
  obtain ⟨hlo, hhi⟩ := TimeUntilNextSample_sample_bounds (abs_nonneg in_speedmod)
    (accInClosedRange_le hT) hr
  refine ⟨r, hr, hc, hlo, hhi, ?_⟩
  unfold TimeUntilNextSample_Process
  simp only [if_neg (not_lt.mpr hspeed), TimeUntilNextSample_block, hr, Option.some_bind]

/-- One call at speed `1/4` on a block of one sample, from the accumulator 0:
one generation, accumulator `3/4`. -/
theorem TimeUntilNextSample_run_example :
    TimeUntilNextSample_run 1 0 [(1 / 4, 1)] = some (3 / 4) := by
  have habs : |(1 / 4 : ℚ)| = 1 / 4 := abs_of_pos (by norm_num)
  have hge : ¬ (1 / 4 : ℚ) < FLT_EPSILON := by unfold FLT_EPSILON; norm_num
  have e1 : (0 - 1 / 4 : ℚ) = ((-1 : ℤ) : ℚ) * 2 ^ (-2 : ℤ) := by norm_num
  have r1 := roundDouble_of_significand (-1) (-2) (by norm_num)
  have e2 : ((-1 : ℤ) : ℚ) * 2 ^ (-2 : ℤ) + 1 = ((3 : ℤ) : ℚ) * 2 ^ (-2 : ℤ) := by norm_num
  have r2 := roundDouble_of_significand 3 (-2) (by norm_num)
  have l1 : ((-1 : ℤ) : ℚ) * 2 ^ (-2 : ℤ) < FLT_EPSILON := by unfold FLT_EPSILON; norm_num
  have l2 : FLT_EPSILON ≤ ((3 : ℤ) : ℚ) * 2 ^ (-2 : ℤ) := by unfold FLT_EPSILON; norm_num
  have hs : TimeUntilNextSample_sample 1 (1 / 4) 0 = some (3 / 4, 1) := by
    unfold TimeUntilNextSample_sample
    rw [e1, r1, TimeUntilNextSample_catchUp_of_lt 0 l1, e2, r2,
      TimeUntilNextSample_catchUp_of_ge 0 l2]
    norm_num
  simp only [TimeUntilNextSample_run, TimeUntilNextSample_Process, habs, if_neg hge,
    TimeUntilNextSample_block, hs, Option.some_bind]

/-- Witness of C16 amended: rule 3, order 1, seed `1/2`, one earlier call at speed
`1/4`, then a sample at speed `3/2` with a bound of three iterations. -/
theorem TimeUntilNextSample_generations_bound_witness :
    (CaOscilOpcode_Init 3 1 (1 / 2)
        = some { state := 0, rule := 3, order := 1, TimeUntilNextSample := 0,
                 currentVal := -1, targetVal := -1, delta := 0 }
      ∧ TimeUntilNextSample_run 1 0 [(1 / 4, 1)] = some (3 / 4)
      ∧ FLT_EPSILON ≤ |(3 / 2 : ℚ)| ∧ |(3 / 2 : ℚ)| ≤ 2 ^ 53
      ∧ (⌈|(3 / 2 : ℚ)|⌉).toNat + 1 ≤ 3)
    ∧ ∃ r : ℚ × Nat, TimeUntilNextSample_sample 3 |(3 / 2 : ℚ)| (3 / 4) = some r
        ∧ r.2 ≤ (⌈|(3 / 2 : ℚ)|⌉).toNat + 1 := by
  have habs : |(3 / 2 : ℚ)| = 3 / 2 := abs_of_pos (by norm_num)
  have h1 : FLT_EPSILON ≤ |(3 / 2 : ℚ)| := by
    rw [habs]; unfold FLT_EPSILON; norm_num
  have h2 : |(3 / 2 : ℚ)| ≤ 2 ^ 53 := by rw [habs]; norm_num
  have hceil : ⌈|(3 / 2 : ℚ)|⌉ = 2 := by
    rw [habs, Int.ceil_eq_iff]
    constructor <;> norm_num
  have h3 : (⌈|(3 / 2 : ℚ)|⌉).toNat + 1 ≤ 3 := by
    rw [hceil]; decide
  obtain ⟨r, hr, hc, _⟩ := TimeUntilNextSample_generations_bound 3 1 (1 / 2) _ 1
    [(1 / 4, 1)] (3 / 4) (3 / 2) 3 CaOscilOpcode_Init_example
    TimeUntilNextSample_run_example h1 h2 h3
  exact ⟨⟨CaOscilOpcode_Init_example, TimeUntilNextSample_run_example, h1, h2, h3⟩,
    r, hr, hc⟩

/-! ## The ramp in double precision -/

theorem roundEven_add_fract (f : ℤ) (r : ℚ) (h0 : 0 ≤ r) (h1 : r < 1) :
    roundEven ((f : ℚ) + r)
      = if 2 * r < 1 then f else if 1 < 2 * r then f + 1
        else if f % 2 = 0 then f else f + 1 := by
  have hfl : ⌊(f : ℚ) + r⌋ = f := by
    rw [Int.floor_eq_iff]
    constructor <;> linarith
  have hfr : Int.fract ((f : ℚ) + r) = r := by
    unfold Int.fract
    rw [hfl]
    ring
  unfold roundEven
  rw [hfr, hfl]

theorem roundEven_neg (y : ℚ) : roundEven (-y) = -roundEven y := by
  have hy : y = (⌊y⌋ : ℚ) + Int.fract y := (Int.floor_add_fract y).symm
  have h0 := Int.fract_nonneg y
  have h1 := Int.fract_lt_one y
  rcases eq_or_lt_of_le h0 with hz | hpos
  · have hyi : y = (⌊y⌋ : ℚ) := by rw [← hz, add_zero] at hy; exact hy
    rw [hyi, ← Int.cast_neg, roundEven_intCast, roundEven_intCast]
  · have hneg : -y = ((-⌊y⌋ - 1 : ℤ) : ℚ) + (1 - Int.fract y) := by
      push_cast
      linarith
    rw [hneg, roundEven_add_fract _ _ (by linarith) (by linarith)]
    conv_rhs => rw [hy, roundEven_add_fract _ _ h0 h1]
    split_ifs <;> first | omega | (exfalso; linarith)

theorem roundDouble_neg_eq (x : ℚ) : roundDouble (-x) = -roundDouble x := by
  rcases eq_or_ne x 0 with h0 | h0
  · rw [h0, neg_zero, roundDouble_zero, neg_zero]
  · rw [roundDouble_of_ne_zero h0, roundDouble_of_ne_zero (neg_ne_zero.mpr h0), abs_neg,
      neg_div, roundEven_neg]
    push_cast
    ring

/-- A value whose significand has magnitude at most `2^53` is a double. -/
theorem roundDouble_of_significand_le (n k : ℤ) (hn : |n| ≤ 2 ^ 53) :
    roundDouble ((n : ℚ) * 2 ^ k) = (n : ℚ) * 2 ^ k := by
  rcases lt_or_eq_of_le hn with hlt | heq
  · exact roundDouble_of_significand n k hlt
  · have hpow : (2 : ℚ) ^ (53 : ℕ) * 2 ^ k = 2 ^ (k + 53) := by
      rw [← zpow_natCast, ← zpow_add₀ (by norm_num : (2 : ℚ) ≠ 0)]
      congr 1
      push_cast
      ring
    rcases abs_eq (by norm_num : (0 : ℤ) ≤ 2 ^ 53) |>.mp heq with h | h
    · have r := roundDouble_of_significand 1 (k + 53) (by norm_num)
      have e : ((n : ℤ) : ℚ) * 2 ^ k = ((1 : ℤ) : ℚ) * 2 ^ (k + 53) := by
        rw [h]; push_cast; linear_combination hpow
      rw [e]; exact r
    · have r := roundDouble_of_significand (-1) (k + 53) (by norm_num)
      have e : ((n : ℤ) : ℚ) * 2 ^ k = ((-1 : ℤ) : ℚ) * 2 ^ (k + 53) := by
        rw [h]; push_cast; linear_combination (-1 : ℚ) * hpow
      rw [e]; exact r

/-- The form of the double nearest to a positive value. -/
theorem roundDouble_pos_form {x : ℚ} (hx : 0 < x) :
    ∃ n : ℤ, 2 ^ 52 ≤ n ∧ n ≤ 2 ^ 53
      ∧ roundDouble x = (n : ℚ) * 2 ^ (Int.log 2 x - 52)
      ∧ x < ((n : ℚ) + 1) * 2 ^ (Int.log 2 x - 52)
      ∧ (2 : ℚ) ^ 52 * 2 ^ (Int.log 2 x - 52) ≤ x
      ∧ x < (2 : ℚ) ^ 53 * 2 ^ (Int.log 2 x - 52) := by
  have hne : x ≠ 0 := hx.ne'
  have habs : |x| = x := abs_of_pos hx
  obtain ⟨h1, h2⟩ := scaled_bounds hne
  rw [habs] at h1 h2
  have hq := two_zpow_pos (Int.log 2 x - 52)
  have hlo : ((2 ^ 52 : ℤ) : ℚ) ≤ x / 2 ^ (Int.log 2 x - 52) := by
    rw [le_div_iff₀ hq]
    push_cast
    exact h1
  have hhi : x / 2 ^ (Int.log 2 x - 52) ≤ ((2 ^ 53 : ℤ) : ℚ) := by
    rw [div_le_iff₀ hq]
    push_cast
    exact h2.le
  have r1 := roundEven_mono hlo
  have r2 := roundEven_mono hhi
  rw [roundEven_intCast] at r1 r2
  refine ⟨roundEven (x / 2 ^ (Int.log 2 x - 52)), r1, r2, ?_, ?_, h1, h2⟩
  · rw [roundDouble_of_ne_zero hne, habs]
  · have hfl := roundEven_ge_floor (x / 2 ^ (Int.log 2 x - 52))
    have hlt := Int.lt_floor_add_one (x / 2 ^ (Int.log 2 x - 52))
    have hflq : ((⌊x / 2 ^ (Int.log 2 x - 52)⌋ : ℤ) : ℚ)
        ≤ (roundEven (x / 2 ^ (Int.log 2 x - 52)) : ℚ) := by exact_mod_cast hfl
    have : x / 2 ^ (Int.log 2 x - 52)
        < (roundEven (x / 2 ^ (Int.log 2 x - 52)) : ℚ) + 1 := by linarith
    rwa [div_lt_iff₀ hq] at this

/-- Multiplying the double nearest to a positive value by a speed of at least
`1 + 2^-52` and rounding gives at least that value. -/
theorem roundDouble_scale_ge {u s : ℚ} (hu : 0 < u) (hs : 1 + 1 / 2 ^ 52 ≤ s) :
    u ≤ roundDouble (roundDouble u * s) := by
  obtain ⟨n, hn1, hn2, hform, hup, hlo, _⟩ := roundDouble_pos_form hu
  have hq := two_zpow_pos (Int.log 2 u - 52)
  have hnq : ((2 ^ 52 : ℤ) : ℚ) ≤ (n : ℚ) := by exact_mod_cast hn1
  push_cast at hnq
  have hd : 0 < roundDouble u := roundDouble_pos hu
  rcases lt_or_eq_of_le hn2 with hlt | heq
  · -- the successor of the rounded value is a double between
    have hv := roundDouble_of_significand_le (n + 1) (Int.log 2 u - 52)
      (by rw [abs_of_nonneg (by omega)]; omega)
    push_cast at hv
    have hle : ((n : ℚ) + 1) * 2 ^ (Int.log 2 u - 52) ≤ roundDouble u * s := by
      rw [hform]
      have h1 : (n : ℚ) * 2 ^ (Int.log 2 u - 52) * (1 + 1 / 2 ^ 52)
          ≤ (n : ℚ) * 2 ^ (Int.log 2 u - 52) * s :=
        mul_le_mul_of_nonneg_left hs (by rw [← hform]; exact hd.le)
      have h2 : (2 : ℚ) ^ 52 * 2 ^ (Int.log 2 u - 52) ≤ (n : ℚ) * 2 ^ (Int.log 2 u - 52) :=
        mul_le_mul_of_nonneg_right hnq hq.le
      have h3 : (n : ℚ) * 2 ^ (Int.log 2 u - 52) * (1 + 1 / 2 ^ 52)
          = (n : ℚ) * 2 ^ (Int.log 2 u - 52)
            + (n : ℚ) * 2 ^ (Int.log 2 u - 52) / 2 ^ 52 := by ring
      have h4 : (2 : ℚ) ^ (Int.log 2 u - 52)
          ≤ (n : ℚ) * 2 ^ (Int.log 2 u - 52) / 2 ^ 52 := by
        rw [le_div_iff₀ (by positivity)]
        linarith
      linarith
    have hm := roundDouble_mono hle
    rw [hv] at hm
    linarith
  · have hfix := roundDouble_of_significand_le n (Int.log 2 u - 52)
      (by rw [heq]; norm_num)
    rw [← hform] at hfix
    have hge : u ≤ roundDouble u := by
      rw [hform, heq]
      push_cast
      linarith
    have hle : roundDouble u ≤ roundDouble u * s := by
      have : (1 : ℚ) ≤ s := by
        have : (0 : ℚ) < 1 / 2 ^ 52 := by positivity
        linarith
      nlinarith
    have hm := roundDouble_mono hle
    rw [hfix] at hm
    linarith

theorem roundDouble_scale_le {u s : ℚ} (hu : u < 0) (hs : 1 + 1 / 2 ^ 52 ≤ s) :
    roundDouble (roundDouble u * s) ≤ u := by
  have h := roundDouble_scale_ge (neg_pos.mpr hu) hs
  rw [roundDouble_neg_eq, neg_mul, roundDouble_neg_eq] at h
  linarith

/-- With a fresh delta and a speed of at least `1 + 2^-52`, the ramp in double
precision lands on the target, whatever the current value before the sample. -/
theorem currentVal_freshRamp_eq {SpeedMod c t : ℚ} (hs : 1 + 1 / 2 ^ 52 ≤ SpeedMod)
    (ht : roundDouble t = t) :
    currentVal_freshRamp SpeedMod c t = t := by
  unfold currentVal_freshRamp
  simp only [decide_eq_true_eq]
  rcases lt_trichotomy c t with hlt | heq | hgt
  · rw [if_pos hlt]
    apply min_eq_right
    have h := roundDouble_scale_ge (sub_pos.mpr hlt) hs
    have hm : roundDouble t ≤ roundDouble (c + roundDouble (roundDouble (t - c) * SpeedMod)) :=
      roundDouble_mono (by linarith)
    rw [ht] at hm
    exact hm
  · rw [if_neg (by rw [heq]; exact lt_irrefl _), heq, sub_self, roundDouble_zero, zero_mul,
      roundDouble_zero, add_zero, ht, max_self]
  · rw [if_neg (not_lt.mpr hgt.le)]
    apply max_eq_right
    have h := roundDouble_scale_le (sub_neg.mpr hgt) hs
    have hm : roundDouble (c + roundDouble (roundDouble (t - c) * SpeedMod)) ≤ roundDouble t :=
      roundDouble_mono (by linarith)
    rw [ht] at hm
    exact hm

/-! ## Samples at one or more generations per sample -/

theorem CaOscilOpcode_generation_iterate (n : Nat) (p : CaOscilOpcode) :
    (CaOscilOpcode_generation^[n] p).state
        = (fun st => Evolve st p.rule p.order)^[n] p.state
      ∧ (CaOscilOpcode_generation^[n] p).rule = p.rule
      ∧ (CaOscilOpcode_generation^[n] p).order = p.order := by
  induction n generalizing p with
  | zero => exact ⟨rfl, rfl, rfl⟩
  | succ n ih =>
    rw [Function.iterate_succ_apply, Function.iterate_succ_apply]
    obtain ⟨h1, h2, h3⟩ := ih (CaOscilOpcode_generation p)
    exact ⟨h1, h2, h3⟩

/-- The automaton state after one sample is the state before it evolved once for
each generation the sample produced. -/
theorem CaOscilOpcode_sample_state (SpeedMod : ℚ) (p : CaOscilOpcode) :
    (CaOscilOpcode_sample SpeedMod p).state
      = (fun st => Evolve st p.rule p.order)^[CaOscilOpcode_sampleGenerations SpeedMod p]
          p.state := by
  have h1 : (CaOscilOpcode_sample SpeedMod p).state
      = (CaOscilOpcode_catchUp
          { p with TimeUntilNextSample := p.TimeUntilNextSample - SpeedMod }).state := rfl
  rw [h1, CaOscilOpcode_catchUp_eq_iterate]
  exact (CaOscilOpcode_generation_iterate _ _).1

/-- Counterexample to C19 as stated, on the double accumulator. After `Init`
(accumulator 0) one sample at the speed `1 - 2^-23 + 2^-53` leaves the accumulator
at `1 + FLT_EPSILON`; a sample at speed 1 then decrements it to `FLT_EPSILON`,
which is not below the threshold of the loop: no generation is produced in that
sample, whatever the bound on the iterations. -/
theorem TimeUntilNextSample_stall_counterexample :
    (∃ p : CaOscilOpcode, CaOscilOpcode_Init 3 1 (1 / 2) = some p
        ∧ p.TimeUntilNextSample = 0)
      ∧ TimeUntilNextSample_run 2 0 [(1 - 1 / 2 ^ 23 + 1 / 2 ^ 53, 1)]
          = some (1 + FLT_EPSILON)
      ∧ 1 ≤ |(1 : ℚ)|
      ∧ ∀ fuel : Nat,
          TimeUntilNextSample_sample fuel |(1 : ℚ)| (1 + FLT_EPSILON)
            = some (FLT_EPSILON, 0) := by
  refine ⟨⟨_, CaOscilOpcode_Init_example, rfl⟩, TimeUntilNextSample_run_tie, ?_, ?_⟩
  · rw [abs_one]
  · intro fuel
    rw [abs_one]
    exact TimeUntilNextSample_sample_stall fuel

/-- Claim C19, amended. In double precision: for every accumulator reached from
`CaOscilOpcode_Init` by performance calls and every speed of magnitude at least
`1 + 2^-52` (every double above 1), each sample whose loop exits produces at least
one generation, and the sample it emits, the current value after the ramp from the
fresh delta and the clamp, is the new target value exactly. At a speed of magnitude
at least 1, the same holds in exact arithmetic: for every instance reached from
`CaOscilOpcode_Init` by performance calls, at least one generation is produced in
the sample (the automaton state after the sample is the state before it evolved
that many times) and output = `currentVal` = `targetVal` = `CaToFloat` of the
automaton state after the sample. -/
theorem CaOscilOpcode_no_interpolation (in_rule in_order in_seed : ℚ)
    (p0 : CaOscilOpcode) (calls : List (ℚ × Nat)) (in_speedmod : ℚ)
    (hinit : CaOscilOpcode_Init in_rule in_order in_seed = some p0)
    (hspeed : 1 ≤ |in_speedmod|) :
    (1 ≤ CaOscilOpcode_sampleGenerations |in_speedmod| (CaOscilOpcode_run p0 calls).1
      ∧ (CaOscilOpcode_sample |in_speedmod| (CaOscilOpcode_run p0 calls).1).state
          = (fun st => Evolve st (CaOscilOpcode_run p0 calls).1.rule
                (CaOscilOpcode_run p0 calls).1.order)^[
              CaOscilOpcode_sampleGenerations |in_speedmod| (CaOscilOpcode_run p0 calls).1]
              (CaOscilOpcode_run p0 calls).1.state
      ∧ (CaOscilOpcode_sample |in_speedmod| (CaOscilOpcode_run p0 calls).1).currentVal
          = (CaOscilOpcode_sample |in_speedmod| (CaOscilOpcode_run p0 calls).1).targetVal
      ∧ (CaOscilOpcode_sample |in_speedmod| (CaOscilOpcode_run p0 calls).1).currentVal
          = CaToFloat
              (CaOscilOpcode_sample |in_speedmod| (CaOscilOpcode_run p0 calls).1).state
      ∧ (CaOscilOpcode_Process (CaOscilOpcode_run p0 calls).1 in_speedmod 1).2
          = [CaToFloat
              (CaOscilOpcode_Process (CaOscilOpcode_run p0 calls).1 in_speedmod 1).1.state])
    ∧ (∀ (fuel0 : Nat) (callsD : List (ℚ × Nat)) (T : ℚ) (fuel : Nat) (r : ℚ × Nat),
        TimeUntilNextSample_run fuel0 p0.TimeUntilNextSample callsD = some T →
        1 + 1 / 2 ^ 52 ≤ |in_speedmod| →
        TimeUntilNextSample_sample fuel |in_speedmod| T = some r →
        1 ≤ r.2)
    ∧ (∀ c t : ℚ, roundDouble t = t → 1 + 1 / 2 ^ 52 ≤ |in_speedmod| →
        currentVal_freshRamp |in_speedmod| c t = t) := by
  have hacc := accInRange_lt (CaOscilOpcode_reachable_acc hinit calls)
  have hlt : ({ (CaOscilOpcode_run p0 calls).1 with
        TimeUntilNextSample :=
          (CaOscilOpcode_run p0 calls).1.TimeUntilNextSample - |in_speedmod| }
        : CaOscilOpcode).TimeUntilNextSample < FLT_EPSILON := by
    show (CaOscilOpcode_run p0 calls).1.TimeUntilNextSample - |in_speedmod| < FLT_EPSILON
    linarith
  obtain ⟨hd, ht, _⟩ := CaOscilOpcode_catchUp_fresh _ hlt
  have hcur : (CaOscilOpcode_sample |in_speedmod| (CaOscilOpcode_run p0 calls).1).currentVal
      = (CaOscilOpcode_sample |in_speedmod| (CaOscilOpcode_run p0 calls).1).targetVal :=
    CaOscilOpcode_ramp_full hspeed _ hd
  have hstate : (CaOscilOpcode_sample |in_speedmod| (CaOscilOpcode_run p0 calls).1).currentVal
      = CaToFloat
          (CaOscilOpcode_sample |in_speedmod| (CaOscilOpcode_run p0 calls).1).state :=
    hcur.trans ht
  refine ⟨⟨?_, CaOscilOpcode_sample_state _ _, hcur, hstate, ?_⟩, ?_,
    fun c t ht hs => currentVal_freshRamp_eq hs ht⟩
  · unfold CaOscilOpcode_sampleGenerations
    rw [CaOscilOpcode_catchUpCount_of_lt hlt]
    exact Nat.le_add_left _ _
  · have hge : ¬ |in_speedmod| < FLT_EPSILON :=
      not_lt.mpr (le_trans FLT_EPSILON_lt_one.le hspeed)
    unfold CaOscilOpcode_Process
    simp only [if_neg hge, CaOscilOpcode_block]
    rw [hstate]
  · intro fuel0 callsD T fuel r hrun hs hr
    have hT := TimeUntilNextSample_run_range callsD
      (Or.inl (CaOscilOpcode_Init_some hinit).2.1) hrun
    exact TimeUntilNextSample_sample_count_pos (accInClosedRange_le hT) hs hr

/-- A sample at speed `3/2` from the accumulator `3/4`: one generation, accumulator
`1/4`. -/
theorem TimeUntilNextSample_sample_example :
    TimeUntilNextSample_sample 3 (3 / 2) (3 / 4) = some (1 / 4, 1) := by
  have e1 : (3 / 4 - 3 / 2 : ℚ) = ((-3 : ℤ) : ℚ) * 2 ^ (-2 : ℤ) := by norm_num
  have r1 := roundDouble_of_significand (-3) (-2) (by norm_num)
  have e2 : ((-3 : ℤ) : ℚ) * 2 ^ (-2 : ℤ) + 1 = ((1 : ℤ) : ℚ) * 2 ^ (-2 : ℤ) := by norm_num
  have r2 := roundDouble_of_significand 1 (-2) (by norm_num)
  have l1 : ((-3 : ℤ) : ℚ) * 2 ^ (-2 : ℤ) < FLT_EPSILON := by unfold FLT_EPSILON; norm_num
  have l2 : FLT_EPSILON ≤ ((1 : ℤ) : ℚ) * 2 ^ (-2 : ℤ) := by unfold FLT_EPSILON; norm_num
  unfold TimeUntilNextSample_sample
  rw [e1, r1, TimeUntilNextSample_catchUp_of_lt 2 l1, e2, r2,
    TimeUntilNextSample_catchUp_of_ge 2 l2]
  norm_num

/-- Witness of C19 amended: rule 3, order 1, seed `1/2`, one earlier call at speed
`1/4`, then a sample at speed `3/2`: one generation in exact arithmetic and on the
double accumulator (from `3/4` to `1/4`), and the double ramp from the current
value `-1` lands on the target `1`. -/
theorem CaOscilOpcode_no_interpolation_witness :
    (CaOscilOpcode_Init 3 1 (1 / 2)
        = some { state := 0, rule := 3, order := 1, TimeUntilNextSample := 0,
                 currentVal := -1, targetVal := -1, delta := 0 }
      ∧ 1 ≤ |(3 / 2 : ℚ)|
      ∧ TimeUntilNextSample_run 1 0 [(1 / 4, 1)] = some (3 / 4)
      ∧ 1 + 1 / 2 ^ 52 ≤ |(3 / 2 : ℚ)|
      ∧ TimeUntilNextSample_sample 3 |(3 / 2 : ℚ)| (3 / 4) = some (1 / 4, 1)
      ∧ roundDouble 1 = 1)
    ∧ 1 ≤ CaOscilOpcode_sampleGenerations |(3 / 2 : ℚ)|
        (CaOscilOpcode_run
          { state := 0, rule := 3, order := 1, TimeUntilNextSample := 0,
            currentVal := -1, targetVal := -1, delta := 0 } [(1 / 4, 1)]).1
    ∧ 1 ≤ ((1 / 4 : ℚ), 1).2
    ∧ currentVal_freshRamp |(3 / 2 : ℚ)| (-1) 1 = 1 := by
  have habs : |(3 / 2 : ℚ)| = 3 / 2 := abs_of_pos (by norm_num)
  have h1 : 1 ≤ |(3 / 2 : ℚ)| := by rw [habs]; norm_num
  have h2 : 1 + 1 / 2 ^ 52 ≤ |(3 / 2 : ℚ)| := by rw [habs]; norm_num
  have h3 : TimeUntilNextSample_sample 3 |(3 / 2 : ℚ)| (3 / 4) = some (1 / 4, 1) := by
    rw [habs]; exact TimeUntilNextSample_sample_example
  have h := CaOscilOpcode_no_interpolation 3 1 (1 / 2) _ [(1 / 4, 1)] (3 / 2)
    CaOscilOpcode_Init_example h1
  exact ⟨⟨CaOscilOpcode_Init_example, h1, TimeUntilNextSample_run_example, h2, h3,
      roundDouble_one⟩,
    h.1.1, h.2.1 1 [(1 / 4, 1)] (3 / 4) 3 _ TimeUntilNextSample_run_example h2 h3,
    h.2.2 (-1) 1 roundDouble_one h2⟩
